import Mathlib

/-!
The remark-preset-claude preset: tier classification and tier-scoped lint rules

A shallow embedding of `src/tools/remark-preset-claude/index.mjs`.

* JavaScript strings are `List Char` (text decoded from a file is well formed, so a list of
  Unicode scalar values represents it); `jsLength` is the JavaScript `.length` (UTF-16 units).
* A document tree is a `Node` (type, optional `value`, optional `alt`, children), which is what
  `unist-util-visit` and `mdast-util-to-string` look at.
* A lint rule is a function returning the list of messages it passes to `file.message`, in order.
* `path.relative(process.cwd(), ·)` reads the ambient working directory; it is the parameter
  `relative` of every definition that classifies a file.
* `emoji-regex` is a generated pattern; whether a string contains a match is the parameter
  `hasEmoji`.
-/

namespace RemarkClaude

set_option maxRecDepth 100000

/-! ## JavaScript strings -/

/-- JavaScript string as a list of Unicode scalar values. -/
abbrev Str := List Char

/-- JavaScript `s.length`: the number of UTF-16 code units. -/
def jsLength (s : Str) : Nat :=
  (s.map (fun c => if c.toNat < 65536 then 1 else 2)).sum

/-- The characters matched by `\s` and removed by `String.prototype.trim`
(WhiteSpace and LineTerminator of ECMAScript). -/
def isSpace (c : Char) : Bool :=
  let n := c.toNat
  n == 9 || n == 10 || n == 11 || n == 12 || n == 13 || n == 32 || n == 160 || n == 5760 ||
  (8192 ≤ n && n ≤ 8202) || n == 8232 || n == 8233 || n == 8239 || n == 8287 ||
  n == 12288 || n == 65279

/-- The characters matched by `\w` (no `u` flag): ASCII letters, digits and underscore. -/
def isWordChar (c : Char) : Bool :=
  let n := c.toNat
  (48 ≤ n && n ≤ 57) || (65 ≤ n && n ≤ 90) || n == 95 || (97 ≤ n && n ≤ 122)

/-- ASCII letters, the class `[A-Za-z]`. -/
def isAsciiLetter (c : Char) : Bool :=
  let n := c.toNat
  (65 ≤ n && n ≤ 90) || (97 ≤ n && n ≤ 122)

/-- `String.prototype.trim`. -/
def trim (s : Str) : Str :=
  ((s.dropWhile isSpace).reverse.dropWhile isSpace).reverse

/-- Lower-casing of one character, as far as it can produce ASCII: `A`-`Z`, the Kelvin sign
(U+212A, lower case `k`) and U+0130 (lower case `i` followed by U+0307). -/
def lowerChar (c : Char) : Str :=
  let n := c.toNat
  if 65 ≤ n ∧ n ≤ 90 then [Char.ofNat (n + 32)]
  else if n = 8490 then ['k']
  else if n = 304 then ['i', Char.ofNat 775]
  else [c]

/-- `String.prototype.toLowerCase`. Characters outside ASCII other than the two above are kept
as they are; their JavaScript lower case is again outside ASCII, so every comparison of the
result with an ASCII word comes out as in JavaScript. -/
def toLowerCase (s : Str) : Str :=
  s.flatMap lowerChar

/-- Equality of a pattern character `p` and a text character `c` under the `i` flag of a
regular expression without the `u` flag: the same character, or the two cases of one ASCII
letter (canonicalisation never maps a character outside ASCII into ASCII). -/
def eqIgnoreCase (p c : Char) : Bool :=
  p == c ||
  (isAsciiLetter p && isAsciiLetter c &&
    (p.toNat + 32 == c.toNat || c.toNat + 32 == p.toNat))

/-- Case-insensitive prefix test: `stripPrefixCI w s` is what follows `w` at the start of `s`. -/
def stripPrefixCI : Str → Str → Option Str
  | [], s => some s
  | _ :: _, [] => none
  | p :: ps, c :: cs => if eqIgnoreCase p c then stripPrefixCI ps cs else none

/-- `hay.includes(needle)`. -/
def includes (hay needle : Str) : Bool :=
  hay.tails.any (fun t => needle.isPrefixOf t)

/-- `Array.prototype.indexOf`: the first position of `x`, or `-1`. -/
def indexOf (xs : List Str) (x : Str) : Int :=
  match xs with
  | [] => -1
  | y :: ys =>
    if y = x then 0
    else if indexOf ys x = -1 then -1
    else indexOf ys x + 1

/-- `Array.prototype.join`. -/
def join (sep : Str) : List Str → Str
  | [] => []
  | [x] => x
  | x :: y :: rest => x ++ sep ++ join sep (y :: rest)

/-! ## Document trees -/

/-- Node of an mdast tree: its `type`, its `value` and `alt` fields when present, and its
children (none for a literal). -/
inductive Node where
  | mk (type : String) (value : Option Str) (alt : Option Str) (children : List Node)

/-- The `type` field. -/
def Node.type : Node → String
  | .mk t _ _ _ => t

/-- The `value` field. -/
def Node.value : Node → Option Str
  | .mk _ v _ _ => v

/-- The `children` field. -/
def Node.children : Node → List Node
  | .mk _ _ _ cs => cs

mutual
/-- `toString(node)` of mdast-util-to-string with its default options (images give their
`alt`, html its `value`): the `value` of a node that has one, else a non-empty `alt`, else the
concatenation over the children. -/
def toString : Node → Str
  | .mk _ (some v) _ _ => v
  | .mk _ none (some (a :: as)) _ => a :: as
  | .mk _ none _ cs => toStringAll cs
/-- The concatenation of `toString` over a list of nodes. -/
def toStringAll : List Node → Str
  | [] => []
  | n :: ns => toString n ++ toStringAll ns
end

mutual
/-- `visit(tree, type, visitor)` of unist-util-visit for a visitor that returns nothing: the
nodes of the given type in depth-first pre-order, the order in which the visitor is called. -/
def visit (ty : String) : Node → List Node
  | .mk t v a cs => (if t = ty then [Node.mk t v a cs] else []) ++ visitList ty cs
/-- The nodes of the given type in a list of sibling subtrees. -/
def visitList (ty : String) : List Node → List Node
  | [] => []
  | n :: ns => visit ty n ++ visitList ty ns
end

mutual
/-- `visitParents(tree, type, visitor)`: as `visit`, each node paired with its ancestors from
the root down to its parent. -/
def visitParents (ty : String) (ancestors : List Node) : Node → List (Node × List Node)
  | .mk t v a cs =>
    (if t = ty then [(Node.mk t v a cs, ancestors)] else []) ++
      visitParentsList ty (ancestors ++ [Node.mk t v a cs]) cs
/-- The visited nodes of a list of siblings below the given ancestors. -/
def visitParentsList (ty : String) (ancestors : List Node) : List Node → List (Node × List Node)
  | [] => []
  | n :: ns => visitParents ty ancestors n ++ visitParentsList ty ancestors ns
end

/-! ## Files and messages -/

/-- The virtual file a rule receives: `file.path` (absent when `none`) and `String(file)`. -/
structure VFile where
  path : Option Str
  contents : Str

/-- Where a message points: nowhere, at a node, or at a line and column. -/
inductive Place where
  | unplaced
  | node (n : Node)
  | point (line column : Nat)

/-- One call of `file.message` made by the rule `ruleId`. -/
structure Message where
  ruleId : String
  reason : Str
  place : Place

/-! ## Constants of the preset -/

def STRICT_GLOBS : List Str :=
  ["commands/**/*.md".toList, "skills/**/SKILL.md".toList, "agents/**/AGENT.md".toList,
   "rules/**/*.md".toList, "AGENTS.md".toList, "CLAUDE.md".toList]

def MODERATE_GLOBS : List Str :=
  ["governance/**/*.md".toList, "config-sync/**/*.md".toList, "agent-ops/**/*.md".toList]

def LIGHT_GLOBS : List Str :=
  ["**/*.md".toList]

def EXPECTED_HEADINGS : List Str :=
  ["scope".toList, "absolute-prohibitions".toList, "communication-protocol".toList,
   "structural-rules".toList, "language-rules".toList, "formatting-rules".toList,
   "naming-rules".toList, "validation-rules".toList, "narrative-detection".toList,
   "depth-compatibility".toList]

def MODERATE_HEADINGS : List Str :=
  ["purpose".toList, "scope".toList, "workflow".toList, "configuration".toList]

def DIRECTIVE_START : List Str :=
  ["required".toList, "prohibited".toList, "optional".toList, "allowed".toList,
   "ensure".toList, "use".toList, "keep".toList,
   "set".toList, "write".toList, "avoid".toList, "preserve".toList, "maintain".toList,
   "follow".toList, "apply".toList,
   "define".toList, "treat".toList, "skip".toList, "execute".toList, "disable".toList,
   "enable".toList, "list".toList,
   "include".toList, "exclude".toList, "respect".toList, "align".toList, "load".toList,
   "route".toList, "escalate".toList,
   "run".toList, "add".toList, "remove".toList, "update".toList, "create".toList,
   "delete".toList, "validate".toList,
   "check".toList, "test".toList, "build".toList, "deploy".toList, "configure".toList,
   "implement".toList]

/-- The alternatives of `MODAL_RE = /\b(may|might|could)\b/i`. -/
def MODAL_WORDS : List Str :=
  ["may".toList, "might".toList, "could".toList]

/-- The alternatives of `SUBJECTIVE_RE`. -/
def SUBJECTIVE_WORDS : List Str :=
  ["usually".toList, "typically".toList, "generally".toList, "often".toList, "maybe".toList,
   "perhaps".toList, "probably".toList]

/-- The alternatives of `NARRATIVE_START_RE`. -/
def NARRATIVE_WORDS : List Str :=
  ["this".toList, "the".toList, "that".toList, "these".toList, "those".toList, "our".toList,
   "we".toList, "you".toList, "they".toList, "it".toList, "a".toList, "an".toList]

/-! ## minimatch -/

/-- `slashSplit`: `p.split(/\/+/)`. -/
def slashSplit : Str → List Str
  | [] => [[]]
  | c :: cs =>
    if c = '/' then
      (if cs.head? = some '/' then slashSplit cs else [] :: slashSplit cs)
    else
      match slashSplit cs with
      | s :: ss => (c :: s) :: ss
      | [] => [[c]]

/-- The body of one path portion of a glob, made of literal characters and `*`, against the
rest of a path portion: a literal matches itself in either case, `*` matches any run of
characters. -/
def portionBody : Str → Str → Bool
  | [], s => s.isEmpty
  | p :: ps, s =>
    if p = '*' then s.tails.any (portionBody ps)
    else match s with
      | [] => false
      | c :: cs => eqIgnoreCase p c && portionBody ps cs

/-- One path portion of a glob against one path portion of a path, with `dot` off: a portion
that starts with `*` does not match a name that starts with a dot, and `*` alone does not match
the empty name. -/
def portionMatch (pat s : Str) : Bool :=
  (if pat.head? = some '*' then s.head? != some '.' else true) &&
  (if pat = ['*'] then !s.isEmpty else true) &&
  portionBody pat s

/-- The names `**` never swallows with `dot` off: `.`, `..` and every name starting with a dot. -/
def isDotted (s : Str) : Bool :=
  s.head? == some '.'

/-- The search of `matchOne` at a `**` that is not last: try the rest of the pattern at the
current portion, else swallow one portion, unless dotted, and go on. -/
def swallow (rest : List Str → Bool) : List Str → Bool
  | [] => false
  | f :: fs => rest (f :: fs) || (!isDotted f && swallow rest fs)

/-- `Minimatch.matchOne(file, pattern)` with `partial` off. -/
def matchOne : List Str → List Str → Bool
  | [], [] => true
  | [], f :: fs => fs.isEmpty && f.isEmpty
  | p :: ps, file =>
    if p = "**".toList then
      match file with
      | [] => false
      | f :: fs =>
        if ps.isEmpty then (f :: fs).all (fun x => !isDotted x)
        else swallow (matchOne ps) (f :: fs)
    else
      match file with
      | [] => false
      | f :: fs => portionMatch p f && matchOne ps fs

/-- `minimatch(rel, glob, {nocase: true})` for a glob built from literal characters, `*` and
`**` (no braces, classes, `?`, negation or comment), as every glob of the preset is. -/
def minimatch (rel glob : Str) : Bool :=
  matchOne (slashSplit glob) (slashSplit rel)

/-! ## Tier classification -/

/-- `getFileCategory(file)`; `relative` is `path.relative(process.cwd(), ·)`. -/
def getFileCategory (relative : Str → Str) (file : VFile) : String :=
  match file.path with
  | none => "none"
  | some p =>
    if p.isEmpty then "none"
    else
      let rel := relative p
      if STRICT_GLOBS.any (fun g => minimatch rel g) then "strict"
      else if MODERATE_GLOBS.any (fun g => minimatch rel g) then "moderate"
      else if LIGHT_GLOBS.any (fun g => minimatch rel g) then "light"
      else "none"

def isStrictFile (relative : Str → Str) (file : VFile) : Bool :=
  getFileCategory relative file == "strict"

def isModerateFile (relative : Str → Str) (file : VFile) : Bool :=
  getFileCategory relative file == "moderate"

def isLightFile (relative : Str → Str) (file : VFile) : Bool :=
  getFileCategory relative file == "light"

/-- Some glob of the set matches the relative path. -/
def matchesSome (globs : List Str) (rel : Str) : Prop :=
  ∃ g ∈ globs, minimatch rel g = true

instance (globs : List Str) (rel : Str) : Decidable (matchesSome globs rel) := by
  unfold matchesSome; infer_instance

/-! ## Regular expressions of the preset -/

/-- The assertion `\b` between two neighbouring characters (absent at either end of the text). -/
def wordBoundary (before after : Option Char) : Bool :=
  before.any isWordChar != after.any isWordChar

/-- The character before the position reached after reading `m`, when `prev` is the character
before `m`. -/
def lastOr : Option Char → Str → Option Char
  | prev, [] => prev
  | _, c :: cs => lastOr (some c) cs

/-- One attempt to match `\b(w₁|…|wₙ)\b` with the `i` flag at the start of `s`, where `prev`
is the character before `s`: the alternatives are tried in order, and the result is what
follows the match. -/
def wordMatchHere (words : List Str) (prev : Option Char) (s : Str) : Option Str :=
  if wordBoundary prev s.head? then
    words.findSome? (fun w =>
      match stripPrefixCI w s with
      | some rest =>
        if wordBoundary (lastOr prev (s.take w.length)) rest.head? then some rest else none
      | none => none)
  else none

/-- The search of `re.test(text)` from a position on, for `re = /\b(w₁|…|wₙ)\b/i`. -/
def testFrom (words : List Str) : Option Char → Str → Bool
  | prev, [] => (wordMatchHere words prev []).isSome
  | prev, c :: cs => (wordMatchHere words prev (c :: cs)).isSome || testFrom words (some c) cs

/-- `re.test(text)` for `re = /\b(w₁|…|wₙ)\b/i` (no `g` flag, so no state is kept). -/
def regexTest (words : List Str) (text : Str) : Bool :=
  testFrom words none text

/-- The number of matches `text.match(new RegExp(re, 'gi'))` collects from a position on:
`skip` characters still belong to the previous match; after a match the search resumes at
its end (one character further after an empty match). -/
def countFrom (words : List Str) : Nat → Option Char → Str → Nat
  | _, prev, [] => if (wordMatchHere words prev []).isSome then 1 else 0
  | skip + 1, _, c :: cs => countFrom words skip (some c) cs
  | 0, prev, c :: cs =>
    match wordMatchHere words prev (c :: cs) with
    | some rest => 1 + countFrom words ((c :: cs).length - rest.length - 1) (some c) cs
    | none => countFrom words 0 (some c) cs

/-- `text.match(new RegExp(re, 'gi'))?.length`, with `0` for no match (`undefined > n` is
false, as `0 > n` is). -/
def matchCount (words : List Str) (text : Str) : Nat :=
  countFrom words 0 none text

/-- `NARRATIVE_START_RE.test(text)`: some alternative starts the text and whitespace follows. -/
def narrativeStartTest (text : Str) : Bool :=
  NARRATIVE_WORDS.any (fun w =>
    match stripPrefixCI w text with
    | some (c :: _) => isSpace c
    | _ => false)

/-- `text.replace(/^[-*+]\s+/, '')`. -/
def stripListMarker (text : Str) : Str :=
  match text with
  | m :: c :: rest =>
    if (m = '-' ∨ m = '*' ∨ m = '+') ∧ isSpace c = true then (c :: rest).dropWhile isSpace
    else text
  | _ => text

/-- `s.split(/\s+/)[0]`: what precedes the first whitespace. -/
def firstToken (s : Str) : Str :=
  s.takeWhile (fun c => !isSpace c)

/-- `s.replace(/[^A-Za-z-]/g, '')`. -/
def keepLettersAndHyphens (s : Str) : Str :=
  s.filter (fun c => isAsciiLetter c || c == '-')

/-- The `firstWord` of `narrativeRule`. -/
def firstWord (text : Str) : Str :=
  toLowerCase (keepLettersAndHyphens (firstToken (stripListMarker text)))

/-! ## STRICT rules -/

/-- An entry of `seen`: the vocabulary index of a heading and the heading node. -/
structure Seen where
  idx : Int
  node : Node

/-- The normalised text of a heading: `toString(node).trim().toLowerCase()`. -/
def headingText (node : Node) : Str :=
  toLowerCase (trim (toString node))

/-- The `seen` array built by the heading visitor for a vocabulary. -/
def collectSeen (vocab : List Str) (tree : Node) : List Seen :=
  (visit "heading" tree).filterMap (fun node =>
    let idx := indexOf vocab (headingText node)
    if idx ≠ -1 then some ⟨idx, node⟩ else none)

def orderReason : Str :=
  "Headings must follow the canonical order defined for LLM-facing files".toList

/-- The order check loop of `headingOrderRule`, from the current value of `last`. -/
def orderCheck : Int → List Seen → List Message
  | _, [] => []
  | last, s :: rest =>
    if s.idx < last then [⟨"remark-claude:heading-order", orderReason, .node s.node⟩]
    else orderCheck s.idx rest

/-- The `missing` array: the vocabulary terms whose index no entry of `seen` has. -/
def missingHeadings (vocab : List Str) (seen : List Seen) : List Str :=
  vocab.filter (fun heading => !seen.any (fun s => s.idx == indexOf vocab heading))

def headingOrderRule (relative : Str → Str) (tree : Node) (file : VFile) : List Message :=
  if !isStrictFile relative file then []
  else
    let seen := collectSeen EXPECTED_HEADINGS tree
    let missing := missingHeadings EXPECTED_HEADINGS seen
    orderCheck (-1) seen ++
      (if missing.length ≠ 0 then
        [⟨"remark-claude:heading-order",
          "Missing required headings: ".toList ++ join ", ".toList missing, .unplaced⟩]
       else [])

def noStrongRule (relative : Str → Str) (tree : Node) (file : VFile) : List Message :=
  if !isStrictFile relative file then []
  else
    (visit "strong" tree).map (fun node =>
      ⟨"remark-claude:no-strong",
        "Bold/strong emphasis is prohibited in LLM-facing files".toList, .node node⟩)

def hasCodeAncestor (ancestors : List Node) : Bool :=
  ancestors.any (fun a => a.type == "code" || a.type == "inlineCode")

/-- The rule `no-emoji`; `hasEmoji v` is whether `v.match(emojiRe)` finds a match. A text node
of a well-formed tree has a `value`; at a text node without one the code throws
(`node.value.match`), where this definition reads the value as empty. -/
def noEmojiRule (hasEmoji : Str → Bool) (relative : Str → Str) (tree : Node) (file : VFile) :
    List Message :=
  if !isStrictFile relative file then []
  else
    (visitParents "text" [] tree).filterMap (fun na =>
      if hasCodeAncestor na.2 then none
      else if hasEmoji (na.1.value.getD []) then
        some ⟨"remark-claude:no-emoji", "Emojis are prohibited in LLM-facing files".toList,
          .node na.1⟩
      else none)

def noModalRule (relative : Str → Str) (tree : Node) (file : VFile) : List Message :=
  if !isStrictFile relative file then []
  else
    (visitParents "text" [] tree).filterMap (fun na =>
      if hasCodeAncestor na.2 then none
      else if regexTest MODAL_WORDS (na.1.value.getD []) then
        some ⟨"remark-claude:no-modal-verbs",
          "Modal verbs (may/might/could) are prohibited in body content".toList, .node na.1⟩
      else none)

def narrativeReason : Str :=
  "Paragraph must be imperative/directive; remove narrative or subjective language".toList

/-- The paragraph visitor of `narrativeRule`. -/
def narrativeVisitor (node : Node) : List Message :=
  let text := trim (toString node)
  if text.isEmpty then []
  else
    let directive := DIRECTIVE_START.contains (firstWord text)
    let hasSubjective := regexTest SUBJECTIVE_WORDS text
    let hasModal := regexTest MODAL_WORDS text
    let hasNarrativeStart := narrativeStartTest text
    if !directive || hasSubjective || hasModal || hasNarrativeStart then
      [⟨"remark-claude:no-narrative", narrativeReason, .node node⟩]
    else []

def narrativeRule (relative : Str → Str) (tree : Node) (file : VFile) : List Message :=
  if !isStrictFile relative file then []
  else (visit "paragraph" tree).flatMap narrativeVisitor

/-- `contents.split(/\r?\n/)`: the text is cut at every `\n`, and a `\r` directly before a
`\n` belongs to the separator (it is dropped, and the `\n` after it does the cut). -/
def splitLines : Str → List Str
  | [] => [[]]
  | c :: cs =>
    if c = '\n' then [] :: splitLines cs
    else if c = '\r' ∧ cs.head? = some '\n' then splitLines cs
    else
      match splitLines cs with
      | l :: ls => (c :: l) :: ls
      | [] => [[c]]

/-- A fence delimiter line: its trimmed content starts with three backticks or three tildes. -/
def isFenceLine (line : Str) : Bool :=
  "```".toList.isPrefixOf (trim line) || "~~~".toList.isPrefixOf (trim line)

/-- A simple table row: its trimmed content starts with a pipe. -/
def isTableLine (line : Str) : Bool :=
  "|".toList.isPrefixOf (trim line)

def lineLengthReason : Str :=
  "Lines must be â‰¤ 100 characters in LLM-facing files".toList

/-- The `forEach` of `lineLengthRule` from line index `i` on, with the current `inFence`. -/
def lineLengthLoop : Bool → Nat → List Str → List Message
  | _, _, [] => []
  | inFence, i, line :: rest =>
    if isFenceLine line then lineLengthLoop (!inFence) (i + 1) rest
    else if inFence then lineLengthLoop inFence (i + 1) rest
    else if isTableLine line then lineLengthLoop inFence (i + 1) rest
    else if jsLength line > 100 then
      ⟨"remark-claude:line-length", lineLengthReason, .point (i + 1) 101⟩ ::
        lineLengthLoop inFence (i + 1) rest
    else lineLengthLoop inFence (i + 1) rest

def lineLengthRule (relative : Str → Str) (_tree : Node) (file : VFile) : List Message :=
  if !isStrictFile relative file then []
  else lineLengthLoop false 0 (splitLines file.contents)

/-! ## MODERATE rules -/

def moderateHeadingRule (relative : Str → Str) (tree : Node) (file : VFile) : List Message :=
  if !isModerateFile relative file then []
  else
    let seen := collectSeen MODERATE_HEADINGS tree
    let missing := missingHeadings MODERATE_HEADINGS seen
    if missing.length ≠ 0 ∧ missing.length ≤ 2 then
      [⟨"remark-claude:moderate-headings",
        "Consider adding these governance headings: ".toList ++ join ", ".toList missing,
        .unplaced⟩]
    else []

def moderateReason : Str :=
  "Governance files should use direct, professional language".toList

/-- The paragraph visitor of `moderateMarkdownRule`. -/
def moderateVisitor (node : Node) : List Message :=
  let text := trim (toString node)
  if text.isEmpty then []
  else
    let hasExcessiveSubjective := decide (matchCount SUBJECTIVE_WORDS text > 2)
    let hasExcessiveModal := decide (matchCount MODAL_WORDS text > 1)
    let hasExcessiveBold := includes text "**".toList || includes text "__".toList
    if hasExcessiveSubjective || hasExcessiveModal || hasExcessiveBold then
      [⟨"remark-claude:moderate-markdown", moderateReason, .node node⟩]
    else []

def moderateMarkdownRule (relative : Str → Str) (tree : Node) (file : VFile) : List Message :=
  if !isModerateFile relative file then []
  else (visit "paragraph" tree).flatMap moderateVisitor

/-! ## LIGHT rule -/

def lightReason : Str :=
  "Consider using more direct language".toList

/-- The paragraph visitor of `lightMarkdownRule`. -/
def lightVisitor (node : Node) : List Message :=
  let text := trim (toString node)
  if text.isEmpty then []
  else
    let hasExtremeSubjective := decide (matchCount SUBJECTIVE_WORDS text > 4)
    let hasExtremeModal := decide (matchCount MODAL_WORDS text > 2)
    if hasExtremeSubjective || hasExtremeModal then
      [⟨"remark-claude:light-markdown", lightReason, .node node⟩]
    else []

def lightMarkdownRule (relative : Str → Str) (tree : Node) (file : VFile) : List Message :=
  if !isLightFile relative file then []
  else (visit "paragraph" tree).flatMap lightVisitor

/-! ## The preset -/

/-- The messages of one document after the nine plugins of the preset have run, in the order
of the `plugins` array. -/
def preset (hasEmoji : Str → Bool) (relative : Str → Str) (tree : Node) (file : VFile) :
    List Message :=
  headingOrderRule relative tree file ++
  noStrongRule relative tree file ++
  noEmojiRule hasEmoji relative tree file ++
  noModalRule relative tree file ++
  narrativeRule relative tree file ++
  lineLengthRule relative tree file ++
  moderateHeadingRule relative tree file ++
  moderateMarkdownRule relative tree file ++
  lightMarkdownRule relative tree file

/-! ## Vocabulary of the statements about headings -/

/-- The normalised texts of the headings of a tree, in document order. -/
def headingTexts (tree : Node) : List Str :=
  (visit "heading" tree).map headingText

/-- The canonical headings of a tree: the headings whose normalised text is a term of the
vocabulary, in document order. -/
def canonicalHeadings (vocab : List Str) (tree : Node) : List Node :=
  (visit "heading" tree).filter (fun n => decide (headingText n ∈ vocab))

/-- The canonical index of a heading: the position of its normalised text in the vocabulary. -/
def canonicalIndex (vocab : List Str) (n : Node) : Int :=
  indexOf vocab (headingText n)

/-- The terms of the vocabulary that are the normalised text of no heading of the tree. -/
def absentHeadings (vocab : List Str) (tree : Node) : List Str :=
  vocab.filter (fun t => decide (t ∉ headingTexts tree))

/-- The ordering message of `headingOrderRule`, recognised by its text. -/
def isOrderMessage (m : Message) : Bool :=
  m.reason == orderReason

/-- The ordering message attached to a heading. -/
def orderMessage (n : Node) : Message :=
  ⟨"remark-claude:heading-order", orderReason, .node n⟩

/-- The missing-headings message listing the given terms. -/
def missingMessage (terms : List Str) : Message :=
  ⟨"remark-claude:heading-order",
    "Missing required headings: ".toList ++ join ", ".toList terms, .unplaced⟩

/-- A heading node with the given text. -/
def headingNode (text : String) : Node :=
  .mk "heading" none none [.mk "text" (some text.toList) none []]

/-- A paragraph node with the given text. -/
def paragraphNode (text : String) : Node :=
  .mk "paragraph" none none [.mk "text" (some text.toList) none []]

/-- A root node with the given children. -/
def rootNode (children : List Node) : Node :=
  .mk "root" none none children

/-- A file whose path, relative to the working directory, is `CLAUDE.md`. -/
def strictFile (contents : Str) : VFile :=
  ⟨some "CLAUDE.md".toList, contents⟩

/-- A file whose path, relative to the working directory, is `governance/policy.md`. -/
def moderateFile : VFile :=
  ⟨some "governance/policy.md".toList, []⟩

/-- The missing-headings message of `headingOrderRule`, recognised by the start of its text. -/
def isMissingMessage (m : Message) : Bool :=
  "Missing required headings: ".toList.isPrefixOf m.reason

/-- The advisory message of `moderateHeadingRule` listing the given terms. -/
def governanceMessage (terms : List Str) : Message :=
  ⟨"remark-claude:moderate-headings",
    "Consider adding these governance headings: ".toList ++ join ", ".toList terms, .unplaced⟩

/-! ## Vocabulary of the statements about lines -/

/-- The number of fence delimiter lines before line index `i`. -/
def fencesBefore (lines : List Str) (i : Nat) : Nat :=
  ((lines.take i).filter isFenceLine).length

/-- Line index `i` is inside an open fence: an odd number of delimiter lines precede it. -/
def insideOpenFence (lines : List Str) (i : Nat) : Bool :=
  fencesBefore lines i % 2 == 1

/-- The line at index `i` is one the rule reports: longer than 100, not a fence delimiter, not
inside an open fence, not a table row. -/
def reportableLine (lines : List Str) (i : Nat) : Bool :=
  match lines[i]? with
  | none => false
  | some line =>
    decide (jsLength line > 100) && !isFenceLine line && !insideOpenFence lines i &&
      !isTableLine line

/-- The line-length message for the line at index `i`: line `i + 1`, column 101. -/
def lineLengthMessage (i : Nat) : Message :=
  ⟨"remark-claude:line-length", lineLengthReason, .point (i + 1) 101⟩

/-- The message points at the given line and column. -/
def pointsAt (line column : Nat) (m : Message) : Bool :=
  match m.place with
  | .point l c => l == line && c == column
  | _ => false

/-- The message points at the given line, whatever the column. -/
def pointsAtLine (line : Nat) (m : Message) : Bool :=
  match m.place with
  | .point l _ => l == line
  | _ => false

/-- A line of 101 letters. -/
def longLine : Str :=
  List.replicate 101 'a'

/-- A text with a line of 101 letters as its second line, and the same line again inside a
fenced block. -/
def fencedSample : Str :=
  "intro\n".toList ++ longLine ++ "\n```\n".toList ++ longLine ++ "\n```\n".toList

/-! ## Vocabulary of the statements about paragraphs -/

/-- The trimmed flattened text of a paragraph. -/
def paragraphText (node : Node) : Str :=
  trim (toString node)

/-- The message of `narrativeRule` for a paragraph. -/
def narrativeMessage (node : Node) : Message :=
  ⟨"remark-claude:no-narrative", narrativeReason, .node node⟩

/-- The message of `moderateMarkdownRule` for a paragraph. -/
def moderateMessage (node : Node) : Message :=
  ⟨"remark-claude:moderate-markdown", moderateReason, .node node⟩

/-- The six STRICT rules, in plugin order. -/
def strictRules (hasEmoji : Str → Bool) (relative : Str → Str) (tree : Node) (file : VFile) :
    List Message :=
  headingOrderRule relative tree file ++
  noStrongRule relative tree file ++
  noEmojiRule hasEmoji relative tree file ++
  noModalRule relative tree file ++
  narrativeRule relative tree file ++
  lineLengthRule relative tree file

/-- The two MODERATE rules, in plugin order. -/
def moderateRules (relative : Str → Str) (tree : Node) (file : VFile) : List Message :=
  moderateHeadingRule relative tree file ++
  moderateMarkdownRule relative tree file

/-- A file whose path, relative to the working directory, is `notes/todo.md`. -/
def lightFile : VFile :=
  ⟨some "notes/todo.md".toList, []⟩

/-- A file whose path, relative to the working directory, is `notes/todo.txt`. -/
def otherFile : VFile :=
  ⟨some "notes/todo.txt".toList, []⟩

/-- The text `m` is the word `w` up to the case of ASCII letters. -/
def matchesIgnoringCase (w m : Str) : Prop :=
  List.Forall₂ (fun p c => eqIgnoreCase p c = true) w m

/-- A whole-word occurrence of one of the words starts at position `i` of the text: the text
is `pre ++ m ++ post` with `pre` of length `i`, `m` one of the words up to case, no word
character right before `m` and none right after it. -/
def wordStartsAt (words : List Str) (text : Str) (i : Nat) : Prop :=
  ∃ pre m post, text = pre ++ m ++ post ∧ pre.length = i ∧
    (∃ w ∈ words, matchesIgnoringCase w m) ∧
    pre.getLast?.any isWordChar = false ∧ post.head?.any isWordChar = false

/-- The text contains one of the words as a whole word, in any case. -/
def containsWord (words : List Str) (text : Str) : Prop :=
  ∃ i, wordStartsAt words text i

/-- The text starts with one of the words, in any case, followed by whitespace. -/
def startsWithWordThenSpace (words : List Str) (text : Str) : Prop :=
  ∃ m c rest, text = m ++ c :: rest ∧ (∃ w ∈ words, matchesIgnoringCase w m) ∧
    isSpace c = true

/-- As `wordStartsAt`, for a text that follows the character `prev`. -/
def startsAt (words : List Str) (prev : Option Char) (s : Str) (i : Nat) : Prop :=
  ∃ pre m post, s = pre ++ m ++ post ∧ pre.length = i ∧
    (∃ w ∈ words, matchesIgnoringCase w m) ∧
    (lastOr prev pre).any isWordChar = false ∧ post.head?.any isWordChar = false

/-- Every word of the list is non-empty and made of ASCII letters. -/
def lettersOnly (words : List Str) : Prop :=
  ∀ w ∈ words, w ≠ [] ∧ ∀ p ∈ w, isAsciiLetter p = true

instance (words : List Str) : Decidable (lettersOnly words) := by
  unfold lettersOnly; infer_instance

/-- The condition under which `narrativeRule` flags a paragraph with the given trimmed text. -/
def narrativeCondition (text : Str) : Prop :=
  firstWord text ∉ DIRECTIVE_START ∨ containsWord SUBJECTIVE_WORDS text ∨
    containsWord MODAL_WORDS text ∨ startsWithWordThenSpace NARRATIVE_WORDS text

/-- The condition under which `moderateMarkdownRule` flags a paragraph with the given trimmed
text: more than two subjective-word occurrences, more than one modal-verb occurrence, or bold
markup. -/
def moderateCondition (text : Str) : Prop :=
  2 < Set.ncard {i | wordStartsAt SUBJECTIVE_WORDS text i} ∨
  1 < Set.ncard {i | wordStartsAt MODAL_WORDS text i} ∨
  "**".toList <:+: text ∨ "__".toList <:+: text

/-- The message of `lightMarkdownRule` for a paragraph. -/
def lightMessage (node : Node) : Message :=
  ⟨"remark-claude:light-markdown", lightReason, .node node⟩

/-- The condition under which `lightMarkdownRule` flags a paragraph with the given trimmed
text: more than four subjective-word occurrences or more than two modal-verb occurrences. -/
def lightCondition (text : Str) : Prop :=
  4 < Set.ncard {i | wordStartsAt SUBJECTIVE_WORDS text i} ∨
  2 < Set.ncard {i | wordStartsAt MODAL_WORDS text i}

/-! ## Vocabulary of the statements about paths -/

/-- The file name of a relative path: its last path portion. -/
def fileName (rel : Str) : Str :=
  (slashSplit rel).getLastD []

/-- The name ends in `.md`. -/
def endsInMd (name : Str) : Bool :=
  ".md".toList.isSuffixOf name

/-- Some path portion of the relative path starts with a dot: a dot-file, a dot-directory,
`.` or `..`. -/
def hasDottedPortion (rel : Str) : Bool :=
  (slashSplit rel).any isDotted

/-- Two characters are equal or are the two cases of one ASCII letter. -/
def sameUpToCase (c d : Char) : Prop :=
  c = d ∨ (isAsciiLetter c = true ∧ isAsciiLetter d = true ∧
    (c.toNat + 32 = d.toNat ∨ d.toNat + 32 = c.toNat))

/-- Two strings differ only in the case of their letters. -/
def differOnlyInCase (a b : Str) : Prop :=
  List.Forall₂ sameUpToCase a b

instance (c d : Char) : Decidable (sameUpToCase c d) := by
  unfold sameUpToCase; infer_instance

instance (a b : Str) : Decidable (differOnlyInCase a b) := by
  unfold differOnlyInCase; infer_instance

/-! ## Vocabulary of the statements about nodes -/

mutual
/-- Every node of a tree, each with its ancestors from the root down to its parent, in
depth-first pre-order; `ancestors` are the ancestors of the tree itself. -/
def nodesWithAncestors (ancestors : List Node) : Node → List (Node × List Node)
  | .mk t v a cs =>
    (Node.mk t v a cs, ancestors) ::
      nodesWithAncestorsList (ancestors ++ [Node.mk t v a cs]) cs
/-- Every node of a list of sibling subtrees, with its ancestors. -/
def nodesWithAncestorsList (ancestors : List Node) : List Node → List (Node × List Node)
  | [] => []
  | n :: ns => nodesWithAncestors ancestors n ++ nodesWithAncestorsList ancestors ns
end

/-- Every node of a tree, nested ones included, in depth-first pre-order. -/
def allNodes (tree : Node) : List Node :=
  (nodesWithAncestors [] tree).map Prod.fst

/-- The message of `noModalRule` for a text node. -/
def modalMessage (node : Node) : Message :=
  ⟨"remark-claude:no-modal-verbs",
    "Modal verbs (may/might/could) are prohibited in body content".toList, .node node⟩

/-- The message of `noStrongRule` for a strong node. -/
def strongMessage (node : Node) : Message :=
  ⟨"remark-claude:no-strong",
    "Bold/strong emphasis is prohibited in LLM-facing files".toList, .node node⟩

/-- A text node with the given value. -/
def textNode (value : String) : Node :=
  .mk "text" (some value.toList) none []

/-- A document with a text holding two modal verbs, a text without one, and a text with a
modal verb below an inline code node. -/
def modalSample : Node :=
  rootNode [.mk "paragraph" none none
    [textNode "It may work, or it might not.", textNode "Run the tests.",
     .mk "inlineCode" none none [textNode "this could fail"]]]

/-- A document with a strong node nested in another strong node. -/
def strongSample : Node :=
  rootNode [.mk "paragraph" none none
    [.mk "strong" none none [textNode "outer ", .mk "strong" none none [textNode "inner"]]]]

/-- The observed canonical indices of a tree: the canonical index of each canonical heading,
in document order. -/
def observedIndices (tree : Node) : List Int :=
  (canonicalHeadings EXPECTED_HEADINGS tree).map (canonicalIndex EXPECTED_HEADINGS)

/-- A strict document with the ten canonical headings, the first two exchanged. -/
def swappedSample : Node :=
  rootNode [headingNode "Absolute-Prohibitions", headingNode "Scope",
    headingNode "Communication-Protocol", headingNode "Structural-Rules",
    headingNode "Language-Rules", headingNode "Formatting-Rules",
    headingNode "Naming-Rules", headingNode "Validation-Rules",
    headingNode "Narrative-Detection", headingNode "Depth-Compatibility"]

/-- Every word of the list is made of lower-case ASCII letters. -/
def lowercaseOnly (words : List Str) : Prop :=
  ∀ w ∈ words, ∀ p ∈ w, 97 ≤ p.toNat ∧ p.toNat ≤ 122

instance (words : List Str) : Decidable (lowercaseOnly words) := by
  unfold lowercaseOnly; infer_instance

/-- The paragraph visitor of `narrativeRule` with the narrative-start test left out of the
flagging condition: `!directive || hasSubjective || hasModal`. -/
def narrativeVisitorWithoutStart (node : Node) : List Message :=
  let text := trim (toString node)
  if text.isEmpty then []
  else
    let directive := DIRECTIVE_START.contains (firstWord text)
    let hasSubjective := regexTest SUBJECTIVE_WORDS text
    let hasModal := regexTest MODAL_WORDS text
    if !directive || hasSubjective || hasModal then
      [⟨"remark-claude:no-narrative", narrativeReason, .node node⟩]
    else []

/-- The value of `inFence` after the `forEach` callback of `lineLengthRule` has run on the
given lines, starting from `state`: every fence delimiter line flips it. -/
def fenceStateAfter (state : Bool) (lines : List Str) : Bool :=
  lines.foldl (fun inFence line => if isFenceLine line then !inFence else inFence) state

/-- A text whose fence is opened by three backticks and closed by three tildes, with a line of
101 letters inside and another after it, and a long delimiter line. -/
def mixedFenceSample : Str :=
  "```".toList ++ longLine ++ "\n".toList ++ longLine ++ "\n~~~\n".toList ++ longLine

/-- A text with a fence that is never closed, followed by a line of 101 letters. -/
def unclosedFenceSample : Str :=
  "intro\n~~~\ncode\n".toList ++ longLine

/-! ## The module-level regular expression objects

The rules above return what `test` and `match` return. The objects `MODAL_RE`,
`SUBJECTIVE_RE`, `NARRATIVE_START_RE` and `emojiRe` live as long as the module, and a regular
expression object has one piece of mutable state, `lastIndex`, which `test` reads and writes
when the object has the `g` flag. The definitions below run the rules with that state passed
along, so that one run can be followed by another. -/

/-- A regular expression object as far as it carries state: its `global` flag and its
`lastIndex`. -/
structure RegExpObject where
  global : Bool
  lastIndex : Nat
deriving DecidableEq

/-- The four module-level regular expression objects. -/
structure Regexes where
  MODAL_RE : RegExpObject
  SUBJECTIVE_RE : RegExpObject
  NARRATIVE_START_RE : RegExpObject
  emojiRe : RegExpObject
deriving DecidableEq

/-- The objects after the module is evaluated: three literals with the flag `i` alone, and the
result of `emojiRegex()`, an expression with the flag `g`. -/
def initialRegexes : Regexes :=
  ⟨⟨false, 0⟩, ⟨false, 0⟩, ⟨false, 0⟩, ⟨true, 0⟩⟩

/-- The leftmost match of `\b(w₁|…|wₙ)\b` in `s`, which follows the character `prev`: the
number of characters from the start of `s` to the end of the match. -/
def searchFrom (words : List Str) : Option Char → Str → Option Nat
  | prev, [] => (wordMatchHere words prev []).map (fun _ => 0)
  | prev, c :: cs =>
    match wordMatchHere words prev (c :: cs) with
    | some rest => some ((c :: cs).length - rest.length)
    | none => (searchFrom words (some c) cs).map (· + 1)

/-- The matcher of `/\b(w₁|…|wₙ)\b/i` run from position `start`: the end of the leftmost
match at or after `start` (positions count the characters of the model). -/
def wordSearch (words : List Str) (start : Nat) (text : Str) : Option Nat :=
  if start ≤ text.length then
    (searchFrom words (lastOr none (text.take start)) (text.drop start)).map (· + start)
  else none

/-- The matcher of `NARRATIVE_START_RE` run from position `start`: the pattern is anchored at
the start of the text, so it matches from position 0 only. -/
def narrativeSearch (start : Nat) (text : Str) : Option Nat :=
  if start = 0 then
    NARRATIVE_WORDS.findSome? (fun w =>
      match stripPrefixCI w text with
      | some (c :: _) => if isSpace c then some (w.length + 1) else none
      | _ => none)
  else none

/-- `re.test(text)` for an object without the `y` flag, where `search` is the matcher of its
pattern: with the `g` flag the search starts at `lastIndex`, which becomes the end of the
match, or 0 when there is none; without it the search starts at 0 and `lastIndex` is left
alone. -/
def regExpTest (search : Nat → Str → Option Nat) (re : RegExpObject) (text : Str) :
    Bool × RegExpObject :=
  if re.global then
    match search re.lastIndex text with
    | some e => (true, { re with lastIndex := e })
    | none => (false, { re with lastIndex := 0 })
  else ((search 0 text).isSome, re)

/-- Whether `text.match(re)` is non-null, where `found text` says whether the pattern matches
somewhere in the text: with the `g` flag `match` sets `lastIndex` to 0 before it collects the
matches and leaves it at 0; without it the one search starts at 0 and `lastIndex` is left
alone. -/
def stringMatch (found : Str → Bool) (re : RegExpObject) (text : Str) : Bool × RegExpObject :=
  (found text, if re.global then { re with lastIndex := 0 } else re)

/-- The messages emitted so far and the module-level objects. -/
abbrev Run := List Message × Regexes

/-- The text visitor of `noEmojiRule`, with the state of `emojiRe`. -/
def noEmojiStep (hasEmoji : Str → Bool) (acc : Run) (na : Node × List Node) : Run :=
  if hasCodeAncestor na.2 then acc
  else
    let r := stringMatch hasEmoji acc.2.emojiRe (na.1.value.getD [])
    (if r.1 then
        acc.1 ++ [⟨"remark-claude:no-emoji", "Emojis are prohibited in LLM-facing files".toList,
          .node na.1⟩]
      else acc.1,
      { acc.2 with emojiRe := r.2 })

/-- The rule `no-emoji` run from the given objects. -/
def noEmojiRun (hasEmoji : Str → Bool) (relative : Str → Str) (tree : Node) (file : VFile)
    (res : Regexes) : Run :=
  if !isStrictFile relative file then ([], res)
  else (visitParents "text" [] tree).foldl (noEmojiStep hasEmoji) ([], res)

/-- The text visitor of `noModalRule`, with the state of `MODAL_RE`. -/
def noModalStep (acc : Run) (na : Node × List Node) : Run :=
  if hasCodeAncestor na.2 then acc
  else
    let r := regExpTest (wordSearch MODAL_WORDS) acc.2.MODAL_RE (na.1.value.getD [])
    (if r.1 then
        acc.1 ++ [⟨"remark-claude:no-modal-verbs",
          "Modal verbs (may/might/could) are prohibited in body content".toList, .node na.1⟩]
      else acc.1,
      { acc.2 with MODAL_RE := r.2 })

/-- The rule `no-modal-verbs` run from the given objects. -/
def noModalRun (relative : Str → Str) (tree : Node) (file : VFile) (res : Regexes) : Run :=
  if !isStrictFile relative file then ([], res)
  else (visitParents "text" [] tree).foldl noModalStep ([], res)

/-- The paragraph visitor of `narrativeRule`, with the state of the three objects it tests, in
the order of the source: `SUBJECTIVE_RE`, `MODAL_RE`, `NARRATIVE_START_RE`. -/
def narrativeStep (acc : Run) (node : Node) : Run :=
  let text := trim (toString node)
  if text.isEmpty then acc
  else
    let directive := DIRECTIVE_START.contains (firstWord text)
    let s := regExpTest (wordSearch SUBJECTIVE_WORDS) acc.2.SUBJECTIVE_RE text
    let m := regExpTest (wordSearch MODAL_WORDS) acc.2.MODAL_RE text
    let n := regExpTest narrativeSearch acc.2.NARRATIVE_START_RE text
    (if !directive || s.1 || m.1 || n.1 then
        acc.1 ++ [⟨"remark-claude:no-narrative", narrativeReason, .node node⟩]
      else acc.1,
      { acc.2 with SUBJECTIVE_RE := s.2, MODAL_RE := m.2, NARRATIVE_START_RE := n.2 })

/-- The rule `no-narrative` run from the given objects. -/
def narrativeRun (relative : Str → Str) (tree : Node) (file : VFile) (res : Regexes) : Run :=
  if !isStrictFile relative file then ([], res)
  else (visit "paragraph" tree).foldl narrativeStep ([], res)

/-- One run of the nine plugins, in the order of the `plugins` array, from the given objects:
the messages emitted and the objects afterwards. The other six rules use no module-level
object (`moderateMarkdownRule` and `lightMarkdownRule` build a new object with
`new RegExp(…, 'gi')` for every paragraph). -/
def presetRun (hasEmoji : Str → Bool) (relative : Str → Str) (tree : Node) (file : VFile)
    (res : Regexes) : Run :=
  let emoji := noEmojiRun hasEmoji relative tree file res
  let modal := noModalRun relative tree file emoji.2
  let narrative := narrativeRun relative tree file modal.2
  (headingOrderRule relative tree file ++
    noStrongRule relative tree file ++
    emoji.1 ++
    modal.1 ++
    narrative.1 ++
    lineLengthRule relative tree file ++
    moderateHeadingRule relative tree file ++
    moderateMarkdownRule relative tree file ++
    lightMarkdownRule relative tree file,
   narrative.2)

/-- The three objects used with `test` have no `g` flag. -/
def testedWithoutGlobal (res : Regexes) : Prop :=
  res.MODAL_RE.global = false ∧ res.SUBJECTIVE_RE.global = false ∧
    res.NARRATIVE_START_RE.global = false

/-- Whether a character is a pictograph of the blocks U+1F300 to U+1FAFF, a stand-in for the
pattern of `emoji-regex` in examples. -/
def isPictograph (c : Char) : Bool :=
  decide (127744 ≤ c.toNat) && decide (c.toNat ≤ 129791)

/-- A strict document with an emoji, modal verbs and a narrative paragraph. -/
def busySample : Node :=
  rootNode [headingNode "Scope",
    .mk "paragraph" none none [textNode "The tool may use caching 🚀, it might not."],
    .mk "paragraph" none none [.mk "strong" none none [textNode "Validate all inputs."]]]

/-- The object after `text.match(re)`: `lastIndex` is 0 when the object has the `g` flag. -/
def settled (re : RegExpObject) : RegExpObject :=
  if re.global then { re with lastIndex := 0 } else re

/-- Whether `noEmojiRule` calls `match` on the document at all: the file is strict and some
text node has no code ancestor. -/
def emojiMatchCalled (relative : Str → Str) (tree : Node) (file : VFile) : Bool :=
  isStrictFile relative file && (visitParents "text" [] tree).any (fun na => !hasCodeAncestor na.2)

/-- The module-level objects after one run of the preset on a document. -/
def regexesAfter (relative : Str → Str) (tree : Node) (file : VFile) (res : Regexes) :
    Regexes :=
  { res with
    emojiRe := if emojiMatchCalled relative tree file then settled res.emojiRe else res.emojiRe }

/-- The objects with `emojiRe` replaced. -/
def withEmojiRe (res : Regexes) (re : RegExpObject) : Regexes :=
  { res with emojiRe := re }

instance (res : Regexes) : Decidable (testedWithoutGlobal res) := by
  unfold testedWithoutGlobal; infer_instance

/-! ## The working directory

`getFileCategory` matches the globs against `path.relative(process.cwd(), file.path)`. The
definitions below are `path.posix.relative` for an absolute working directory, so that the
parameter `relative` can be given as `pathRelative cwd`. -/

/-- One step of the normalisation done by `path.posix.resolve`: an empty segment and `.` are
dropped, `..` removes the last segment kept so far (none at the root), any other segment is
kept. -/
def pushSegment (kept : List Str) (segment : Str) : List Str :=
  if segment = [] ∨ segment = ".".toList then kept
  else if segment = "..".toList then kept.dropLast
  else kept ++ [segment]

/-- `path.posix.resolve(p)` as the list of its segments, when the working directory is `cwd`:
a path that does not start with a slash is taken below `cwd`. -/
def resolveSegments (cwd p : Str) : List Str :=
  (slashSplit (if p.head? = some '/' then p else cwd ++ '/' :: p)).foldl pushSegment []

/-- The number of leading segments two resolved paths share. -/
def commonSegments : List Str → List Str → Nat
  | a :: as, b :: bs => if a = b then commonSegments as bs + 1 else 0
  | _, _ => 0

/-- `path.posix.relative(cwd, p)` when the working directory is `cwd`: one `..` for every
segment of `cwd` below the common ancestor, then the segments of `p` below it. -/
def pathRelative (cwd p : Str) : Str :=
  join "/".toList
    (List.replicate
        ((resolveSegments cwd cwd).length -
          commonSegments (resolveSegments cwd cwd) (resolveSegments cwd p))
        "..".toList ++
      (resolveSegments cwd p).drop
        (commonSegments (resolveSegments cwd cwd) (resolveSegments cwd p)))

/-! ## Vocabulary of the statements about lines, paths and case, continued -/

/-- A line of `n` copies of U+1F680, a character outside the Basic Multilingual Plane (one
character, two UTF-16 code units). -/
def rocketLine (n : Nat) : Str :=
  List.replicate n (Char.ofNat 128640)

/-- A text whose first line has 101 letters, whose second and third lines are table rows of
more than 100 letters (the third one indented), and whose last line has 100 letters. -/
def tableSample : Str :=
  longLine ++ "\n| ".toList ++ longLine ++ "\n  |".toList ++ longLine ++ "\n".toList ++
    List.replicate 100 'a'

/-- Two characters that a case-insensitive match against an ASCII pattern cannot tell apart:
the same character, the two cases of one ASCII letter, or two characters outside ASCII. Every
pair of an upper-case and a lower-case letter is of that kind except the pairs of a letter
outside ASCII with an ASCII letter: U+212A (Kelvin sign) with `k`, U+017F (long s) with `s`,
U+0130 and U+0131 with `i`. -/
def alikeUnderNocase (c d : Char) : Prop :=
  sameUpToCase c d ∨ (128 ≤ c.toNat ∧ 128 ≤ d.toNat)

/-- Two paths of the same length whose characters are pairwise alike (`alikeUnderNocase`). -/
def alikePaths (a b : Str) : Prop :=
  List.Forall₂ alikeUnderNocase a b

instance (c d : Char) : Decidable (alikeUnderNocase c d) := by
  unfold alikeUnderNocase; infer_instance

instance (a b : Str) : Decidable (alikePaths a b) := by
  unfold alikePaths; infer_instance

/-- Every character of every portion of every glob of the list is an ASCII character. -/
def asciiGlobs (globs : List Str) : Prop :=
  ∀ g ∈ globs, ∀ s ∈ slashSplit g, ∀ p ∈ s, p.toNat < 128

instance (globs : List Str) : Decidable (asciiGlobs globs) := by
  unfold asciiGlobs; infer_instance

/-- The path `sKills/x/skill.md` written with U+212A (Kelvin sign) for its second letter. -/
def kelvinPath : Str :=
  's' :: Char.ofNat 8490 :: "ills/x/skill.md".toList
/-! ## Classification: precedence, totality -/

theorem any_minimatch_iff (globs : List Str) (rel : Str) :
    globs.any (fun g => minimatch rel g) = true ↔ matchesSome globs rel := by
  simp [matchesSome, List.any_eq_true]

theorem getFileCategory_of_path (relative : Str → Str) (file : VFile) (p : Str)
    (hp : file.path = some p) (hne : p ≠ []) :
    getFileCategory relative file =
      if matchesSome STRICT_GLOBS (relative p) then "strict"
      else if matchesSome MODERATE_GLOBS (relative p) then "moderate"
      else if matchesSome LIGHT_GLOBS (relative p) then "light"
      else "none" := by
  unfold getFileCategory
  rw [hp]
  have : p.isEmpty = false := by cases p <;> simp_all
  simp only [this, Bool.false_eq_true, if_false, any_minimatch_iff]

/-- C1: for a file with a (non-empty) path, `getFileCategory` is first-match-wins over the
ordered glob sets: strict iff some STRICT glob matches the relative path, moderate iff none
does and some MODERATE glob does, light iff neither does and the LIGHT glob does, none
otherwise; so a path matching both a STRICT and a LIGHT glob is strict. -/
theorem getFileCategory_first_match_wins (relative : Str → Str) (file : VFile) (p : Str)
    (hp : file.path = some p) (hne : p ≠ []) :
    (getFileCategory relative file = "strict" ↔ matchesSome STRICT_GLOBS (relative p)) ∧
    (getFileCategory relative file = "moderate" ↔
      ¬ matchesSome STRICT_GLOBS (relative p) ∧ matchesSome MODERATE_GLOBS (relative p)) ∧
    (getFileCategory relative file = "light" ↔
      ¬ matchesSome STRICT_GLOBS (relative p) ∧ ¬ matchesSome MODERATE_GLOBS (relative p) ∧
        matchesSome LIGHT_GLOBS (relative p)) ∧
    (getFileCategory relative file = "none" ↔
      ¬ matchesSome STRICT_GLOBS (relative p) ∧ ¬ matchesSome MODERATE_GLOBS (relative p) ∧
        ¬ matchesSome LIGHT_GLOBS (relative p)) ∧
    (∀ gs ∈ STRICT_GLOBS, ∀ gl ∈ LIGHT_GLOBS,
      minimatch (relative p) gs = true → minimatch (relative p) gl = true →
        getFileCategory relative file = "strict") := by
  rw [getFileCategory_of_path relative file p hp hne]
  have hS2 : ¬ matchesSome STRICT_GLOBS (relative p) →
      ∀ gs ∈ STRICT_GLOBS, ¬ minimatch (relative p) gs = true :=
    fun hS gs hgs hm => hS ⟨gs, hgs, hm⟩
  by_cases hS : matchesSome STRICT_GLOBS (relative p)
  · simp only [hS, if_true]
    exact ⟨by simp, by simp, by simp, by simp, fun _ _ _ _ _ _ => trivial⟩
  · by_cases hM : matchesSome MODERATE_GLOBS (relative p)
    · simp only [hS, hM, if_true, if_false]
      exact ⟨by simp, by simp, by simp, by simp,
        fun gs hgs _ _ hm _ => absurd hm (hS2 hS gs hgs)⟩
    · by_cases hL : matchesSome LIGHT_GLOBS (relative p)
      · simp only [hS, hM, hL, if_true, if_false]
        exact ⟨by simp, by simp, by simp, by simp,
          fun gs hgs _ _ hm _ => absurd hm (hS2 hS gs hgs)⟩
      · simp only [hS, hM, hL, if_false]
        exact ⟨by simp, by simp, by simp, by simp,
          fun gs hgs _ _ hm _ => absurd hm (hS2 hS gs hgs)⟩

/-- Witness for C1: `rules/x.md` and `CLAUDE.md` (relative to the working directory) match a
STRICT glob and the LIGHT glob, and classify as strict. -/
theorem getFileCategory_first_match_wins_witness :
    (minimatch "rules/x.md".toList "rules/**/*.md".toList = true ∧
      minimatch "rules/x.md".toList "**/*.md".toList = true ∧
      getFileCategory id ⟨some "rules/x.md".toList, []⟩ = "strict") ∧
    (minimatch "CLAUDE.md".toList "CLAUDE.md".toList = true ∧
      minimatch "CLAUDE.md".toList "**/*.md".toList = true ∧
      getFileCategory id ⟨some "CLAUDE.md".toList, []⟩ = "strict") :=
  ⟨⟨by decide, by decide,
    (getFileCategory_first_match_wins id ⟨some "rules/x.md".toList, []⟩ "rules/x.md".toList
      rfl (by decide)).2.2.2.2 "rules/**/*.md".toList (by decide) "**/*.md".toList (by decide)
      (by decide) (by decide)⟩,
   ⟨by decide, by decide,
    (getFileCategory_first_match_wins id ⟨some "CLAUDE.md".toList, []⟩ "CLAUDE.md".toList
      rfl (by decide)).2.2.2.2 "CLAUDE.md".toList (by decide) "**/*.md".toList (by decide)
      (by decide) (by decide)⟩⟩

/-- C2: classification is total and deterministic, and its result depends on the file through
the relative path alone, that is, on the path and on the working directory against which
`path.relative` resolves it: two calls whose relative paths are equal return the same tier,
whatever the contents of the files and the two working directories; the tier is one of the
four distinct tier names, for every working directory and every file; an absent or empty path
gives none. -/
theorem getFileCategory_total_pure (relative₁ relative₂ : Str → Str) (file₁ file₂ : VFile)
    (p₁ p₂ : Str) (h₁ : file₁.path = some p₁) (h₂ : file₂.path = some p₂)
    (hne₁ : p₁ ≠ []) (hne₂ : p₂ ≠ []) (hrel : relative₁ p₁ = relative₂ p₂) :
    getFileCategory relative₁ file₁ = getFileCategory relative₂ file₂ ∧
    (∀ cwd₁ cwd₂ q₁ q₂ contents₁ contents₂, q₁ ≠ [] → q₂ ≠ [] →
      pathRelative cwd₁ q₁ = pathRelative cwd₂ q₂ →
      getFileCategory (pathRelative cwd₁) ⟨some q₁, contents₁⟩ =
        getFileCategory (pathRelative cwd₂) ⟨some q₂, contents₂⟩) ∧
    (∀ (relative : Str → Str) (path : Option Str) (contents₁ contents₂ : Str),
      getFileCategory relative ⟨path, contents₁⟩ = getFileCategory relative ⟨path, contents₂⟩) ∧
    (∀ (relative : Str → Str) (file : VFile),
      getFileCategory relative file ∈ ["strict", "moderate", "light", "none"]) ∧
    ["strict", "moderate", "light", "none"].Nodup ∧
    (∀ (relative : Str → Str) (contents : Str),
      getFileCategory relative ⟨none, contents⟩ = "none") ∧
    (∀ (relative : Str → Str) (contents : Str),
      getFileCategory relative ⟨some [], contents⟩ = "none") := by
  have key : ∀ (r₁ r₂ : Str → Str) (f₁ f₂ : VFile) (q₁ q₂ : Str), f₁.path = some q₁ →
      f₂.path = some q₂ → q₁ ≠ [] → q₂ ≠ [] → r₁ q₁ = r₂ q₂ →
      getFileCategory r₁ f₁ = getFileCategory r₂ f₂ := by
    intro r₁ r₂ f₁ f₂ q₁ q₂ e₁ e₂ n₁ n₂ hr
    rw [getFileCategory_of_path r₁ f₁ q₁ e₁ n₁, getFileCategory_of_path r₂ f₂ q₂ e₂ n₂, hr]
  refine ⟨key _ _ _ _ _ _ h₁ h₂ hne₁ hne₂ hrel, ?_, fun _ _ _ _ => rfl, ?_, by decide,
    fun _ _ => rfl, fun _ _ => rfl⟩
  · intro cwd₁ cwd₂ q₁ q₂ c₁ c₂ n₁ n₂ hr
    exact key _ _ _ _ q₁ q₂ rfl rfl n₁ n₂ hr
  · intro relative file
    unfold getFileCategory
    cases file.path with
    | none => simp
    | some p =>
      simp only
      split_ifs <;> simp

/-- Witness for C2: the absolute path `/repo/skills/x/SKILL.md` with the working directory
`/repo` and the relative path `skills/x/SKILL.md` with the working directory `/work/project`
have the same relative path and the same tier, strict. -/
theorem getFileCategory_total_pure_witness :
    pathRelative "/repo".toList "/repo/skills/x/SKILL.md".toList = "skills/x/SKILL.md".toList ∧
    pathRelative "/work/project".toList "skills/x/SKILL.md".toList =
      "skills/x/SKILL.md".toList ∧
    getFileCategory (pathRelative "/repo".toList)
        ⟨some "/repo/skills/x/SKILL.md".toList, "one".toList⟩ =
      getFileCategory (pathRelative "/work/project".toList)
        ⟨some "skills/x/SKILL.md".toList, "two".toList⟩ ∧
    getFileCategory (pathRelative "/repo".toList)
        ⟨some "/repo/skills/x/SKILL.md".toList, "one".toList⟩ = "strict" ∧
    pathRelative "/repo".toList "/repo/./docs//../governance/policy.md".toList =
      "governance/policy.md".toList ∧
    pathRelative "/repo/a/b".toList "/repo/x/y.md".toList = "../../x/y.md".toList ∧
    pathRelative "/repo".toList "/repo".toList = [] :=
  ⟨by decide, by decide,
    (getFileCategory_total_pure (pathRelative "/repo".toList)
      (pathRelative "/work/project".toList)
      ⟨some "/repo/skills/x/SKILL.md".toList, "one".toList⟩
      ⟨some "skills/x/SKILL.md".toList, "two".toList⟩
      "/repo/skills/x/SKILL.md".toList "skills/x/SKILL.md".toList rfl rfl
      (by decide) (by decide) (by decide)).1,
    by decide, by decide, by decide, by decide⟩

/-- Counterexample to C2 as stated: the tier is not a function of the path alone. The path
`/repo/CLAUDE.md` is strict when the working directory is `/repo` (relative path
`CLAUDE.md`) and none when it is `/repo/docs` (relative path `../CLAUDE.md`). -/
theorem getFileCategory_depends_on_cwd :
    pathRelative "/repo".toList "/repo/CLAUDE.md".toList = "CLAUDE.md".toList ∧
    getFileCategory (pathRelative "/repo".toList) ⟨some "/repo/CLAUDE.md".toList, []⟩ =
      "strict" ∧
    pathRelative "/repo/docs".toList "/repo/CLAUDE.md".toList = "../CLAUDE.md".toList ∧
    getFileCategory (pathRelative "/repo/docs".toList) ⟨some "/repo/CLAUDE.md".toList, []⟩ =
      "none" ∧
    getFileCategory (pathRelative "/repo".toList) ⟨some "/repo/CLAUDE.md".toList, []⟩ ≠
      getFileCategory (pathRelative "/repo/docs".toList) ⟨some "/repo/CLAUDE.md".toList, []⟩ := by
  decide

/-! ## Heading order and completeness -/

theorem indexOf_ge (xs : List Str) (x : Str) : -1 ≤ indexOf xs x := by
  induction xs with
  | nil => simp [indexOf]
  | cons y ys ih =>
    unfold indexOf
    split_ifs <;> omega

theorem indexOf_eq_neg_one_iff (xs : List Str) (x : Str) : indexOf xs x = -1 ↔ x ∉ xs := by
  induction xs with
  | nil => simp [indexOf]
  | cons y ys ih =>
    have hge := indexOf_ge ys x
    unfold indexOf
    by_cases hy : y = x
    · simp [hy]
    · have hxy : ¬ x = y := fun h => hy h.symm
      simp only [hy, if_false, List.mem_cons, hxy, false_or]
      rw [← ih]
      split_ifs with h
      · simp [h]
      · constructor
        · intro h2; omega
        · intro h2; exact absurd h2 h

theorem indexOf_inj (xs : List Str) (a b : Str) (ha : indexOf xs a ≠ -1)
    (h : indexOf xs a = indexOf xs b) : a = b := by
  induction xs with
  | nil => simp [indexOf] at ha
  | cons y ys ih =>
    have hga := indexOf_ge ys a
    have hgb := indexOf_ge ys b
    unfold indexOf at h ha
    by_cases hya : y = a
    · by_cases hyb : y = b
      · rw [← hya, ← hyb]
      · rw [if_pos hya, if_neg hyb] at h
        (split_ifs at h; omega)
    · by_cases hyb : y = b
      · rw [if_neg hya, if_pos hyb] at h
        (split_ifs at h; omega)
      · rw [if_neg hya, if_neg hyb] at h
        rw [if_neg hya] at ha
        apply ih
        · intro h3; simp [h3] at ha
        · split_ifs at h <;> omega

/-- The `seen` array is the list of canonical headings, each with its canonical index. -/
theorem collectSeen_eq_map (vocab : List Str) (tree : Node) :
    collectSeen vocab tree =
      (canonicalHeadings vocab tree).map (fun n => ⟨canonicalIndex vocab n, n⟩) := by
  unfold collectSeen canonicalHeadings canonicalIndex
  induction visit "heading" tree with
  | nil => rfl
  | cons n ns ih =>
    by_cases h : headingText n ∈ vocab
    · have h2 : indexOf vocab (headingText n) ≠ -1 := by
        rw [Ne, indexOf_eq_neg_one_iff]; exact not_not.mpr h
      simp only [List.filterMap_cons, h2, ne_eq, not_false_eq_true, if_true, List.filter_cons,
        h, decide_True, List.map_cons, List.cons.injEq, true_and]
      exact ih
    · have h2 : indexOf vocab (headingText n) = -1 := by
        rw [indexOf_eq_neg_one_iff]; exact h
      simp only [List.filterMap_cons, h2, ne_eq, not_true_eq_false, if_false, List.filter_cons,
        h, decide_False]
      exact ih

theorem canonicalIndex_nonneg (vocab : List Str) (tree : Node) (n : Node)
    (hn : n ∈ canonicalHeadings vocab tree) : 0 ≤ canonicalIndex vocab n := by
  unfold canonicalHeadings at hn
  have hmem : headingText n ∈ vocab := by simpa using (List.mem_filter.mp hn).2
  have h1 := indexOf_ge vocab (headingText n)
  have h2 : indexOf vocab (headingText n) ≠ -1 := by
    rw [Ne, indexOf_eq_neg_one_iff]; exact not_not.mpr hmem
  unfold canonicalIndex
  omega

/-- The order loop reports nothing exactly when the indices, after `last`, never go down. -/
theorem orderCheck_eq_nil_iff (last : Int) (seen : List Seen) :
    orderCheck last seen = [] ↔ List.Chain (· ≤ ·) last (seen.map (·.idx)) := by
  induction seen generalizing last with
  | nil => simp [orderCheck]
  | cons s rest ih =>
    unfold orderCheck
    by_cases h : s.idx < last
    · simp only [h, if_true, List.map_cons, List.chain_cons]
      constructor
      · intro h2; simp at h2
      · intro h2; omega
    · simp only [h, if_false, List.map_cons, List.chain_cons, ih]
      constructor
      · intro h2; exact ⟨by omega, h2⟩
      · intro h2; exact h2.2

/-- Whatever the order loop reports is one message, attached to the first entry whose index
is below its predecessor, everything before that entry being in order. -/
theorem orderCheck_first_descent (last : Int) (seen : List Seen) (m : Message)
    (hm : m ∈ orderCheck last seen) :
    ∃ pre s post, seen = pre ++ s :: post ∧
      List.Chain (· ≤ ·) last (pre.map (·.idx)) ∧
      s.idx < (last :: pre.map (·.idx)).getLast (List.cons_ne_nil _ _) ∧
      orderCheck last seen = [orderMessage s.node] ∧ m = orderMessage s.node := by
  induction seen generalizing last with
  | nil => simp [orderCheck] at hm
  | cons s rest ih =>
    unfold orderCheck at hm ⊢
    by_cases h : s.idx < last
    · simp only [h, if_true, List.mem_singleton] at hm ⊢
      exact ⟨[], s, rest, rfl, List.Chain.nil, by simpa using h, rfl, hm⟩
    · simp only [h, if_false] at hm ⊢
      obtain ⟨pre, t, post, hsplit, hchain, hlt, hout, hmeq⟩ := ih s.idx hm
      refine ⟨s :: pre, t, post, by rw [hsplit]; rfl, ?_, ?_, hout, hmeq⟩
      · simp only [List.map_cons, List.chain_cons]
        exact ⟨by omega, hchain⟩
      · simpa [List.getLast_cons] using hlt

theorem orderCheck_length_le (last : Int) (seen : List Seen) :
    (orderCheck last seen).length ≤ 1 := by
  induction seen generalizing last with
  | nil => simp [orderCheck]
  | cons s rest ih =>
    unfold orderCheck
    split_ifs
    · simp
    · exact ih _

theorem orderCheck_all_order (last : Int) (seen : List Seen) :
    ∀ m ∈ orderCheck last seen, isOrderMessage m = true := by
  intro m hm
  obtain ⟨_, s, _, _, _, _, _, hmeq⟩ := orderCheck_first_descent last seen m hm
  rw [hmeq]
  simp [isOrderMessage, orderMessage]

theorem missingMessage_not_order (terms : List Str) :
    isOrderMessage (missingMessage terms) = false := by
  unfold isOrderMessage missingMessage
  simp only [beq_eq_false_iff_ne, ne_eq]
  intro h
  have h2 := congrArg List.head? h
  have h3 : ("Missing required headings: ".toList ++ join ", ".toList terms).head? = some 'M' :=
    rfl
  have h4 : orderReason.head? = some 'H' := rfl
  rw [h3, h4] at h2
  exact absurd h2 (by decide)

theorem missingMessage_isMissing (terms : List Str) :
    isMissingMessage (missingMessage terms) = true := by
  unfold isMissingMessage missingMessage
  simp only [List.isPrefixOf_iff_prefix]
  exact List.prefix_append _ _

theorem orderMessage_not_missing (n : Node) : isMissingMessage (orderMessage n) = false := by
  have h : "Missing required headings: ".toList.isPrefixOf orderReason = false := by decide
  simpa [isMissingMessage, orderMessage] using h

theorem orderMessage_isOrder (n : Node) : isOrderMessage (orderMessage n) = true := by
  simp [isOrderMessage, orderMessage]

/-- The `missing` array computed from `seen` is the list of absent vocabulary terms. -/
theorem missingHeadings_eq_absent (vocab : List Str) (tree : Node) :
    missingHeadings vocab (collectSeen vocab tree) = absentHeadings vocab tree := by
  unfold missingHeadings absentHeadings
  apply List.filter_congr
  intro heading hmem
  rw [collectSeen_eq_map]
  by_cases hin : heading ∈ headingTexts tree
  · have : ((canonicalHeadings vocab tree).map
        (fun n => (⟨canonicalIndex vocab n, n⟩ : Seen))).any
          (fun s => s.idx == indexOf vocab heading) = true := by
      rw [List.any_eq_true]
      unfold headingTexts at hin
      obtain ⟨n, hn, hnt⟩ := List.mem_map.mp hin
      refine ⟨⟨canonicalIndex vocab n, n⟩, ?_, ?_⟩
      · apply List.mem_map.mpr
        refine ⟨n, ?_, rfl⟩
        unfold canonicalHeadings
        rw [List.mem_filter]
        exact ⟨hn, by simpa [hnt] using hmem⟩
      · simp [canonicalIndex, hnt]
    simp [this, hin]
  · have : ((canonicalHeadings vocab tree).map
        (fun n => (⟨canonicalIndex vocab n, n⟩ : Seen))).any
          (fun s => s.idx == indexOf vocab heading) = false := by
      rw [Bool.eq_false_iff, Ne, List.any_eq_true]
      rintro ⟨s, hs, heq⟩
      obtain ⟨n, hn, rfl⟩ := List.mem_map.mp hs
      have hn2 := List.mem_filter.mp hn
      have hnv : headingText n ∈ vocab := by simpa using hn2.2
      have hne : indexOf vocab (headingText n) ≠ -1 := by
        rw [Ne, indexOf_eq_neg_one_iff]; exact not_not.mpr hnv
      have heq2 : indexOf vocab (headingText n) = indexOf vocab heading := by
        simpa [canonicalIndex] using heq
      have := indexOf_inj vocab _ _ hne heq2
      apply hin
      unfold headingTexts
      exact List.mem_map.mpr ⟨n, hn2.1, this⟩
    simp [this, hin]

/-- On a strict file the rule reports the outcome of the order loop, then the missing-headings
message when some term is absent. -/
theorem headingOrderRule_strict (relative : Str → Str) (tree : Node) (file : VFile)
    (hs : isStrictFile relative file = true) :
    headingOrderRule relative tree file =
      orderCheck (-1) (collectSeen EXPECTED_HEADINGS tree) ++
        (if absentHeadings EXPECTED_HEADINGS tree = [] then []
         else [missingMessage (absentHeadings EXPECTED_HEADINGS tree)]) := by
  unfold headingOrderRule
  simp only [hs, Bool.not_true, Bool.false_eq_true, if_false, missingHeadings_eq_absent]
  congr 1
  by_cases h : absentHeadings EXPECTED_HEADINGS tree = []
  · simp [h]
  · have : (absentHeadings EXPECTED_HEADINGS tree).length ≠ 0 := by
      simpa [List.length_eq_zero] using h
    simp [h, missingMessage]

theorem canonicalIndices_eq (vocab : List Str) (tree : Node) :
    (canonicalHeadings vocab tree).map (canonicalIndex vocab) =
      ((headingTexts tree).filter (fun t => decide (t ∈ vocab))).map (indexOf vocab) := by
  unfold canonicalHeadings headingTexts
  rw [List.filter_map, List.map_map]
  rfl

theorem collectSeen_map_idx (vocab : List Str) (tree : Node) :
    (collectSeen vocab tree).map (·.idx) =
      (canonicalHeadings vocab tree).map (canonicalIndex vocab) := by
  rw [collectSeen_eq_map, List.map_map]
  rfl

/-- After `-1`, the canonical indices never go down exactly when they are in order. -/
theorem chain_neg_one_iff (vocab : List Str) (tree : Node) :
    List.Chain (· ≤ ·) (-1 : Int) ((canonicalHeadings vocab tree).map (canonicalIndex vocab)) ↔
      ((canonicalHeadings vocab tree).map (canonicalIndex vocab)).Pairwise (· ≤ ·) := by
  rw [List.chain_iff_pairwise, List.pairwise_cons]
  constructor
  · exact fun h => h.2
  · intro h
    refine ⟨?_, h⟩
    intro x hx
    obtain ⟨n, hn, rfl⟩ := List.mem_map.mp hx
    have := canonicalIndex_nonneg vocab tree n hn
    omega

/-- The order loop on a strict file reports a heading that is below an earlier one, the
headings before it being in order. -/
theorem orderCheck_canonical (vocab : List Str) (tree : Node) (m : Message)
    (hm : m ∈ orderCheck (-1) (collectSeen vocab tree)) :
    ∃ pre s post, canonicalHeadings vocab tree = pre ++ s :: post ∧
      (pre.map (canonicalIndex vocab)).Pairwise (· ≤ ·) ∧
      (∃ t ∈ pre, canonicalIndex vocab s < canonicalIndex vocab t) ∧
      m = orderMessage s := by
  obtain ⟨pre, s, post, hsplit, hchain, hlt, _, hmeq⟩ :=
    orderCheck_first_descent (-1) (collectSeen vocab tree) m hm
  rw [collectSeen_eq_map] at hsplit
  obtain ⟨pre', rest', hc, hpre, hrest⟩ := List.map_eq_append_iff.mp hsplit
  obtain ⟨s', post', hr, hs', hpost⟩ := List.map_eq_cons_iff.mp hrest
  subst hr
  have hsmem : s' ∈ canonicalHeadings vocab tree := by rw [hc]; simp
  have hsnn := canonicalIndex_nonneg vocab tree s' hsmem
  have hidx : s.idx = canonicalIndex vocab s' := by rw [← hs']
  have hnode : s.node = s' := by rw [← hs']
  have hpremap : pre.map (·.idx) = pre'.map (canonicalIndex vocab) := by
    rw [← hpre, List.map_map]; rfl
  rw [hpremap] at hchain hlt
  refine ⟨pre', s', post', hc, ?_, ?_, by rw [hmeq, hnode]⟩
  · have := List.chain_iff_pairwise.mp hchain
    exact (List.pairwise_cons.mp this).2
  · cases hp : pre'.reverse with
    | nil =>
      have : pre' = [] := by simpa using hp
      subst this
      simp at hlt
      omega
    | cons t ts =>
      have hp2 : pre' = ts.reverse ++ [t] := by
        have := congrArg List.reverse hp
        simpa using this
      refine ⟨t, by rw [hp2]; simp, ?_⟩
      rw [hp2] at hlt
      simp at hlt
      omega

/-- C3: on a strict file `headingOrderRule` emits the ordering message iff the canonical
indices of the canonical headings, in document order, are not non-decreasing, that is iff some
heading has a smaller canonical index than an earlier one; it emits it at most once, attached
to the first heading that is below an earlier one (the headings before it are in order). -/
theorem headingOrderRule_ordering_message (relative : Str → Str) (tree : Node) (file : VFile)
    (hs : isStrictFile relative file = true) :
    ((∃ m ∈ headingOrderRule relative tree file, isOrderMessage m = true) ↔
      ¬ ((canonicalHeadings EXPECTED_HEADINGS tree).map
          (canonicalIndex EXPECTED_HEADINGS)).Pairwise (· ≤ ·)) ∧
    ((∃ m ∈ headingOrderRule relative tree file, isOrderMessage m = true) ↔
      ∃ pre s post, canonicalHeadings EXPECTED_HEADINGS tree = pre ++ s :: post ∧
        ∃ t ∈ pre, canonicalIndex EXPECTED_HEADINGS s < canonicalIndex EXPECTED_HEADINGS t) ∧
    ((headingOrderRule relative tree file).filter isOrderMessage).length ≤ 1 ∧
    (∀ m ∈ headingOrderRule relative tree file, isOrderMessage m = true →
      ∃ pre s post, canonicalHeadings EXPECTED_HEADINGS tree = pre ++ s :: post ∧
        (pre.map (canonicalIndex EXPECTED_HEADINGS)).Pairwise (· ≤ ·) ∧
        (∃ t ∈ pre, canonicalIndex EXPECTED_HEADINGS s < canonicalIndex EXPECTED_HEADINGS t) ∧
        m = orderMessage s) := by
  have hout := headingOrderRule_strict relative tree file hs
  -- an ordering message of the rule is a message of the order loop
  have hmem : ∀ m, (m ∈ headingOrderRule relative tree file ∧ isOrderMessage m = true) ↔
      m ∈ orderCheck (-1) (collectSeen EXPECTED_HEADINGS tree) := by
    intro m
    rw [hout, List.mem_append]
    constructor
    · rintro ⟨h | h, ho⟩
      · exact h
      · split_ifs at h with hab
        · simp at h
        · rw [List.mem_singleton] at h
          rw [h, missingMessage_not_order] at ho
          exact absurd ho (by decide)
    · intro h
      exact ⟨Or.inl h, orderCheck_all_order _ _ m h⟩
  have hex : (∃ m ∈ headingOrderRule relative tree file, isOrderMessage m = true) ↔
      orderCheck (-1) (collectSeen EXPECTED_HEADINGS tree) ≠ [] := by
    constructor
    · rintro ⟨m, hm, ho⟩ hnil
      have := (hmem m).mp ⟨hm, ho⟩
      rw [hnil] at this
      simp at this
    · intro hne
      obtain ⟨m, hm⟩ := List.exists_mem_of_ne_nil _ hne
      exact ⟨m, ((hmem m).mpr hm).1, ((hmem m).mpr hm).2⟩
  have hiff1 : (∃ m ∈ headingOrderRule relative tree file, isOrderMessage m = true) ↔
      ¬ ((canonicalHeadings EXPECTED_HEADINGS tree).map
          (canonicalIndex EXPECTED_HEADINGS)).Pairwise (· ≤ ·) := by
    rw [hex, Ne, orderCheck_eq_nil_iff, collectSeen_map_idx, chain_neg_one_iff]
  have hlast : ∀ m ∈ headingOrderRule relative tree file, isOrderMessage m = true →
      ∃ pre s post, canonicalHeadings EXPECTED_HEADINGS tree = pre ++ s :: post ∧
        (pre.map (canonicalIndex EXPECTED_HEADINGS)).Pairwise (· ≤ ·) ∧
        (∃ t ∈ pre, canonicalIndex EXPECTED_HEADINGS s < canonicalIndex EXPECTED_HEADINGS t) ∧
        m = orderMessage s :=
    fun m hm ho => orderCheck_canonical EXPECTED_HEADINGS tree m ((hmem m).mp ⟨hm, ho⟩)
  refine ⟨hiff1, ?_, ?_, hlast⟩
  · constructor
    · rintro ⟨m, hm, ho⟩
      obtain ⟨pre, s, post, hsplit, _, ht, _⟩ := hlast m hm ho
      exact ⟨pre, s, post, hsplit, ht⟩
    · rintro ⟨pre, s, post, hsplit, t, ht, hlt⟩
      rw [hiff1, hsplit, List.map_append, List.map_cons, List.pairwise_append]
      rintro ⟨_, _, h⟩
      have := h (canonicalIndex EXPECTED_HEADINGS t) (List.mem_map.mpr ⟨t, ht, rfl⟩)
        (canonicalIndex EXPECTED_HEADINGS s) (by simp)
      omega
  · rw [hout, List.filter_append]
    have h1 : (orderCheck (-1) (collectSeen EXPECTED_HEADINGS tree)).filter isOrderMessage =
        orderCheck (-1) (collectSeen EXPECTED_HEADINGS tree) :=
      List.filter_eq_self.mpr (orderCheck_all_order _ _)
    have h2 : (if absentHeadings EXPECTED_HEADINGS tree = [] then []
        else [missingMessage (absentHeadings EXPECTED_HEADINGS tree)]).filter isOrderMessage
          = [] := by
      split_ifs
      · rfl
      · simp [missingMessage_not_order]
    rw [h1, h2, List.append_nil]
    exact orderCheck_length_le _ _

/-- Witness for C3: the headings Scope, Language-Rules, Absolute-Prohibitions of a strict file
give exactly one ordering message, attached to Absolute-Prohibitions. -/
theorem headingOrderRule_ordering_message_witness :
    isStrictFile id (strictFile []) = true ∧
    (headingOrderRule id
      (rootNode [headingNode "Scope", headingNode "Language-Rules",
        headingNode "Absolute-Prohibitions"]) (strictFile [])).filter isOrderMessage =
      [orderMessage (headingNode "Absolute-Prohibitions")] ∧
    ∃ m ∈ headingOrderRule id
      (rootNode [headingNode "Scope", headingNode "Language-Rules",
        headingNode "Absolute-Prohibitions"]) (strictFile []), isOrderMessage m = true :=
  ⟨by decide, by rfl,
    (headingOrderRule_ordering_message id
      (rootNode [headingNode "Scope", headingNode "Language-Rules",
        headingNode "Absolute-Prohibitions"]) (strictFile []) (by decide)).1.mpr (by decide)⟩

/-- C4: on a strict file whose headings are exactly the ten canonical headings, in canonical
order, `headingOrderRule` emits no message. -/
theorem headingOrderRule_canonical_document (relative : Str → Str) (tree : Node) (file : VFile)
    (hs : isStrictFile relative file = true)
    (hh : headingTexts tree = EXPECTED_HEADINGS) :
    headingOrderRule relative tree file = [] := by
  rw [headingOrderRule_strict relative tree file hs]
  have h1 : orderCheck (-1) (collectSeen EXPECTED_HEADINGS tree) = [] := by
    rw [orderCheck_eq_nil_iff, collectSeen_map_idx, canonicalIndices_eq, hh]
    have hidx : ((EXPECTED_HEADINGS.filter (fun t => decide (t ∈ EXPECTED_HEADINGS))).map
        (indexOf EXPECTED_HEADINGS)) = [0, 1, 2, 3, 4, 5, 6, 7, 8, 9] := by decide
    rw [hidx]
    simp
  have h2 : absentHeadings EXPECTED_HEADINGS tree = [] := by
    unfold absentHeadings
    rw [hh]
    decide
  rw [h1, h2]
  rfl

/-- Witness for C4: a strict document with the ten headings, capitalised, in order. -/
theorem headingOrderRule_canonical_document_witness :
    headingOrderRule id
      (rootNode [headingNode "Scope", headingNode "Absolute-Prohibitions",
        headingNode "Communication-Protocol", headingNode "Structural-Rules",
        headingNode "Language-Rules", headingNode "Formatting-Rules",
        headingNode "Naming-Rules", headingNode "Validation-Rules",
        headingNode "Narrative-Detection", headingNode " DEPTH-COMPATIBILITY "])
      (strictFile []) = [] :=
  headingOrderRule_canonical_document id _ (strictFile []) (by decide) (by decide)

theorem mem_absentHeadings (vocab : List Str) (tree : Node) (t : Str) :
    t ∈ absentHeadings vocab tree ↔ t ∈ vocab ∧ t ∉ headingTexts tree := by
  unfold absentHeadings
  simp [List.mem_filter]

theorem absentHeadings_eq_nil_iff (vocab : List Str) (tree : Node) :
    absentHeadings vocab tree = [] ↔ ¬ ∃ t ∈ vocab, t ∉ headingTexts tree := by
  rw [List.eq_nil_iff_forall_not_mem]
  simp only [mem_absentHeadings, not_and, not_exists]

/-- C5: on a strict file `headingOrderRule` emits the missing-headings message iff some term
of `EXPECTED_HEADINGS` is the normalised text of no heading; it emits it once, and it lists
exactly the absent terms, each once, in canonical order. With no canonical heading in the
document the rule emits that one message only, listing all ten terms. -/
theorem headingOrderRule_missing_message (relative : Str → Str) (tree : Node) (file : VFile)
    (hs : isStrictFile relative file = true) :
    ((∃ m ∈ headingOrderRule relative tree file, isMissingMessage m = true) ↔
      ∃ t ∈ EXPECTED_HEADINGS, t ∉ headingTexts tree) ∧
    ((headingOrderRule relative tree file).filter isMissingMessage =
      if absentHeadings EXPECTED_HEADINGS tree = [] then []
      else [missingMessage (absentHeadings EXPECTED_HEADINGS tree)]) ∧
    (∀ t, t ∈ absentHeadings EXPECTED_HEADINGS tree ↔
      t ∈ EXPECTED_HEADINGS ∧ t ∉ headingTexts tree) ∧
    (absentHeadings EXPECTED_HEADINGS tree).Nodup ∧
    (absentHeadings EXPECTED_HEADINGS tree).Sublist EXPECTED_HEADINGS ∧
    ((∀ t ∈ headingTexts tree, t ∉ EXPECTED_HEADINGS) →
      headingOrderRule relative tree file = [missingMessage EXPECTED_HEADINGS]) := by
  have hout := headingOrderRule_strict relative tree file hs
  have hfilter : (headingOrderRule relative tree file).filter isMissingMessage =
      if absentHeadings EXPECTED_HEADINGS tree = [] then []
      else [missingMessage (absentHeadings EXPECTED_HEADINGS tree)] := by
    rw [hout, List.filter_append]
    have h1 : (orderCheck (-1) (collectSeen EXPECTED_HEADINGS tree)).filter isMissingMessage
        = [] := by
      rw [List.filter_eq_nil_iff]
      intro m hm
      obtain ⟨_, s, _, _, _, _, _, hmeq⟩ := orderCheck_first_descent _ _ m hm
      rw [hmeq, orderMessage_not_missing]
      decide
    rw [h1, List.nil_append]
    split_ifs
    · rfl
    · simp [missingMessage_isMissing]
  refine ⟨?_, hfilter, mem_absentHeadings _ _, ?_, ?_, ?_⟩
  · have hex : (∃ m ∈ headingOrderRule relative tree file, isMissingMessage m = true) ↔
        (headingOrderRule relative tree file).filter isMissingMessage ≠ [] := by
      rw [Ne, List.filter_eq_nil_iff]
      push_neg
      rfl
    rw [hex, hfilter]
    by_cases h : absentHeadings EXPECTED_HEADINGS tree = []
    · simp only [h, if_true, ne_eq, not_true_eq_false, false_iff]
      exact (absentHeadings_eq_nil_iff _ _).mp h
    · simp only [h, if_false, ne_eq, List.cons_ne_nil, not_false_eq_true, true_iff]
      by_contra hc
      exact h ((absentHeadings_eq_nil_iff _ _).mpr hc)
  · unfold absentHeadings
    exact List.Nodup.filter _ (by decide)
  · unfold absentHeadings
    exact List.filter_sublist _
  · intro hnone
    have hseen : collectSeen EXPECTED_HEADINGS tree = [] := by
      rw [collectSeen_eq_map]
      unfold canonicalHeadings
      rw [List.map_eq_nil_iff, List.filter_eq_nil_iff]
      intro n hn
      have := hnone (headingText n) (List.mem_map.mpr ⟨n, hn, rfl⟩)
      simpa using this
    have habs : absentHeadings EXPECTED_HEADINGS tree = EXPECTED_HEADINGS := by
      unfold absentHeadings
      rw [List.filter_eq_self]
      intro t ht
      have : t ∉ headingTexts tree := fun h => hnone t h ht
      simpa using this
    rw [hout, hseen, habs]
    rfl

/-- Witness for C5: a strict document whose only heading is outside the vocabulary gets the
single message listing the ten terms. -/
theorem headingOrderRule_missing_message_witness :
    isStrictFile id (strictFile []) = true ∧
    headingOrderRule id (rootNode [headingNode "Overview", paragraphNode "Use the tool."])
      (strictFile []) = [missingMessage EXPECTED_HEADINGS] ∧
    (missingMessage EXPECTED_HEADINGS).reason =
      ("Missing required headings: scope, absolute-prohibitions, communication-protocol, " ++
        "structural-rules, language-rules, formatting-rules, naming-rules, validation-rules, " ++
        "narrative-detection, depth-compatibility").toList :=
  ⟨by decide,
    (headingOrderRule_missing_message id
      (rootNode [headingNode "Overview", paragraphNode "Use the tool."]) (strictFile [])
      (by decide)).2.2.2.2.2 (by decide),
    by rfl⟩

/-- On a moderate file the rule reports the absent governance terms when there are one or two
of them. -/
theorem moderateHeadingRule_moderate (relative : Str → Str) (tree : Node) (file : VFile)
    (hm : isModerateFile relative file = true) :
    moderateHeadingRule relative tree file =
      if (absentHeadings MODERATE_HEADINGS tree).length ≠ 0 ∧
          (absentHeadings MODERATE_HEADINGS tree).length ≤ 2
      then [governanceMessage (absentHeadings MODERATE_HEADINGS tree)] else [] := by
  unfold moderateHeadingRule
  simp only [hm, Bool.not_true, Bool.false_eq_true, if_false, missingHeadings_eq_absent]
  rfl

/-- `Array.prototype.join` is the concatenation of the items with the separator between each
two neighbours. -/
theorem join_eq_intercalate (sep : Str) (xs : List Str) : join sep xs = sep.intercalate xs := by
  induction xs with
  | nil => rfl
  | cons x rest ih =>
    cases rest with
    | nil => simp [join, List.intercalate]
    | cons y rest =>
      rw [join, ih]
      simp [List.intercalate, List.intersperse, List.append_assoc]

/-- C8: on a moderate file `moderateHeadingRule` emits exactly one message iff one or two
terms of `MODERATE_HEADINGS` are absent from the normalised heading texts, and nothing when
none, three or four are absent; the message is unplaced, and its text is the fixed
introduction followed by exactly the absent terms, in vocabulary order, separated by a comma
and a blank. -/
theorem moderateHeadingRule_threshold (relative : Str → Str) (tree : Node) (file : VFile)
    (hm : isModerateFile relative file = true) :
    (moderateHeadingRule relative tree file =
        [governanceMessage (absentHeadings MODERATE_HEADINGS tree)] ↔
      (absentHeadings MODERATE_HEADINGS tree).length = 1 ∨
      (absentHeadings MODERATE_HEADINGS tree).length = 2) ∧
    (moderateHeadingRule relative tree file = [] ↔
      (absentHeadings MODERATE_HEADINGS tree).length = 0 ∨
      (absentHeadings MODERATE_HEADINGS tree).length = 3 ∨
      (absentHeadings MODERATE_HEADINGS tree).length = 4) ∧
    (moderateHeadingRule relative tree file).length ≤ 1 ∧
    (∀ t, t ∈ absentHeadings MODERATE_HEADINGS tree ↔
      t ∈ MODERATE_HEADINGS ∧ t ∉ headingTexts tree) ∧
    (absentHeadings MODERATE_HEADINGS tree).Nodup ∧
    (absentHeadings MODERATE_HEADINGS tree).Sublist MODERATE_HEADINGS ∧
    (∀ m ∈ moderateHeadingRule relative tree file,
      m.ruleId = "remark-claude:moderate-headings" ∧
      m.reason = "Consider adding these governance headings: ".toList ++
        ", ".toList.intercalate
          (MODERATE_HEADINGS.filter (fun t => decide (t ∉ headingTexts tree))) ∧
      m.place = .unplaced) ∧
    ((moderateHeadingRule relative tree file = [] ∨
      moderateHeadingRule relative tree file =
        [⟨"remark-claude:moderate-headings",
          "Consider adding these governance headings: ".toList ++
            ", ".toList.intercalate
              (MODERATE_HEADINGS.filter (fun t => decide (t ∉ headingTexts tree))),
          .unplaced⟩])) := by
  have hlen : (absentHeadings MODERATE_HEADINGS tree).length ≤ 4 := by
    have := List.length_filter_le (fun t => decide (t ∉ headingTexts tree)) MODERATE_HEADINGS
    simpa [absentHeadings, MODERATE_HEADINGS] using this
  have hmsg : governanceMessage (absentHeadings MODERATE_HEADINGS tree) =
      ⟨"remark-claude:moderate-headings",
        "Consider adding these governance headings: ".toList ++
          ", ".toList.intercalate
            (MODERATE_HEADINGS.filter (fun t => decide (t ∉ headingTexts tree))),
        .unplaced⟩ := by
    unfold governanceMessage absentHeadings
    rw [join_eq_intercalate]
  rw [moderateHeadingRule_moderate relative tree file hm]
  refine ⟨?_, ?_, ?_, mem_absentHeadings _ _, ?_, ?_, ?_, ?_⟩
  · split_ifs with h
    · simp only [true_iff]; omega
    · simp only [List.nil_eq, List.cons_ne_nil, false_iff, reduceCtorEq]; omega
  · split_ifs with h
    · simp only [List.cons_ne_nil, false_iff, reduceCtorEq]; omega
    · simp only [true_iff]; omega
  · split_ifs <;> simp
  · unfold absentHeadings
    exact List.Nodup.filter _ (by decide)
  · unfold absentHeadings
    exact List.filter_sublist _
  · intro m hmem
    split_ifs at hmem with h
    · rw [List.mem_singleton] at hmem
      rw [hmem, hmsg]
      exact ⟨rfl, rfl, rfl⟩
    · simp at hmem
  · split_ifs with h
    · right; rw [hmsg]
    · left; rfl

/-- Witness for C8: with three of the four governance headings missing nothing is emitted,
with two missing one message names them, with one missing one message names it, and with
none or all four missing nothing is emitted. -/
theorem moderateHeadingRule_threshold_witness :
    isModerateFile id moderateFile = true ∧
    (absentHeadings MODERATE_HEADINGS (rootNode [headingNode "Scope"])).length = 3 ∧
    moderateHeadingRule id (rootNode [headingNode "Scope"]) moderateFile = [] ∧
    (absentHeadings MODERATE_HEADINGS
      (rootNode [headingNode "Scope", headingNode "Purpose"])).length = 2 ∧
    moderateHeadingRule id (rootNode [headingNode "Scope", headingNode "Purpose"])
      moderateFile = [governanceMessage ["workflow".toList, "configuration".toList]] ∧
    moderateHeadingRule id (rootNode [headingNode "Scope", headingNode "Purpose"])
      moderateFile =
        [⟨"remark-claude:moderate-headings",
          "Consider adding these governance headings: workflow, configuration".toList,
          .unplaced⟩] ∧
    moderateHeadingRule id
      (rootNode [headingNode " WORKFLOW ", headingNode "Scope", headingNode "Purpose"])
      moderateFile =
        [⟨"remark-claude:moderate-headings",
          "Consider adding these governance headings: configuration".toList, .unplaced⟩] ∧
    moderateHeadingRule id
      (rootNode [headingNode "Configuration", headingNode "Workflow", headingNode "Scope",
        headingNode "Purpose"]) moderateFile = [] ∧
    moderateHeadingRule id (rootNode [headingNode "Overview"]) moderateFile = [] ∧
    moderateHeadingRule id (rootNode [headingNode "Scope", headingNode "Purpose"])
      (strictFile []) = [] :=
  ⟨by decide, by decide,
    (moderateHeadingRule_threshold id (rootNode [headingNode "Scope"]) moderateFile
      (by decide)).2.1.mpr (Or.inr (Or.inl (by decide))),
    by decide,
    (moderateHeadingRule_threshold id (rootNode [headingNode "Scope", headingNode "Purpose"])
      moderateFile (by decide)).1.mpr (Or.inr (by decide)),
    by rfl, by rfl, by rfl, by rfl, by rfl⟩

/-! ## Line length -/

theorem fencesBefore_succ (pre rest : List Str) (line : Str) :
    fencesBefore (pre ++ line :: rest) (pre.length + 1) =
      fencesBefore (pre ++ line :: rest) pre.length + (if isFenceLine line then 1 else 0) := by
  unfold fencesBefore
  have h1 : (pre ++ line :: rest).take (pre.length + 1) = pre ++ [line] := by
    have : pre ++ line :: rest = (pre ++ [line]) ++ rest := by simp
    rw [this]
    have hl : (pre ++ [line]).length = pre.length + 1 := by simp
    rw [← hl, List.take_left']
    rfl
  have h2 : (pre ++ line :: rest).take pre.length = pre := by
    rw [List.take_left']
    rfl
  rw [h1, h2, List.filter_append, List.length_append]
  by_cases h : isFenceLine line <;> simp [h]

theorem insideOpenFence_succ (pre rest : List Str) (line : Str) :
    insideOpenFence (pre ++ line :: rest) (pre.length + 1) =
      if isFenceLine line then !insideOpenFence (pre ++ line :: rest) pre.length
      else insideOpenFence (pre ++ line :: rest) pre.length := by
  unfold insideOpenFence
  rw [fencesBefore_succ]
  by_cases h : isFenceLine line
  · simp only [h, if_true]
    rcases Nat.mod_two_eq_zero_or_one (fencesBefore (pre ++ line :: rest) pre.length) with h0 | h1
    · have : (fencesBefore (pre ++ line :: rest) pre.length + 1) % 2 = 1 := by omega
      simp [h0, this]
    · have : (fencesBefore (pre ++ line :: rest) pre.length + 1) % 2 = 0 := by omega
      simp [h1, this]
  · simp [h]

/-- The loop, started at a line with the fence state of that line, reports the reportable
lines from there on. -/
theorem lineLengthLoop_spec (rest pre : List Str) :
    lineLengthLoop (insideOpenFence (pre ++ rest) pre.length) pre.length rest =
      ((List.range' pre.length rest.length).filter (reportableLine (pre ++ rest))).map
        lineLengthMessage := by
  induction rest generalizing pre with
  | nil => simp [lineLengthLoop]
  | cons line rest ih =>
    have hsplit : pre ++ line :: rest = (pre ++ [line]) ++ rest := by simp
    have hlen : (pre ++ [line]).length = pre.length + 1 := by simp
    have ih2 := ih (pre ++ [line])
    rw [← hsplit, hlen] at ih2
    have hget : (pre ++ line :: rest)[pre.length]? = some line := by
      rw [List.getElem?_append_right (le_refl _)]
      simp
    rw [List.length_cons, List.range'_succ, List.filter_cons]
    unfold lineLengthLoop
    have hrep : reportableLine (pre ++ line :: rest) pre.length =
        (decide (jsLength line > 100) && !isFenceLine line &&
          !insideOpenFence (pre ++ line :: rest) pre.length && !isTableLine line) := by
      unfold reportableLine
      rw [hget]
    rw [hrep]
    rw [insideOpenFence_succ pre rest line] at ih2
    rcases Bool.eq_false_or_eq_true (isFenceLine line) with hf | hf <;>
    rcases Bool.eq_false_or_eq_true (insideOpenFence (pre ++ line :: rest) pre.length)
      with hin | hin <;>
    rcases Bool.eq_false_or_eq_true (isTableLine line) with ht | ht <;>
    by_cases hl : jsLength line > 100 <;>
    simp only [hf, hin, ht, hl, if_true, if_false, Bool.not_true, Bool.not_false,
      Bool.false_eq_true, decide_True, decide_False, Bool.and_true, Bool.and_false,
      Bool.and_self, List.map_cons] at ih2 ⊢ <;>
    (rw [ih2]; try rfl)

theorem lineLengthRule_strict (relative : Str → Str) (tree : Node) (file : VFile)
    (hs : isStrictFile relative file = true) :
    lineLengthRule relative tree file =
      ((List.range (splitLines file.contents).length).filter
        (reportableLine (splitLines file.contents))).map lineLengthMessage := by
  unfold lineLengthRule
  simp only [hs, Bool.not_true, Bool.false_eq_true, if_false]
  have h := lineLengthLoop_spec (splitLines file.contents) []
  have h0 : insideOpenFence (splitLines file.contents) 0 = false := by
    simp [insideOpenFence, fencesBefore]
  simp only [List.nil_append, List.length_nil, h0] at h
  rw [h, List.range_eq_range']

/-- The JavaScript length of a text is its number of characters plus its number of characters
outside the Basic Multilingual Plane. -/
theorem jsLength_eq (line : Str) :
    jsLength line = line.length + (line.filter (fun c => decide (65536 ≤ c.toNat))).length := by
  unfold jsLength
  induction line with
  | nil => rfl
  | cons c cs ih =>
    rw [List.map_cons, List.sum_cons, ih, List.filter_cons, List.length_cons]
    by_cases h : c.toNat < 65536
    · have h2 : ¬ 65536 ≤ c.toNat := by omega
      simp only [h, h2, if_true, decide_False, Bool.false_eq_true, if_false]
      omega
    · have h2 : 65536 ≤ c.toNat := by omega
      simp only [h, h2, if_false, decide_True, if_true, List.length_cons]
      omega

theorem jsLength_of_bmp (line : Str) (h : ∀ c ∈ line, c.toNat < 65536) :
    jsLength line = line.length := by
  rw [jsLength_eq]
  have : line.filter (fun c => decide (65536 ≤ c.toNat)) = [] := by
    rw [List.filter_eq_nil_iff]
    intro c hc
    have := h c hc
    simp only [decide_eq_true_eq]
    omega
  rw [this]
  rfl

theorem isFenceLine_iff (line : Str) :
    isFenceLine line = true ↔ ("```".toList <+: trim line ∨ "~~~".toList <+: trim line) := by
  unfold isFenceLine
  rw [Bool.or_eq_true, List.isPrefixOf_iff_prefix, List.isPrefixOf_iff_prefix]

theorem isTableLine_iff (line : Str) :
    isTableLine line = true ↔ (trim line).head? = some '|' := by
  unfold isTableLine
  rw [List.isPrefixOf_iff_prefix]
  cases trim line with
  | nil => simp
  | cons c cs =>
    show ['|'] <+: c :: cs ↔ _
    rw [List.head?_cons, Option.some.injEq]
    constructor
    · rintro ⟨t, ht⟩
      exact (List.cons.inj ht).1.symm
    · intro h
      exact ⟨cs, by rw [h]; rfl⟩

theorem insideOpenFence_eq_false_iff (lines : List Str) (i : Nat) :
    insideOpenFence lines i = false ↔
      ((lines.take i).filter
        (fun l => decide ("```".toList <+: trim l ∨ "~~~".toList <+: trim l))).length % 2 = 0 := by
  have hf : (fun l : Str => decide ("```".toList <+: trim l ∨ "~~~".toList <+: trim l)) =
      isFenceLine := by
    funext l
    rw [Bool.eq_iff_iff, decide_eq_true_eq, isFenceLine_iff]
  rw [hf]
  unfold insideOpenFence fencesBefore
  rw [beq_eq_false_iff_ne]
  omega

/-- C7: on a strict file `lineLengthRule` emits, in line order, exactly one message for each
physical line whose JavaScript length is greater than 100, that is not a fence delimiter, is
not inside an open fence and is not a table row, carrying the 1-based line number and column
101; no other line gets a message (a line of length 100 gets none). The length is counted in
UTF-16 code units: the number of characters plus the number of characters outside the Basic
Multilingual Plane. A fence delimiter is a line whose trimmed content starts with three
backticks or three tildes, a line is inside an open fence when an odd number of delimiters
precede it, and a table row is a line whose trimmed content starts with a pipe. -/
theorem lineLengthRule_reports (relative : Str → Str) (tree : Node) (file : VFile)
    (hs : isStrictFile relative file = true) :
    lineLengthRule relative tree file =
      ((List.range (splitLines file.contents).length).filter
        (reportableLine (splitLines file.contents))).map lineLengthMessage ∧
    (∀ i, ((lineLengthRule relative tree file).filter (pointsAtLine (i + 1))).length =
      if reportableLine (splitLines file.contents) i then 1 else 0) ∧
    (∀ m ∈ lineLengthRule relative tree file,
      ∃ i, reportableLine (splitLines file.contents) i = true ∧ m = lineLengthMessage i) ∧
    (∀ i line, (splitLines file.contents)[i]? = some line →
      (reportableLine (splitLines file.contents) i = true ↔
        100 < jsLength line ∧ isFenceLine line = false ∧
          insideOpenFence (splitLines file.contents) i = false ∧ isTableLine line = false)) ∧
    (∀ i line, (splitLines file.contents)[i]? = some line → jsLength line = 100 →
      (lineLengthRule relative tree file).filter (pointsAtLine (i + 1)) = []) ∧
    (∀ i line, (splitLines file.contents)[i]? = some line →
      (reportableLine (splitLines file.contents) i = true ↔
        100 < line.length + (line.filter (fun c => decide (65536 ≤ c.toNat))).length ∧
        ¬ "```".toList <+: trim line ∧ ¬ "~~~".toList <+: trim line ∧
        (((splitLines file.contents).take i).filter
          (fun l => decide ("```".toList <+: trim l ∨ "~~~".toList <+: trim l))).length % 2
            = 0 ∧
        (trim line).head? ≠ some '|')) ∧
    (∀ i, lineLengthMessage i =
      ⟨"remark-claude:line-length", lineLengthReason, .point (i + 1) 101⟩) ∧
    (∀ line : Str, (∀ c ∈ line, c.toNat < 65536) → jsLength line = line.length) := by
  have hout := lineLengthRule_strict relative tree file hs
  have hcount : ∀ i, ((lineLengthRule relative tree file).filter (pointsAtLine (i + 1))).length =
      if reportableLine (splitLines file.contents) i then 1 else 0 := by
    intro i
    rw [hout, List.filter_map, List.length_map, List.filter_filter]
    have hfun : (fun a => (pointsAtLine (i + 1) ∘ lineLengthMessage) a &&
        reportableLine (splitLines file.contents) a) =
        (fun a => decide (a = i) && reportableLine (splitLines file.contents) i) := by
      funext a
      by_cases ha : a = i
      · subst ha; simp [pointsAtLine, lineLengthMessage]
      · simp [pointsAtLine, lineLengthMessage, ha]
    rw [hfun]
    by_cases hr : reportableLine (splitLines file.contents) i = true
    · have hi : i < (splitLines file.contents).length := by
        unfold reportableLine at hr
        by_contra hnot
        have : (splitLines file.contents)[i]? = none :=
          List.getElem?_eq_none (by omega)
        rw [this] at hr
        simp at hr
      simp only [hr, Bool.and_true, if_true]
      rw [← List.countP_eq_length_filter]
      have := List.count_eq_one_of_mem (List.nodup_range _) (List.mem_range.mpr hi)
      rw [List.count] at this
      have hb : (fun a => decide (a = i)) = (fun a => a == i) := by
        funext a; by_cases h : a = i <;> simp [h]
      rw [hb]
      exact this
    · simp only [hr, Bool.and_false, if_false]
      simp
  refine ⟨hout, hcount, ?_, ?_, ?_, ?_, fun _ => rfl, jsLength_of_bmp⟩
  · intro m hm
    rw [hout] at hm
    obtain ⟨i, hi, rfl⟩ := List.mem_map.mp hm
    exact ⟨i, (List.mem_filter.mp hi).2, rfl⟩
  · intro i line hline
    unfold reportableLine
    rw [hline]
    simp [Bool.and_eq_true, and_assoc]
  · intro i line hline h100
    have hr : reportableLine (splitLines file.contents) i = false := by
      unfold reportableLine
      rw [hline]
      simp [h100]
    have := hcount i
    rw [hr] at this
    simpa using this
  · intro i line hline
    unfold reportableLine
    rw [hline, ← insideOpenFence_eq_false_iff, ← jsLength_eq]
    have hfence : isFenceLine line = false ↔
        (¬ "```".toList <+: trim line ∧ ¬ "~~~".toList <+: trim line) := by
      rw [← not_or, ← isFenceLine_iff, Bool.not_eq_true]
    have htable : isTableLine line = false ↔ (trim line).head? ≠ some '|' := by
      rw [Ne, ← isTableLine_iff, Bool.not_eq_true]
    rw [← htable]
    simp only [Bool.and_eq_true, decide_eq_true_eq, Bool.not_eq_true', and_assoc, gt_iff_lt]
    rw [hfence]
    simp only [and_assoc]

/-- Witness for C7: the 101-letter second line of a strict file gets one message, at line 2
and column 101; the same line inside the fenced block (line 4) gets none; table rows of more
than 100 letters, indented or not, and a line of 100 letters get none. -/
theorem lineLengthRule_reports_witness :
    isStrictFile id (strictFile fencedSample) = true ∧
    lineLengthRule id (rootNode []) (strictFile fencedSample) = [lineLengthMessage 1] ∧
    ((lineLengthRule id (rootNode []) (strictFile fencedSample)).filter
      (pointsAtLine 2)).length = 1 ∧
    ((lineLengthRule id (rootNode []) (strictFile fencedSample)).filter
      (pointsAtLine 4)).length = 0 ∧
    (splitLines fencedSample)[1]? = some longLine ∧
    (splitLines fencedSample)[3]? = some longLine ∧
    jsLength longLine = 101 ∧
    lineLengthRule id (rootNode []) (strictFile fencedSample) =
      [⟨"remark-claude:line-length",
        "Lines must be â‰¤ 100 characters in LLM-facing files".toList, .point 2 101⟩] ∧
    splitLines tableSample =
      [longLine, "| ".toList ++ longLine, "  |".toList ++ longLine, List.replicate 100 'a'] ∧
    lineLengthRule id (rootNode []) (strictFile tableSample) =
      [⟨"remark-claude:line-length",
        "Lines must be â‰¤ 100 characters in LLM-facing files".toList, .point 1 101⟩] ∧
    lineLengthRule id (rootNode []) (strictFile (longLine ++ "\r\n\n".toList ++ longLine)) =
      [lineLengthMessage 0, lineLengthMessage 2] ∧
    lineLengthRule id (rootNode []) ⟨some "notes/todo.md".toList, longLine⟩ = [] :=
  ⟨by decide,
    (lineLengthRule_reports id (rootNode []) (strictFile fencedSample) (by decide)).1.trans
      (by rfl),
    ((lineLengthRule_reports id (rootNode []) (strictFile fencedSample) (by decide)).2.1 1).trans
      (by decide),
    ((lineLengthRule_reports id (rootNode []) (strictFile fencedSample) (by decide)).2.1 3).trans
      (by decide),
    by decide, by decide, by decide, by rfl, by rfl, by rfl, by rfl, by rfl⟩

/-- Counterexample to C7 read with characters as the unit of length: a line of exactly 100
characters, each outside the Basic Multilingual Plane, has 200 UTF-16 code units and gets a
message, and so does a line of 51 such characters (102 code units); a line of 50 gets none. -/
theorem lineLengthRule_counts_code_units :
    (rocketLine 100).length = 100 ∧ jsLength (rocketLine 100) = 200 ∧
    lineLengthRule id (rootNode []) (strictFile (rocketLine 100)) =
      [⟨"remark-claude:line-length", lineLengthReason, .point 1 101⟩] ∧
    (rocketLine 51).length = 51 ∧ jsLength (rocketLine 51) = 102 ∧
    lineLengthRule id (rootNode []) (strictFile (rocketLine 51)) =
      [⟨"remark-claude:line-length", lineLengthReason, .point 1 101⟩] ∧
    (rocketLine 50).length = 50 ∧
    lineLengthRule id (rootNode []) (strictFile (rocketLine 50)) = [] :=
  ⟨by decide, by decide, by rfl, by decide, by decide, by rfl, by decide, by rfl⟩

/-! ## Tier scoping -/

theorem not_strict_of_ne (relative : Str → Str) (file : VFile)
    (h : getFileCategory relative file ≠ "strict") : isStrictFile relative file = false := by
  simpa [isStrictFile] using h

theorem not_moderate_of_ne (relative : Str → Str) (file : VFile)
    (h : getFileCategory relative file ≠ "moderate") : isModerateFile relative file = false := by
  simpa [isModerateFile] using h

theorem not_light_of_ne (relative : Str → Str) (file : VFile)
    (h : getFileCategory relative file ≠ "light") : isLightFile relative file = false := by
  simpa [isLightFile] using h

theorem strictRules_eq_nil (hasEmoji : Str → Bool) (relative : Str → Str) (tree : Node)
    (file : VFile) (h : getFileCategory relative file ≠ "strict") :
    headingOrderRule relative tree file = [] ∧ noStrongRule relative tree file = [] ∧
    noEmojiRule hasEmoji relative tree file = [] ∧ noModalRule relative tree file = [] ∧
    narrativeRule relative tree file = [] ∧ lineLengthRule relative tree file = [] := by
  have hs := not_strict_of_ne relative file h
  simp [headingOrderRule, noStrongRule, noEmojiRule, noModalRule, narrativeRule,
    lineLengthRule, hs]

theorem moderateRules_eq_nil (relative : Str → Str) (tree : Node)
    (file : VFile) (h : getFileCategory relative file ≠ "moderate") :
    moderateHeadingRule relative tree file = [] ∧
    moderateMarkdownRule relative tree file = [] := by
  have hs := not_moderate_of_ne relative file h
  simp [moderateHeadingRule, moderateMarkdownRule, hs]

theorem lightRule_eq_nil (relative : Str → Str) (tree : Node)
    (file : VFile) (h : getFileCategory relative file ≠ "light") :
    lightMarkdownRule relative tree file = [] := by
  have hs := not_light_of_ne relative file h
  simp [lightMarkdownRule, hs]

/-- C9: every rule is a no-op outside its tier: the six STRICT rules emit nothing unless the
tier is strict, the two MODERATE rules nothing unless it is moderate, the LIGHT rule nothing
unless it is light. So the messages of the preset for one document are those of the rules of
its tier alone, and a document of tier none gets no message. -/
theorem rules_noop_outside_tier (hasEmoji : Str → Bool) (relative : Str → Str) (tree : Node)
    (file : VFile) :
    (getFileCategory relative file ≠ "strict" →
      headingOrderRule relative tree file = [] ∧ noStrongRule relative tree file = [] ∧
      noEmojiRule hasEmoji relative tree file = [] ∧ noModalRule relative tree file = [] ∧
      narrativeRule relative tree file = [] ∧ lineLengthRule relative tree file = []) ∧
    (getFileCategory relative file ≠ "moderate" →
      moderateHeadingRule relative tree file = [] ∧
      moderateMarkdownRule relative tree file = []) ∧
    (getFileCategory relative file ≠ "light" → lightMarkdownRule relative tree file = []) ∧
    (getFileCategory relative file = "strict" →
      preset hasEmoji relative tree file = strictRules hasEmoji relative tree file) ∧
    (getFileCategory relative file = "moderate" →
      preset hasEmoji relative tree file = moderateRules relative tree file) ∧
    (getFileCategory relative file = "light" →
      preset hasEmoji relative tree file = lightMarkdownRule relative tree file) ∧
    (getFileCategory relative file = "none" → preset hasEmoji relative tree file = []) := by
  refine ⟨strictRules_eq_nil hasEmoji relative tree file, moderateRules_eq_nil relative tree file,
    lightRule_eq_nil relative tree file, ?_, ?_, ?_, ?_⟩
  · intro h
    have hm := moderateRules_eq_nil relative tree file (by rw [h]; decide)
    have hl := lightRule_eq_nil relative tree file (by rw [h]; decide)
    simp [preset, strictRules, hm.1, hm.2, hl]
  · intro h
    have hs := strictRules_eq_nil hasEmoji relative tree file (by rw [h]; decide)
    have hl := lightRule_eq_nil relative tree file (by rw [h]; decide)
    simp [preset, moderateRules, hs.1, hs.2.1, hs.2.2.1, hs.2.2.2.1, hs.2.2.2.2.1,
      hs.2.2.2.2.2, hl]
  · intro h
    have hs := strictRules_eq_nil hasEmoji relative tree file (by rw [h]; decide)
    have hm := moderateRules_eq_nil relative tree file (by rw [h]; decide)
    simp [preset, hs.1, hs.2.1, hs.2.2.1, hs.2.2.2.1, hs.2.2.2.2.1,
      hs.2.2.2.2.2, hm.1, hm.2]
  · intro h
    have hs := strictRules_eq_nil hasEmoji relative tree file (by rw [h]; decide)
    have hm := moderateRules_eq_nil relative tree file (by rw [h]; decide)
    have hl := lightRule_eq_nil relative tree file (by rw [h]; decide)
    simp [preset, hs.1, hs.2.1, hs.2.2.1, hs.2.2.2.1, hs.2.2.2.2.1,
      hs.2.2.2.2.2, hm.1, hm.2, hl]

/-- Witness for C9: a light file with a paragraph no STRICT rule would accept gets nothing from
the STRICT and MODERATE rules, and a file of tier none gets nothing from the preset. -/
theorem rules_noop_outside_tier_witness :
    getFileCategory id lightFile = "light" ∧
    (headingOrderRule id (rootNode [paragraphNode "The tool may use caching."]) lightFile = [] ∧
      noStrongRule id (rootNode [paragraphNode "The tool may use caching."]) lightFile = [] ∧
      noEmojiRule (fun _ => true) id (rootNode [paragraphNode "The tool may use caching."])
        lightFile = [] ∧
      noModalRule id (rootNode [paragraphNode "The tool may use caching."]) lightFile = [] ∧
      narrativeRule id (rootNode [paragraphNode "The tool may use caching."]) lightFile = [] ∧
      lineLengthRule id (rootNode [paragraphNode "The tool may use caching."]) lightFile = []) ∧
    getFileCategory id otherFile = "none" ∧
    preset (fun _ => true) id (rootNode [paragraphNode "The tool may use caching."])
      otherFile = [] :=
  ⟨by decide,
    (rules_noop_outside_tier (fun _ => true) id
      (rootNode [paragraphNode "The tool may use caching."]) lightFile).1 (by decide),
    by decide,
    (rules_noop_outside_tier (fun _ => true) id
      (rootNode [paragraphNode "The tool may use caching."]) otherFile).2.2.2.2.2.2 (by decide)⟩

/-! ## The regular expressions -/

theorem char_eq_of_toNat_eq (c d : Char) (h : c.toNat = d.toNat) : c = d := by
  rw [← Char.ofNat_toNat c, ← Char.ofNat_toNat d, h]

theorem letter_range (c : Char) (h : isAsciiLetter c = true) :
    (65 ≤ c.toNat ∧ c.toNat ≤ 90) ∨ (97 ≤ c.toNat ∧ c.toNat ≤ 122) := by
  unfold isAsciiLetter at h
  simpa only [Bool.or_eq_true, Bool.and_eq_true, decide_eq_true_eq] using h

theorem isWordChar_of_letter (c : Char) (h : isAsciiLetter c = true) : isWordChar c = true := by
  unfold isAsciiLetter at h
  unfold isWordChar
  simp only [Bool.or_eq_true, Bool.and_eq_true, decide_eq_true_eq, beq_iff_eq] at h ⊢
  omega

theorem letter_of_eqIgnoreCase (p c : Char) (hp : isAsciiLetter p = true)
    (h : eqIgnoreCase p c = true) : isAsciiLetter c = true := by
  unfold eqIgnoreCase at h
  simp only [Bool.or_eq_true, Bool.and_eq_true, beq_iff_eq] at h
  rcases h with h | h
  · rw [← h]; exact hp
  · exact h.1.2

theorem lastOr_append (prev : Option Char) (a b : Str) :
    lastOr prev (a ++ b) = lastOr (lastOr prev a) b := by
  induction a generalizing prev with
  | nil => rfl
  | cons c cs ih => exact ih (some c)

theorem lastOr_none (s : Str) : lastOr none s = s.getLast? := by
  have h : ∀ (prev : Option Char) (s : Str),
      lastOr prev s = match s.getLast? with | some c => some c | none => prev := by
    intro prev s
    induction s generalizing prev with
    | nil => rfl
    | cons c cs ih =>
      rw [lastOr, ih (some c)]
      cases cs with
      | nil => rfl
      | cons d ds =>
        rw [List.getLast?_cons_cons]
        cases h : (d :: ds).getLast? with
        | none => simp at h
        | some x => rfl
  rw [h]
  cases s.getLast? <;> rfl

/-- What one matched word looks like: non-empty, made of word characters. -/
theorem matched_letters (w m : Str) (hm : matchesIgnoringCase w m)
    (hw : ∀ p ∈ w, isAsciiLetter p = true) : ∀ c ∈ m, isWordChar c = true := by
  unfold matchesIgnoringCase at hm
  induction hm with
  | nil => simp
  | cons hpc _ ih =>
    intro c hc
    rcases List.mem_cons.mp hc with h | h
    · rw [h]
      exact isWordChar_of_letter _ (letter_of_eqIgnoreCase _ _ (hw _ (by simp)) hpc)
    · exact ih (fun p hp => hw p (List.mem_cons_of_mem _ hp)) c h

theorem matched_ne_nil (w m : Str) (hm : matchesIgnoringCase w m) (hw : w ≠ []) : m ≠ [] := by
  unfold matchesIgnoringCase at hm
  cases hm with
  | nil => exact absurd rfl hw
  | cons _ _ => simp

theorem matched_length (w m : Str) (hm : matchesIgnoringCase w m) : m.length = w.length :=
  (List.Forall₂.length_eq hm).symm

theorem stripPrefixCI_eq_some_iff (w s rest : Str) :
    stripPrefixCI w s = some rest ↔ ∃ m, s = m ++ rest ∧ matchesIgnoringCase w m := by
  unfold matchesIgnoringCase
  induction w generalizing s with
  | nil =>
    simp only [stripPrefixCI, Option.some.injEq]
    constructor
    · intro h; exact ⟨[], by simp [h], List.Forall₂.nil⟩
    · rintro ⟨m, hs, hm⟩
      cases hm
      simpa using hs
  | cons p ps ih =>
    cases s with
    | nil =>
      simp only [stripPrefixCI, false_iff, not_exists, not_and, reduceCtorEq]
      intro m hs hm
      cases hm
      simp at hs
    | cons c cs =>
      simp only [stripPrefixCI]
      by_cases hpc : eqIgnoreCase p c = true
      · simp only [hpc, if_true, ih]
        constructor
        · rintro ⟨m, hs, hm⟩
          exact ⟨c :: m, by simp [hs], List.Forall₂.cons hpc hm⟩
        · rintro ⟨m, hs, hm⟩
          cases hm with
          | cons h1 h2 =>
            simp only [List.cons_append, List.cons.injEq] at hs
            exact ⟨_, hs.2, h2⟩
      · simp only [hpc, if_false, false_iff, not_exists, not_and, reduceCtorEq,
          Bool.false_eq_true]
        intro m hs hm
        cases hm with
        | cons h1 h2 =>
          simp only [List.cons_append, List.cons.injEq] at hs
          rw [← hs.1] at h1
          exact hpc h1

theorem lastOr_wordChar (prev : Option Char) (m : Str) (hne : m ≠ [])
    (hm : ∀ c ∈ m, isWordChar c = true) : (lastOr prev m).any isWordChar = true := by
  induction m generalizing prev with
  | nil => exact absurd rfl hne
  | cons c cs ih =>
    cases cs with
    | nil => simpa [lastOr] using hm c (by simp)
    | cons d ds =>
      rw [lastOr]
      exact ih (some c) (by simp) (fun x hx => hm x (List.mem_cons_of_mem _ hx))

/-- A successful attempt at a position: a word, up to case, between two non-word characters. -/
theorem wordMatchHere_eq_some (words : List Str) (prev : Option Char) (s rest : Str)
    (hw : lettersOnly words) (h : wordMatchHere words prev s = some rest) :
    ∃ m, s = m ++ rest ∧ m ≠ [] ∧ (∃ w ∈ words, matchesIgnoringCase w m) ∧
      (∀ c ∈ m, isWordChar c = true) ∧
      prev.any isWordChar = false ∧ rest.head?.any isWordChar = false := by
  unfold wordMatchHere at h
  split_ifs at h with hb
  obtain ⟨w, hwmem, hf⟩ := List.exists_of_findSome?_eq_some h
  cases hstrip : stripPrefixCI w s with
  | none => rw [hstrip] at hf; simp at hf
  | some r =>
    rw [hstrip] at hf
    simp only at hf
    split_ifs at hf with hb2
    have hr : r = rest := by simpa using hf
    subst hr
    obtain ⟨m, hs, hm⟩ := (stripPrefixCI_eq_some_iff w s r).mp hstrip
    have hne : m ≠ [] := matched_ne_nil w m hm (hw w hwmem).1
    have hletters := matched_letters w m hm (hw w hwmem).2
    have htake : s.take w.length = m := by
      rw [hs]
      exact List.take_left' (matched_length w m hm)
    rw [htake] at hb2
    refine ⟨m, hs, hne, ⟨w, hwmem, hm⟩, hletters, ?_, ?_⟩
    · cases m with
      | nil => exact absurd rfl hne
      | cons c cs =>
        have hc := hletters c (by simp)
        rw [hs] at hb
        simp only [wordBoundary, List.cons_append, List.head?_cons, Option.any_some, hc] at hb
        cases hp : prev.any isWordChar
        · rfl
        · rw [hp] at hb; simp at hb
    · have hl := lastOr_wordChar prev m hne hletters
      simp only [wordBoundary, hl] at hb2
      cases hp : r.head?.any isWordChar
      · rfl
      · rw [hp] at hb2; simp at hb2

/-- An attempt succeeds exactly where a whole-word occurrence starts. -/
theorem wordMatchHere_isSome_iff (words : List Str) (prev : Option Char) (s : Str)
    (hw : lettersOnly words) :
    (wordMatchHere words prev s).isSome = true ↔ startsAt words prev s 0 := by
  constructor
  · intro h
    obtain ⟨rest, hrest⟩ := Option.isSome_iff_exists.mp h
    obtain ⟨m, hs, _, hex, _, hp, hr⟩ := wordMatchHere_eq_some words prev s rest hw hrest
    exact ⟨[], m, rest, by simpa using hs, rfl, hex, by simpa [lastOr] using hp, hr⟩
  · rintro ⟨pre, m, post, hs, hlen, ⟨w, hwmem, hm⟩, hp, hr⟩
    have hpre : pre = [] := List.length_eq_zero.mp hlen
    subst hpre
    simp only [List.nil_append, lastOr] at hs hp
    have hne : m ≠ [] := matched_ne_nil w m hm (hw w hwmem).1
    have hletters := matched_letters w m hm (hw w hwmem).2
    unfold wordMatchHere
    have hb : wordBoundary prev s.head? = true := by
      cases m with
      | nil => exact absurd rfl hne
      | cons c cs =>
        have hc := hletters c (by simp)
        rw [hs]
        simp [wordBoundary, hc, hp]
    rw [if_pos hb, List.findSome?_isSome_iff]
    refine ⟨w, hwmem, ?_⟩
    have hstrip : stripPrefixCI w s = some post :=
      (stripPrefixCI_eq_some_iff w s post).mpr ⟨m, hs, hm⟩
    have htake : s.take w.length = m := by
      rw [hs]
      exact List.take_left' (matched_length w m hm)
    rw [hstrip]
    simp only [htake]
    have hl := lastOr_wordChar prev m hne hletters
    have hb2 : wordBoundary (lastOr prev m) post.head? = true := by
      simp [wordBoundary, hl, hr]
    rw [if_pos hb2]
    rfl

theorem startsAt_nil (words : List Str) (prev : Option Char) (i : Nat)
    (h : startsAt words prev [] i) : i = 0 := by
  obtain ⟨pre, m, post, hs, hlen, _⟩ := h
  have : pre = [] := by
    cases pre with
    | nil => rfl
    | cons c cs => simp at hs
  rw [← hlen, this]
  rfl

theorem startsAt_succ (words : List Str) (prev : Option Char) (c : Char) (cs : Str) (i : Nat) :
    startsAt words prev (c :: cs) (i + 1) ↔ startsAt words (some c) cs i := by
  constructor
  · rintro ⟨pre, m, post, hs, hlen, hex, hp, hr⟩
    cases pre with
    | nil => simp at hlen
    | cons d ds =>
      simp only [List.cons_append, List.cons.injEq] at hs
      refine ⟨ds, m, post, hs.2, by simpa using hlen, hex, ?_, hr⟩
      rw [lastOr, ← hs.1] at hp
      exact hp
  · rintro ⟨pre, m, post, hs, hlen, hex, hp, hr⟩
    exact ⟨c :: pre, m, post, by simp [hs], by simp [hlen], hex, by simpa [lastOr] using hp, hr⟩

/-- The search of `test` succeeds exactly when a whole-word occurrence starts somewhere. -/
theorem testFrom_iff (words : List Str) (prev : Option Char) (s : Str)
    (hw : lettersOnly words) :
    testFrom words prev s = true ↔ ∃ i, startsAt words prev s i := by
  induction s generalizing prev with
  | nil =>
    rw [testFrom, wordMatchHere_isSome_iff words prev [] hw]
    constructor
    · intro h; exact ⟨0, h⟩
    · rintro ⟨i, h⟩
      have := startsAt_nil words prev i h
      rw [this] at h
      exact h
  | cons c cs ih =>
    rw [testFrom, Bool.or_eq_true, wordMatchHere_isSome_iff words prev _ hw, ih (some c)]
    constructor
    · rintro (h | ⟨i, h⟩)
      · exact ⟨0, h⟩
      · exact ⟨i + 1, (startsAt_succ words prev c cs i).mpr h⟩
    · rintro ⟨i, h⟩
      cases i with
      | zero => exact Or.inl h
      | succ j => exact Or.inr ⟨j, (startsAt_succ words prev c cs j).mp h⟩

theorem startsAt_none_iff (words : List Str) (text : Str) (i : Nat) :
    startsAt words none text i ↔ wordStartsAt words text i := by
  unfold startsAt wordStartsAt
  simp only [lastOr_none]

/-- `re.test(text)` holds exactly when the text contains one of the words as a whole word. -/
theorem regexTest_iff (words : List Str) (text : Str) (hw : lettersOnly words) :
    regexTest words text = true ↔ containsWord words text := by
  unfold regexTest containsWord
  rw [testFrom_iff words none text hw]
  simp only [startsAt_none_iff]

theorem narrativeStartTest_iff (text : Str) :
    narrativeStartTest text = true ↔ startsWithWordThenSpace NARRATIVE_WORDS text := by
  unfold narrativeStartTest startsWithWordThenSpace
  rw [List.any_eq_true]
  constructor
  · rintro ⟨w, hwmem, h⟩
    cases hstrip : stripPrefixCI w text with
    | none => rw [hstrip] at h; simp at h
    | some r =>
      rw [hstrip] at h
      cases r with
      | nil => simp at h
      | cons c rest =>
        obtain ⟨m, hs, hm⟩ := (stripPrefixCI_eq_some_iff w text _).mp hstrip
        exact ⟨m, c, rest, hs, ⟨w, hwmem, hm⟩, by simpa using h⟩
  · rintro ⟨m, c, rest, hs, ⟨w, hwmem, hm⟩, hc⟩
    refine ⟨w, hwmem, ?_⟩
    have hstrip : stripPrefixCI w text = some (c :: rest) :=
      (stripPrefixCI_eq_some_iff w text _).mpr ⟨m, hs, hm⟩
    rw [hstrip]
    simpa using hc

theorem sorted_map_succ (l : List Nat) (h : l.Sorted (· < ·)) :
    (l.map (· + 1)).Sorted (· < ·) := by
  unfold List.Sorted at h ⊢
  rw [List.pairwise_map]
  exact h.imp (fun hab => by omega)

theorem mem_map_succ_iff (l : List Nat) (P : Nat → Prop) (Q : Nat → Prop)
    (hl : ∀ i, i ∈ l ↔ Q i) (hsucc : ∀ i, P (i + 1) ↔ Q i) (h0 : ¬ P 0) :
    ∀ i, i ∈ l.map (· + 1) ↔ P i := by
  intro i
  rw [List.mem_map]
  cases i with
  | zero =>
    constructor
    · rintro ⟨j, _, hj⟩; omega
    · intro h; exact absurd h h0
  | succ j =>
    rw [hsucc, ← hl]
    constructor
    · rintro ⟨a, ha, haj⟩
      have : a = j := by omega
      rw [← this]; exact ha
    · intro h; exact ⟨j, h, rfl⟩

theorem mem_cons_zero_map_succ_iff (l : List Nat) (P : Nat → Prop) (Q : Nat → Prop)
    (hl : ∀ i, i ∈ l ↔ Q i) (hsucc : ∀ i, P (i + 1) ↔ Q i) (h0 : P 0) :
    ∀ i, i ∈ 0 :: l.map (· + 1) ↔ P i := by
  intro i
  rw [List.mem_cons, List.mem_map]
  cases i with
  | zero => simp [h0]
  | succ j =>
    rw [hsucc, ← hl]
    constructor
    · rintro (h | ⟨a, ha, haj⟩)
      · omega
      · have : a = j := by omega
        rw [← this]; exact ha
    · intro h; exact Or.inr ⟨j, h, rfl⟩

/-- The global search counts each position at which a whole-word occurrence starts once:
while it skips the rest of a match no occurrence can start, a word character being before. -/
theorem countFrom_spec (words : List Str) (hw : lettersOnly words) (s : Str) :
    ∀ (k : Nat) (prev : Option Char),
      (k = 0 ∨ (prev.any isWordChar = true ∧ ∀ c ∈ s.take k, isWordChar c = true)) →
      ∃ starts : List Nat, starts.Sorted (· < ·) ∧
        (∀ i, i ∈ starts ↔ startsAt words prev s i) ∧
        countFrom words k prev s = starts.length := by
  induction s with
  | nil =>
    intro k prev _
    have hc : countFrom words k prev [] =
        if (wordMatchHere words prev []).isSome then 1 else 0 := by
      cases k <;> rfl
    by_cases h : (wordMatchHere words prev []).isSome = true
    · refine ⟨[0], List.sorted_singleton 0, ?_, by rw [hc, if_pos h]; rfl⟩
      intro i
      rw [List.mem_singleton]
      constructor
      · intro hi; rw [hi]; exact (wordMatchHere_isSome_iff words prev [] hw).mp h
      · exact startsAt_nil words prev i
    · refine ⟨[], List.sorted_nil, ?_, by rw [hc, if_neg h]; rfl⟩
      intro i
      constructor
      · intro hi; simp at hi
      · intro hi
        have h0 := startsAt_nil words prev i hi
        rw [h0] at hi
        exact absurd ((wordMatchHere_isSome_iff words prev [] hw).mpr hi) h
  | cons c cs ih =>
    intro k prev hinv
    cases k with
    | succ k0 =>
      have hinv2 : prev.any isWordChar = true ∧
          ∀ x ∈ (c :: cs).take (k0 + 1), isWordChar x = true := by
        rcases hinv with h | h
        · omega
        · exact h
      have hc : isWordChar c = true := hinv2.2 c (by simp)
      obtain ⟨starts, hsorted, hmem, hcount⟩ := ih k0 (some c)
        (Or.inr ⟨by simpa using hc, fun x hx => hinv2.2 x (by simp [hx])⟩)
      refine ⟨starts.map (· + 1), sorted_map_succ starts hsorted, ?_, ?_⟩
      · apply mem_map_succ_iff starts _ _ hmem (startsAt_succ words prev c cs)
        rintro ⟨pre, m, post, hs, hlen, _, hp, _⟩
        have hpre : pre = [] := List.length_eq_zero.mp hlen
        rw [hpre, lastOr, hinv2.1] at hp
        exact absurd hp (by decide)
      · rw [List.length_map, ← hcount]
        rfl
    | zero =>
      cases hmatch : wordMatchHere words prev (c :: cs) with
      | none =>
        obtain ⟨starts, hsorted, hmem, hcount⟩ := ih 0 (some c) (Or.inl rfl)
        refine ⟨starts.map (· + 1), sorted_map_succ starts hsorted, ?_, ?_⟩
        · apply mem_map_succ_iff starts _ _ hmem (startsAt_succ words prev c cs)
          intro h0
          have := (wordMatchHere_isSome_iff words prev (c :: cs) hw).mpr h0
          rw [hmatch] at this
          exact absurd this (by decide)
        · rw [List.length_map, ← hcount, countFrom, hmatch]
      | some rest =>
        obtain ⟨m, hs, hne, _, hletters, _, _⟩ :=
          wordMatchHere_eq_some words prev (c :: cs) rest hw hmatch
        cases m with
        | nil => exact absurd rfl hne
        | cons d ds =>
          simp only [List.cons_append, List.cons.injEq] at hs
          have hk : (c :: cs).length - rest.length - 1 = ds.length := by
            rw [hs.2]
            simp only [List.length_cons, List.length_append]
            omega
          have hc : isWordChar c = true := by
            rw [hs.1]; exact hletters d (by simp)
          obtain ⟨starts, hsorted, hmem, hcount⟩ := ih ds.length (some c)
            (Or.inr ⟨by simpa using hc, by
              intro x hx
              rw [hs.2, List.take_left' rfl] at hx
              exact hletters x (List.mem_cons_of_mem _ hx)⟩)
          refine ⟨0 :: starts.map (· + 1), ?_, ?_, ?_⟩
          · unfold List.Sorted
            rw [List.pairwise_cons]
            refine ⟨?_, sorted_map_succ starts hsorted⟩
            intro a ha
            obtain ⟨j, _, hj⟩ := List.mem_map.mp ha
            omega
          · apply mem_cons_zero_map_succ_iff starts _ _ hmem (startsAt_succ words prev c cs)
            apply (wordMatchHere_isSome_iff words prev (c :: cs) hw).mp
            rw [hmatch]; rfl
          · rw [countFrom, hmatch]
            show 1 + countFrom words ((c :: cs).length - rest.length - 1) (some c) cs = _
            rw [hk, hcount, List.length_cons, List.length_map]
            omega

/-- `text.match(new RegExp(re, 'gi'))?.length` is the number of positions at which a whole-word
occurrence of one of the words starts. -/
theorem matchCount_eq_ncard (words : List Str) (text : Str) (hw : lettersOnly words) :
    matchCount words text = Set.ncard {i | wordStartsAt words text i} := by
  obtain ⟨starts, hsorted, hmem, hcount⟩ := countFrom_spec words hw text 0 none (Or.inl rfl)
  have hset : {i | wordStartsAt words text i} = ↑starts.toFinset := by
    ext i
    simp only [Set.mem_setOf_eq, Finset.mem_coe, List.mem_toFinset, hmem, startsAt_none_iff]
  have hnodup : starts.Nodup := hsorted.nodup
  rw [hset, Set.ncard_coe_Finset, List.toFinset_card_of_nodup hnodup]
  exact hcount

theorem includes_iff (hay needle : Str) : includes hay needle = true ↔ needle <:+: hay := by
  unfold includes
  rw [List.any_eq_true, List.infix_iff_prefix_suffix]
  constructor
  · rintro ⟨t, ht, hp⟩
    exact ⟨t, List.isPrefixOf_iff_prefix.mp hp, (List.mem_tails _ _).mp ht⟩
  · rintro ⟨t, hp, ht⟩
    exact ⟨t, (List.mem_tails _ _).mpr ht, List.isPrefixOf_iff_prefix.mpr hp⟩

/-! ## Paragraph rules -/

theorem flag_cases (b : Bool) (P : Prop) (hbP : b = true ↔ P) (m : Message) :
    ((if b = true then [m] else []) = [m] ↔ P) ∧
    ((if b = true then [m] else []) = [] ↔ ¬ P) := by
  cases b with
  | true =>
    have hP : P := hbP.mp rfl
    simp [hP]
  | false =>
    have hP : ¬ P := fun h => absurd (hbP.mpr h) (by decide)
    simp [hP]

theorem subjective_lettersOnly : lettersOnly SUBJECTIVE_WORDS := by decide

theorem modal_lettersOnly : lettersOnly MODAL_WORDS := by decide

/-- The test of `narrativeRule` on the trimmed text of a paragraph. -/
theorem narrativeTest_iff (text : Str) :
    (!DIRECTIVE_START.contains (firstWord text) || regexTest SUBJECTIVE_WORDS text ||
      regexTest MODAL_WORDS text || narrativeStartTest text) = true ↔
    narrativeCondition text := by
  unfold narrativeCondition
  rw [← regexTest_iff _ _ subjective_lettersOnly, ← regexTest_iff _ _ modal_lettersOnly,
    ← narrativeStartTest_iff]
  simp only [Bool.or_eq_true, Bool.not_eq_true', List.contains_iff_exists_mem_beq, beq_iff_eq,
    exists_eq_right', or_assoc]
  constructor
  · rintro (h | h)
    · left
      intro hmem
      have : DIRECTIVE_START.contains (firstWord text) = true := by
        simpa using hmem
      rw [this] at h
      exact absurd h (by decide)
    · right; exact h
  · rintro (h | h)
    · left
      cases hc : DIRECTIVE_START.contains (firstWord text)
      · rfl
      · exact absurd (by simpa using hc) h
    · right; exact h

theorem narrativeVisitor_eq (node : Node) :
    narrativeVisitor node =
      if paragraphText node = [] then []
      else if (!DIRECTIVE_START.contains (firstWord (paragraphText node)) ||
          regexTest SUBJECTIVE_WORDS (paragraphText node) ||
          regexTest MODAL_WORDS (paragraphText node) ||
          narrativeStartTest (paragraphText node)) = true
        then [narrativeMessage node] else [] := by
  unfold narrativeVisitor paragraphText narrativeMessage
  cases h : trim (toString node) with
  | nil => simp
  | cons c cs => simp

theorem dropWhile_isSpace_append (ws rest : Str) (hws : ∀ c ∈ ws, isSpace c = true)
    (hrest : ∀ c, rest.head? = some c → isSpace c = false) :
    (ws ++ rest).dropWhile isSpace = rest := by
  induction ws with
  | nil =>
    cases rest with
    | nil => rfl
    | cons c cs =>
      have := hrest c rfl
      simp [List.dropWhile, this]
  | cons w ws ih =>
    have hw : isSpace w = true := hws w (by simp)
    rw [List.cons_append, List.dropWhile_cons, if_pos hw]
    exact ih (fun c hc => hws c (List.mem_cons_of_mem _ hc))

/-- `text.replace(/^[-*+]\s+/, '')` removes a leading `-`, `*` or `+` together with the
whitespace after it, when there is some. -/
theorem stripListMarker_marker (m : Char) (ws rest : Str) (hm : m = '-' ∨ m = '*' ∨ m = '+')
    (hne : ws ≠ []) (hws : ∀ c ∈ ws, isSpace c = true)
    (hrest : ∀ c, rest.head? = some c → isSpace c = false) :
    stripListMarker (m :: (ws ++ rest)) = rest := by
  cases ws with
  | nil => exact absurd rfl hne
  | cons w ws =>
    have hw : isSpace w = true := hws w (by simp)
    show stripListMarker (m :: w :: (ws ++ rest)) = rest
    have hstep : stripListMarker (m :: w :: (ws ++ rest)) =
        if (m = '-' ∨ m = '*' ∨ m = '+') ∧ isSpace w = true then
          (w :: (ws ++ rest)).dropWhile isSpace
        else m :: w :: (ws ++ rest) := rfl
    rw [hstep, if_pos ⟨hm, hw⟩]
    exact dropWhile_isSpace_append (w :: ws) rest hws hrest

/-- A text that does not start with a list marker followed by whitespace is left as it is. -/
theorem stripListMarker_other (text : Str)
    (h : ∀ m c rest, text = m :: c :: rest →
      ¬ ((m = '-' ∨ m = '*' ∨ m = '+') ∧ isSpace c = true)) :
    stripListMarker text = text := by
  unfold stripListMarker
  split
  · rename_i m c rest
    rw [if_neg (h m c rest rfl)]
  · rfl

/-- Lower-casing a text of ASCII letters and hyphens maps `A`-`Z` to `a`-`z`. -/
theorem toLowerCase_letters (s : Str)
    (h : ∀ c ∈ s, (isAsciiLetter c || c == '-') = true) : toLowerCase s = s.map Char.toLower := by
  induction s with
  | nil => rfl
  | cons c cs ih =>
    have hc := h c (by simp)
    have ih2 := ih (fun d hd => h d (List.mem_cons_of_mem _ hd))
    unfold toLowerCase at ih2 ⊢
    rw [List.flatMap_cons, ih2, List.map_cons]
    have hl : lowerChar c = [Char.toLower c] := by
      unfold lowerChar Char.toLower
      simp only [ge_iff_le]
      by_cases hu : 65 ≤ c.toNat ∧ c.toNat ≤ 90
      · rw [if_pos hu, if_pos hu]
      · rw [if_neg hu, if_neg hu]
        have hn : c.toNat ≠ 8490 ∧ c.toNat ≠ 304 := by
          rw [Bool.or_eq_true] at hc
          rcases hc with hc | hc
          · have := letter_range c hc
            omega
          · have : c = '-' := by simpa using hc
            rw [this]
            decide
        rw [if_neg hn.1, if_neg hn.2]
    rw [hl]
    rfl

/-- The `firstWord` of `narrativeRule`: the text without its list marker, up to the first
whitespace, reduced to its ASCII letters and hyphens, in lower case. -/
theorem firstWord_eq (text : Str) :
    firstWord text =
      (((stripListMarker text).takeWhile (fun c => !isSpace c)).filter
        (fun c => decide ((65 ≤ c.toNat ∧ c.toNat ≤ 90) ∨ (97 ≤ c.toNat ∧ c.toNat ≤ 122) ∨
          c = '-'))).map Char.toLower := by
  have hf : (fun c : Char => decide ((65 ≤ c.toNat ∧ c.toNat ≤ 90) ∨
      (97 ≤ c.toNat ∧ c.toNat ≤ 122) ∨ c = '-')) = (fun c => isAsciiLetter c || c == '-') := by
    funext c
    unfold isAsciiLetter
    rw [Bool.eq_iff_iff]
    simp only [decide_eq_true_eq, Bool.or_eq_true, Bool.and_eq_true, beq_iff_eq, or_assoc]
  rw [hf]
  unfold firstWord keepLettersAndHyphens firstToken
  apply toLowerCase_letters
  intro c hc
  exact (List.mem_filter.mp hc).2

/-- C6: on a strict file `narrativeRule` runs its check on every paragraph in document order;
an empty paragraph gets no message, and a non-empty one gets exactly one message iff its
first word is not a directive, or its text contains a subjective word, or contains a modal
verb, or starts with a narrative word followed by whitespace; otherwise none. The first word
is what precedes the first whitespace of the text after a leading list marker (`-`, `*` or
`+` with the whitespace after it) is removed, reduced to its ASCII letters and hyphens and
put in lower case. -/
theorem narrativeRule_flags (relative : Str → Str) (tree : Node) (file : VFile)
    (hs : isStrictFile relative file = true) :
    narrativeRule relative tree file = (visit "paragraph" tree).flatMap narrativeVisitor ∧
    (∀ node, paragraphText node = [] → narrativeVisitor node = []) ∧
    (∀ node, paragraphText node ≠ [] →
      (narrativeVisitor node = [narrativeMessage node] ↔
        narrativeCondition (paragraphText node)) ∧
      (narrativeVisitor node = [] ↔ ¬ narrativeCondition (paragraphText node))) ∧
    (∀ text, narrativeCondition text ↔
      ((((stripListMarker text).takeWhile (fun c => !isSpace c)).filter
          (fun c => decide ((65 ≤ c.toNat ∧ c.toNat ≤ 90) ∨ (97 ≤ c.toNat ∧ c.toNat ≤ 122) ∨
            c = '-'))).map Char.toLower ∉ DIRECTIVE_START ∨
        containsWord SUBJECTIVE_WORDS text ∨ containsWord MODAL_WORDS text ∨
        startsWithWordThenSpace NARRATIVE_WORDS text)) ∧
    (∀ m ws rest, (m = '-' ∨ m = '*' ∨ m = '+') → ws ≠ [] → (∀ c ∈ ws, isSpace c = true) →
      (∀ c, rest.head? = some c → isSpace c = false) →
      stripListMarker (m :: (ws ++ rest)) = rest) ∧
    (∀ text, (∀ m c rest, text = m :: c :: rest →
        ¬ ((m = '-' ∨ m = '*' ∨ m = '+') ∧ isSpace c = true)) →
      stripListMarker text = text) := by
  refine ⟨?_, ?_, ?_, ?_, ?_, ?_⟩
  · unfold narrativeRule
    simp [hs]
  · intro node h
    rw [narrativeVisitor_eq, if_pos h]
  · intro node h
    rw [narrativeVisitor_eq, if_neg h]
    exact flag_cases _ _ (narrativeTest_iff _) _
  · intro text
    unfold narrativeCondition
    rw [firstWord_eq]
  · intro m ws rest hm hne hws hrest
    exact stripListMarker_marker m ws rest hm hne hws hrest
  · intro text h
    exact stripListMarker_other text h

/-- Witness for C6: in a strict file the paragraph "The tool may use caching." gets exactly
one message and "Validate all inputs before dispatch." gets none; a directive after a list
marker, before punctuation or in upper case gets none, and a `-` that no whitespace follows
is part of the first word. -/
theorem narrativeRule_flags_witness :
    isStrictFile id (strictFile []) = true ∧
    narrativeVisitor (paragraphNode "The tool may use caching.") =
      [narrativeMessage (paragraphNode "The tool may use caching.")] ∧
    ¬ narrativeCondition (paragraphText (paragraphNode "Validate all inputs before dispatch.")) ∧
    narrativeRule id (rootNode [paragraphNode "The tool may use caching.",
      paragraphNode "Validate all inputs before dispatch."]) (strictFile []) =
      [narrativeMessage (paragraphNode "The tool may use caching.")] ∧
    stripListMarker "- Use the tool.".toList = "Use the tool.".toList ∧
    firstWord "- Use the tool.".toList = "use".toList ∧
    firstWord "*   Validate: all inputs.".toList = "validate".toList ∧
    firstWord "-Use the tool.".toList = "-use".toList ∧
    narrativeRule id (rootNode [paragraphNode "- Use the tool.",
      paragraphNode "Validate: all inputs.", paragraphNode "USE caching.",
      paragraphNode "-Use the tool.", paragraphNode "+ Tools are used."]) (strictFile []) =
      [narrativeMessage (paragraphNode "-Use the tool."),
        narrativeMessage (paragraphNode "+ Tools are used.")] ∧
    narrativeMessage (paragraphNode "-Use the tool.") =
      ⟨"remark-claude:no-narrative",
        "Paragraph must be imperative/directive; remove narrative or subjective language".toList,
        .node (paragraphNode "-Use the tool.")⟩ :=
  ⟨by decide,
    ((narrativeRule_flags id (rootNode []) (strictFile []) (by decide)).2.2.1
      (paragraphNode "The tool may use caching.") (by decide)).1.mpr (Or.inl (by decide)),
    ((narrativeRule_flags id (rootNode []) (strictFile []) (by decide)).2.2.1
      (paragraphNode "Validate all inputs before dispatch.") (by decide)).2.mp (by rfl),
    by rfl,
    (narrativeRule_flags id (rootNode []) (strictFile []) (by decide)).2.2.2.2.1
      '-' " ".toList "Use the tool.".toList (Or.inl rfl) (by decide) (by decide) (by decide),
    by rfl, by rfl, by rfl, by rfl, by rfl⟩

/-- The test of `moderateMarkdownRule` on the trimmed text of a paragraph. -/
theorem moderateTest_iff (text : Str) :
    (decide (matchCount SUBJECTIVE_WORDS text > 2) || decide (matchCount MODAL_WORDS text > 1) ||
      (includes text "**".toList || includes text "__".toList)) = true ↔
    moderateCondition text := by
  unfold moderateCondition
  rw [← matchCount_eq_ncard _ _ subjective_lettersOnly,
    ← matchCount_eq_ncard _ _ modal_lettersOnly, ← includes_iff, ← includes_iff]
  simp only [Bool.or_eq_true, decide_eq_true_eq, gt_iff_lt, or_assoc]

theorem moderateVisitor_eq (node : Node) :
    moderateVisitor node =
      if paragraphText node = [] then []
      else if (decide (matchCount SUBJECTIVE_WORDS (paragraphText node) > 2) ||
          decide (matchCount MODAL_WORDS (paragraphText node) > 1) ||
          (includes (paragraphText node) "**".toList ||
            includes (paragraphText node) "__".toList)) = true
        then [moderateMessage node] else [] := by
  unfold moderateVisitor paragraphText moderateMessage
  cases h : trim (toString node) with
  | nil => simp
  | cons c cs => simp

/-- C10: on a moderate file `moderateMarkdownRule` runs its check on every paragraph in
document order; a non-empty paragraph gets exactly one message iff its text has more than two
subjective-word occurrences, or more than one modal-verb occurrence, or contains `**` or
`__`; otherwise none, so a paragraph without occurrence and markup is never flagged. -/
theorem moderateMarkdownRule_flags (relative : Str → Str) (tree : Node) (file : VFile)
    (hm : isModerateFile relative file = true) :
    moderateMarkdownRule relative tree file =
      (visit "paragraph" tree).flatMap moderateVisitor ∧
    (∀ node, paragraphText node = [] → moderateVisitor node = []) ∧
    (∀ node, paragraphText node ≠ [] →
      (moderateVisitor node = [moderateMessage node] ↔
        moderateCondition (paragraphText node)) ∧
      (moderateVisitor node = [] ↔ ¬ moderateCondition (paragraphText node))) ∧
    (∀ node, Set.ncard {i | wordStartsAt SUBJECTIVE_WORDS (paragraphText node) i} = 0 →
      Set.ncard {i | wordStartsAt MODAL_WORDS (paragraphText node) i} = 0 →
      ¬ "**".toList <:+: paragraphText node → ¬ "__".toList <:+: paragraphText node →
      moderateVisitor node = []) := by
  have hnode : ∀ node, paragraphText node ≠ [] →
      (moderateVisitor node = [moderateMessage node] ↔
        moderateCondition (paragraphText node)) ∧
      (moderateVisitor node = [] ↔ ¬ moderateCondition (paragraphText node)) := by
    intro node h
    rw [moderateVisitor_eq, if_neg h]
    exact flag_cases _ _ (moderateTest_iff _) _
  have hempty : ∀ node, paragraphText node = [] → moderateVisitor node = [] := by
    intro node h
    rw [moderateVisitor_eq, if_pos h]
  refine ⟨?_, hempty, hnode, ?_⟩
  · unfold moderateMarkdownRule
    simp [hm]
  · intro node h1 h2 h3 h4
    by_cases h : paragraphText node = []
    · exact hempty node h
    · apply (hnode node h).2.mpr
      unfold moderateCondition
      rw [h1, h2]
      rintro (hc | hc | hc | hc)
      · omega
      · omega
      · exact h3 hc
      · exact h4 hc

/-- Witness for C10: in a moderate file a paragraph with two modal verbs gets one message, and
a paragraph without subjective word, modal verb or bold markup gets none. -/
theorem moderateMarkdownRule_flags_witness :
    isModerateFile id moderateFile = true ∧
    matchCount MODAL_WORDS (paragraphText (paragraphNode "It may work, or it might not.")) = 2 ∧
    moderateVisitor (paragraphNode "It may work, or it might not.") =
      [moderateMessage (paragraphNode "It may work, or it might not.")] ∧
    moderateVisitor (paragraphNode "Run the tests.") = [] ∧
    moderateMarkdownRule id (rootNode [paragraphNode "It may work, or it might not.",
      paragraphNode "Run the tests."]) moderateFile =
      [moderateMessage (paragraphNode "It may work, or it might not.")] :=
  ⟨by decide, by decide,
    ((moderateMarkdownRule_flags id (rootNode []) moderateFile (by decide)).2.2.1
      (paragraphNode "It may work, or it might not.") (by decide)).1.mpr
      (Or.inr (Or.inl (by
        rw [← matchCount_eq_ncard _ _ modal_lettersOnly]
        decide))),
    (moderateMarkdownRule_flags id (rootNode []) moderateFile (by decide)).2.2.2
      (paragraphNode "Run the tests.")
      (by rw [← matchCount_eq_ncard _ _ subjective_lettersOnly]; decide)
      (by rw [← matchCount_eq_ncard _ _ modal_lettersOnly]; decide)
      (by rw [← includes_iff]; decide)
      (by rw [← includes_iff]; decide),
    by rfl⟩

/-- The test of `lightMarkdownRule` on the trimmed text of a paragraph. -/
theorem lightTest_iff (text : Str) :
    (decide (matchCount SUBJECTIVE_WORDS text > 4) ||
      decide (matchCount MODAL_WORDS text > 2)) = true ↔ lightCondition text := by
  unfold lightCondition
  rw [← matchCount_eq_ncard _ _ subjective_lettersOnly,
    ← matchCount_eq_ncard _ _ modal_lettersOnly]
  simp only [Bool.or_eq_true, decide_eq_true_eq, gt_iff_lt]

theorem lightVisitor_eq (node : Node) :
    lightVisitor node =
      if paragraphText node = [] then []
      else if (decide (matchCount SUBJECTIVE_WORDS (paragraphText node) > 4) ||
          decide (matchCount MODAL_WORDS (paragraphText node) > 2)) = true
        then [lightMessage node] else [] := by
  unfold lightVisitor paragraphText lightMessage
  cases h : trim (toString node) with
  | nil => simp
  | cons c cs => simp

/-- C11: on a light file `lightMarkdownRule` runs its check on every paragraph in document
order; an empty paragraph gets no message, and a non-empty one gets exactly one message iff
its text has more than four subjective-word occurrences or more than two modal-verb
occurrences; otherwise none. -/
theorem lightMarkdownRule_flags (relative : Str → Str) (tree : Node) (file : VFile)
    (hl : isLightFile relative file = true) :
    lightMarkdownRule relative tree file = (visit "paragraph" tree).flatMap lightVisitor ∧
    (∀ node, paragraphText node = [] → lightVisitor node = []) ∧
    (∀ node, paragraphText node ≠ [] →
      (lightVisitor node = [lightMessage node] ↔ lightCondition (paragraphText node)) ∧
      (lightVisitor node = [] ↔ ¬ lightCondition (paragraphText node))) := by
  refine ⟨?_, ?_, ?_⟩
  · unfold lightMarkdownRule
    simp [hl]
  · intro node h
    rw [lightVisitor_eq, if_pos h]
  · intro node h
    rw [lightVisitor_eq, if_neg h]
    exact flag_cases _ _ (lightTest_iff _) _

/-- Witness for C11: in a light file a paragraph with three modal verbs gets one message, a
paragraph with two gets none. -/
theorem lightMarkdownRule_flags_witness :
    isLightFile id lightFile = true ∧
    matchCount MODAL_WORDS
      (paragraphText (paragraphNode "It may work, it might not, it could fail.")) = 3 ∧
    lightVisitor (paragraphNode "It may work, it might not, it could fail.") =
      [lightMessage (paragraphNode "It may work, it might not, it could fail.")] ∧
    ¬ lightCondition (paragraphText (paragraphNode "It may work, or it might not.")) ∧
    lightMarkdownRule id (rootNode [paragraphNode "It may work, it might not, it could fail.",
      paragraphNode "It may work, or it might not."]) lightFile =
      [lightMessage (paragraphNode "It may work, it might not, it could fail.")] :=
  ⟨by decide, by decide,
    ((lightMarkdownRule_flags id (rootNode []) lightFile (by decide)).2.2
      (paragraphNode "It may work, it might not, it could fail.") (by decide)).1.mpr
      (Or.inr (by
        rw [← matchCount_eq_ncard _ _ modal_lettersOnly]
        decide)),
    ((lightMarkdownRule_flags id (rootNode []) lightFile (by decide)).2.2
      (paragraphNode "It may work, or it might not.") (by decide)).2.mp (by rfl),
    by rfl⟩

/-- C18: the LIGHT tone condition implies the MODERATE one for every paragraph text, so every
paragraph `lightMarkdownRule` flags in a light document `moderateMarkdownRule` flags in a
moderate one; the converse fails, for a paragraph with two modal verbs. -/
theorem light_condition_implies_moderate :
    (∀ text, lightCondition text → moderateCondition text) ∧
    (∀ node, lightVisitor node = [lightMessage node] →
      moderateVisitor node = [moderateMessage node]) ∧
    (moderateCondition "It may work, or it might not.".toList ∧
      ¬ lightCondition "It may work, or it might not.".toList) ∧
    (moderateVisitor (paragraphNode "It may work, or it might not.") =
        [moderateMessage (paragraphNode "It may work, or it might not.")] ∧
      lightVisitor (paragraphNode "It may work, or it might not.") = []) := by
  have himp : ∀ text, lightCondition text → moderateCondition text := by
    intro text h
    unfold lightCondition at h
    unfold moderateCondition
    rcases h with h | h
    · exact Or.inl (by omega)
    · exact Or.inr (Or.inl (by omega))
  refine ⟨himp, ?_, ⟨?_, ?_⟩, ⟨by rfl, by rfl⟩⟩
  · intro node h
    rw [lightVisitor_eq] at h
    rw [moderateVisitor_eq]
    by_cases hempty : paragraphText node = []
    · rw [if_pos hempty] at h
      exact absurd h (by simp)
    · rw [if_neg hempty] at h ⊢
      have hl : lightCondition (paragraphText node) :=
        (flag_cases _ _ (lightTest_iff _) (lightMessage node)).1.mp h
      exact (flag_cases _ _ (moderateTest_iff _) (moderateMessage node)).1.mpr (himp _ hl)
  · rw [← moderateTest_iff]
    decide
  · rw [← lightTest_iff]
    decide

/-- Witness for C18: a paragraph with three modal verbs meets the LIGHT condition, hence the
MODERATE one. -/
theorem light_condition_implies_moderate_witness :
    lightCondition "It may work, it might not, it could fail.".toList ∧
    moderateCondition "It may work, it might not, it could fail.".toList :=
  (fun h => ⟨h, light_condition_implies_moderate.1 _ h⟩)
    ((lightTest_iff "It may work, it might not, it could fail.".toList).mp (by decide))

/-! ## The LIGHT glob -/

theorem matchesIgnoringCase_refl (w : Str) : matchesIgnoringCase w w := by
  unfold matchesIgnoringCase
  induction w with
  | nil => exact List.Forall₂.nil
  | cons c cs ih => exact List.Forall₂.cons (by simp [eqIgnoreCase]) ih

/-- A glob portion without `*` matches exactly the names equal to it up to case. -/
theorem portionBody_literal (pat s : Str) (hp : '*' ∉ pat) :
    portionBody pat s = true ↔ matchesIgnoringCase pat s := by
  unfold matchesIgnoringCase
  induction pat generalizing s with
  | nil =>
    cases s with
    | nil => simp [portionBody]
    | cons c cs =>
      simp only [portionBody, List.isEmpty_cons, Bool.false_eq_true, false_iff]
      intro h; cases h
  | cons p ps ih =>
    have hne : p ≠ '*' := fun h => hp (by simp [h])
    have hps : '*' ∉ ps := fun h => hp (List.mem_cons_of_mem _ h)
    cases s with
    | nil =>
      simp only [portionBody, hne, if_false, Bool.false_eq_true, false_iff]
      intro h; cases h
    | cons c cs =>
      simp only [portionBody, hne, if_false, Bool.and_eq_true, ih cs hps,
        List.forall₂_cons]

/-- The portion `*.md` matches a name that does not start with a dot and ends in `.md`. -/
theorem portionMatch_star_md (name : Str) (hdot : isDotted name = false)
    (hmd : endsInMd name = true) : portionMatch "*.md".toList name = true := by
  unfold endsInMd at hmd
  obtain ⟨stem, hstem⟩ := List.isSuffixOf_iff_suffix.mp hmd
  have hbody : portionBody "*.md".toList name = true := by
    show portionBody ('*' :: ".md".toList) name = true
    simp only [portionBody, if_true, List.any_eq_true]
    refine ⟨".md".toList, ?_, ?_⟩
    · rw [List.mem_tails]
      exact ⟨stem, hstem⟩
    · exact (portionBody_literal ".md".toList ".md".toList (by decide)).mpr
        (matchesIgnoringCase_refl _)
  have hhead : (name.head? != some '.') = true := by
    unfold isDotted at hdot
    cases h : name.head? == some '.'
    · simp only [bne, h, Bool.not_false]
    · rw [h] at hdot; exact absurd hdot (by decide)
  unfold portionMatch
  rw [hbody]
  have h1 : ("*.md".toList.head? = some '*') := rfl
  have h2 : ¬ ("*.md".toList = ['*']) := by decide
  rw [if_pos h1, if_neg h2, hhead]
  rfl

theorem swallow_of_last (k : List Str → Bool) (init : List Str) (name : Str)
    (hinit : ∀ s ∈ init, isDotted s = false) (hk : k [name] = true) :
    swallow k (init ++ [name]) = true := by
  induction init with
  | nil => simp [swallow, hk]
  | cons f fs ih =>
    have hf : isDotted f = false := hinit f (by simp)
    have := ih (fun s hs => hinit s (List.mem_cons_of_mem _ hs))
    show swallow k (f :: (fs ++ [name])) = true
    rw [swallow, this, hf]
    simp

theorem swallow_not_dotted (file : List Str)
    (h : swallow (matchOne ["*.md".toList]) file = true) : ∀ s ∈ file, isDotted s = false := by
  induction file with
  | nil => intro s hs; simp at hs
  | cons f fs ih =>
    rw [swallow, Bool.or_eq_true] at h
    rcases h with h | h
    · have hm : portionMatch "*.md".toList f = true ∧ matchOne [] fs = true := by
        have h2 : matchOne ["*.md".toList] (f :: fs) =
            (portionMatch "*.md".toList f && matchOne [] fs) := by
          rw [matchOne, if_neg (by decide)]
        rw [h2, Bool.and_eq_true] at h
        exact h
      have hf : isDotted f = false := by
        have hp := hm.1
        unfold portionMatch at hp
        have h1 : ("*.md".toList.head? = some '*') := rfl
        rw [if_pos h1] at hp
        simp only [Bool.and_eq_true] at hp
        unfold isDotted
        cases hd : f.head? == some '.'
        · rfl
        · have := hp.1.1
          simp only [bne, hd, Bool.not_true] at this
          exact absurd this (by decide)
      have hfs : ∀ s ∈ fs, isDotted s = false := by
        have hq := hm.2
        cases fs with
        | nil => intro s hs; simp at hs
        | cons g gs =>
          rw [matchOne, Bool.and_eq_true] at hq
          have hg : g = [] := by simpa using hq.2
          have hgs : gs = [] := by simpa using hq.1
          intro s hs
          rw [hgs, List.mem_singleton] at hs
          rw [hs, hg]
          rfl
      intro s hs
      rcases List.mem_cons.mp hs with h1 | h1
      · rw [h1]; exact hf
      · exact hfs s h1
    · rw [Bool.and_eq_true] at h
      have hf : isDotted f = false := by simpa using h.1
      intro s hs
      rcases List.mem_cons.mp hs with h1 | h1
      · rw [h1]; exact hf
      · exact ih h.2 s h1

theorem slashSplit_ne_nil (rel : Str) : slashSplit rel ≠ [] := by
  induction rel with
  | nil => simp [slashSplit]
  | cons c cs ih =>
    unfold slashSplit
    split_ifs
    · exact ih
    · simp
    · cases h : slashSplit cs with
      | nil => simp
      | cons s ss => simp

theorem minimatch_light (rel : Str) :
    minimatch rel "**/*.md".toList = swallow (matchOne ["*.md".toList]) (slashSplit rel) := by
  unfold minimatch
  have hg : slashSplit "**/*.md".toList = ["**".toList, "*.md".toList] := by decide
  rw [hg]
  cases h : slashSplit rel with
  | nil => exact absurd h (slashSplit_ne_nil rel)
  | cons f fs =>
    rw [matchOne, if_pos rfl]
    rfl

/-- The LIGHT glob matches a path whose name ends in `.md` exactly when no portion of the path
starts with a dot. -/
theorem light_glob_iff (rel : Str) (hmd : endsInMd (fileName rel) = true) :
    matchesSome LIGHT_GLOBS rel ↔ hasDottedPortion rel = false := by
  have hm : matchesSome LIGHT_GLOBS rel ↔ minimatch rel "**/*.md".toList = true := by
    unfold matchesSome LIGHT_GLOBS
    simp
  rw [hm, minimatch_light]
  unfold hasDottedPortion
  constructor
  · intro h
    have := swallow_not_dotted _ h
    rw [Bool.eq_false_iff, Ne, List.any_eq_true]
    rintro ⟨s, hs, hd⟩
    rw [this s hs] at hd
    exact absurd hd (by decide)
  · intro h
    have hall : ∀ s ∈ slashSplit rel, isDotted s = false := by
      intro s hs
      cases hd : isDotted s
      · rfl
      · have : (slashSplit rel).any isDotted = true := List.any_eq_true.mpr ⟨s, hs, hd⟩
        rw [this] at h
        exact absurd h (by decide)
    obtain ⟨init, name, hsplit⟩ : ∃ init name, slashSplit rel = init ++ [name] := by
      have hne := slashSplit_ne_nil rel
      exact ⟨(slashSplit rel).dropLast, (slashSplit rel).getLast hne,
        (List.dropLast_append_getLast hne).symm⟩
    have hname : fileName rel = name := by
      unfold fileName
      rw [hsplit]
      simp
    rw [hname] at hmd
    rw [hsplit] at hall ⊢
    apply swallow_of_last
    · intro s hs; exact hall s (by simp [hs])
    · have hd : isDotted name = false := hall name (by simp)
      have := portionMatch_star_md name hd hmd
      rw [matchOne, if_neg (by decide), Bool.and_eq_true]
      exact ⟨this, rfl⟩

/-- The tier of a markdown path outside the STRICT and MODERATE globs: light when no portion of
the relative path starts with a dot, and none when one does (a dot-file, a dot-directory, or
`..` for a file outside the working directory). -/
theorem light_tier_iff (relative : Str → Str) (file : VFile) (p : Str)
    (hp : file.path = some p) (hne : p ≠ [])
    (hmd : endsInMd (fileName (relative p)) = true)
    (hS : ¬ matchesSome STRICT_GLOBS (relative p))
    (hM : ¬ matchesSome MODERATE_GLOBS (relative p)) :
    (getFileCategory relative file = "light" ↔ hasDottedPortion (relative p) = false) ∧
    (getFileCategory relative file = "none" ↔ hasDottedPortion (relative p) = true) := by
  rw [getFileCategory_of_path relative file p hp hne, if_neg hS, if_neg hM]
  by_cases hL : matchesSome LIGHT_GLOBS (relative p)
  · have := (light_glob_iff _ hmd).mp hL
    rw [if_pos hL, this]
    simp
  · have : hasDottedPortion (relative p) = true := by
      cases h : hasDottedPortion (relative p)
      · exact absurd ((light_glob_iff _ hmd).mpr h) hL
      · rfl
    rw [if_neg hL, this]
    simp

/-- C12: the LIGHT glob is not a catch-all for markdown documents. The file name of
`.github/guide.md` ends in `.md` and the path matches no STRICT and no MODERATE glob, yet
`**/*.md` does not match it (`minimatch` runs with the `dot` option off) and `getFileCategory`
returns none, not light; the same holds for the absolute path `/repo/.github/guide.md` with
the working directory `/repo`, where `/repo/docs/guide.md` is light. -/
theorem light_glob_misses_dot_directory :
    endsInMd (fileName ".github/guide.md".toList) = true ∧
    ¬ matchesSome STRICT_GLOBS ".github/guide.md".toList ∧
    ¬ matchesSome MODERATE_GLOBS ".github/guide.md".toList ∧
    minimatch ".github/guide.md".toList "**/*.md".toList = false ∧
    getFileCategory id ⟨some ".github/guide.md".toList, []⟩ = "none" ∧
    pathRelative "/repo".toList "/repo/.github/guide.md".toList = ".github/guide.md".toList ∧
    getFileCategory (pathRelative "/repo".toList)
      ⟨some "/repo/.github/guide.md".toList, []⟩ = "none" ∧
    getFileCategory (pathRelative "/repo".toList)
      ⟨some "/repo/docs/guide.md".toList, []⟩ = "light" := by
  decide

/-! ## Case-insensitive classification -/

theorem isAsciiLetter_iff (c : Char) :
    isAsciiLetter c = true ↔ (65 ≤ c.toNat ∧ c.toNat ≤ 90) ∨ (97 ≤ c.toNat ∧ c.toNat ≤ 122) := by
  unfold isAsciiLetter
  simp only [Bool.or_eq_true, Bool.and_eq_true, decide_eq_true_eq]

theorem not_letter_of_not_ascii (c : Char) (h : 128 ≤ c.toNat) : isAsciiLetter c = false := by
  rw [← Bool.not_eq_true, isAsciiLetter_iff]
  omega

/-- The relation `alikeUnderNocase` spelled out on character codes. -/
theorem alikeUnderNocase_iff (c d : Char) :
    alikeUnderNocase c d ↔
      (c = d ∨
        ((65 ≤ c.toNat ∧ c.toNat ≤ 90 ∧ d.toNat = c.toNat + 32) ∨
          (65 ≤ d.toNat ∧ d.toNat ≤ 90 ∧ c.toNat = d.toNat + 32)) ∨
        (128 ≤ c.toNat ∧ 128 ≤ d.toNat)) := by
  unfold alikeUnderNocase sameUpToCase
  rw [isAsciiLetter_iff, isAsciiLetter_iff]
  constructor
  · rintro ((h | h) | h)
    · exact Or.inl h
    · right; left; omega
    · exact Or.inr (Or.inr h)
  · rintro (h | h | h)
    · exact Or.inl (Or.inl h)
    · left; right; omega
    · exact Or.inr h

theorem alikePaths_of_differOnlyInCase (a b : Str) (h : differOnlyInCase a b) :
    alikePaths a b := by
  unfold differOnlyInCase at h
  unfold alikePaths
  exact List.Forall₂.imp (fun _ _ hcd => Or.inl hcd) h

/-- Two characters that are alike are both equal to a given ASCII character that is not a
letter, such as the slash, the dot or the star, or neither is. -/
theorem alike_eq_const (c d k : Char) (hk : isAsciiLetter k = false) (hk2 : k.toNat < 128)
    (h : alikeUnderNocase c d) : c = k ↔ d = k := by
  rcases h with (h | ⟨hc, hd, _⟩) | ⟨hc, hd⟩
  · rw [h]
  · constructor
    · intro hck; rw [hck, hk] at hc; exact absurd hc (by decide)
    · intro hdk; rw [hdk, hk] at hd; exact absurd hd (by decide)
  · constructor
    · intro hck; rw [hck] at hc; omega
    · intro hdk; rw [hdk] at hd; omega

theorem eqIgnoreCase_iff (p z : Char) :
    eqIgnoreCase p z = true ↔
      (p = z ∨ (isAsciiLetter p = true ∧ isAsciiLetter z = true ∧
        (p.toNat + 32 = z.toNat ∨ z.toNat + 32 = p.toNat))) := by
  unfold eqIgnoreCase
  simp only [Bool.or_eq_true, Bool.and_eq_true, beq_iff_eq, and_assoc]

/-- An ASCII pattern character matches two alike characters or neither. -/
theorem eqIgnoreCase_congr (p c d : Char) (hp : p.toNat < 128) (h : alikeUnderNocase c d) :
    eqIgnoreCase p c = eqIgnoreCase p d := by
  rcases h with (h | ⟨hc, hd, h⟩) | ⟨hc, hd⟩
  · rw [h]
  · have key : ∀ (x y : Char), isAsciiLetter x = true → isAsciiLetter y = true →
        x.toNat + 32 = y.toNat → (eqIgnoreCase p x = true ↔ eqIgnoreCase p y = true) := by
      intro x y hx hy hxy
      have hxr := letter_range x hx
      have hyr := letter_range y hy
      rw [eqIgnoreCase_iff, eqIgnoreCase_iff]
      constructor
      · rintro (hpx | ⟨hp, _, hpx⟩)
        · right
          rw [hpx]
          exact ⟨hx, hy, Or.inl hxy⟩
        · have hpr := letter_range p hp
          rcases hpx with hpx | hpx
          · omega
          · left
            exact char_eq_of_toNat_eq _ _ (by omega)
      · rintro (hpy | ⟨hp, _, hpy⟩)
        · right
          rw [hpy]
          exact ⟨hy, hx, Or.inr hxy⟩
        · have hpr := letter_range p hp
          rcases hpy with hpy | hpy
          · left
            exact char_eq_of_toNat_eq _ _ (by omega)
          · omega
    rw [Bool.eq_iff_iff]
    rcases h with h | h
    · exact key c d hc hd h
    · exact (key d c hd hc h).symm
  · have hfalse : ∀ z : Char, 128 ≤ z.toNat → eqIgnoreCase p z = false := by
      intro z hz
      rw [← Bool.not_eq_true, eqIgnoreCase_iff]
      rintro (hpz | ⟨_, hzl, _⟩)
      · rw [hpz] at hp; omega
      · rw [not_letter_of_not_ascii z hz] at hzl
        exact absurd hzl (by decide)
    rw [hfalse c hc, hfalse d hd]

theorem head_congr (a b : Str) (k : Char) (hk : isAsciiLetter k = false) (hk2 : k.toNat < 128)
    (h : alikePaths a b) : a.head? = some k ↔ b.head? = some k := by
  unfold alikePaths at h
  cases h with
  | nil => rfl
  | cons hcd _ =>
    simp only [List.head?_cons, Option.some.injEq]
    exact alike_eq_const _ _ k hk hk2 hcd

theorem isEmpty_congr (a b : Str) (h : alikePaths a b) : a.isEmpty = b.isEmpty := by
  unfold alikePaths at h
  cases h <;> rfl

theorem isDotted_congr (a b : Str) (h : alikePaths a b) : isDotted a = isDotted b := by
  unfold isDotted
  rw [Bool.eq_iff_iff, beq_iff_eq, beq_iff_eq]
  exact head_congr a b '.' (by decide) (by decide) h

theorem slashSplit_congr (a b : Str) (h : alikePaths a b) :
    List.Forall₂ alikePaths (slashSplit a) (slashSplit b) := by
  unfold alikePaths at h
  induction h with
  | nil => exact List.Forall₂.cons List.Forall₂.nil List.Forall₂.nil
  | @cons c d cs ds hcd hrest ih =>
    have hslash : c = '/' ↔ d = '/' := alike_eq_const c d '/' (by decide) (by decide) hcd
    have hhead : cs.head? = some '/' ↔ ds.head? = some '/' :=
      head_congr cs ds '/' (by decide) (by decide) hrest
    unfold slashSplit
    by_cases hc : c = '/'
    · have hd : d = '/' := hslash.mp hc
      rw [if_pos hc, if_pos hd]
      by_cases hh : cs.head? = some '/'
      · rw [if_pos hh, if_pos (hhead.mp hh)]
        exact ih
      · rw [if_neg hh, if_neg (fun h2 => hh (hhead.mpr h2))]
        exact List.Forall₂.cons List.Forall₂.nil ih
    · have hd : ¬ d = '/' := fun h2 => hc (hslash.mpr h2)
      rw [if_neg hc, if_neg hd]
      revert ih
      generalize slashSplit cs = xs
      generalize slashSplit ds = ys
      intro ih
      cases ih with
      | nil => exact List.Forall₂.cons (List.Forall₂.cons hcd List.Forall₂.nil) List.Forall₂.nil
      | cons hs hss => exact List.Forall₂.cons (List.Forall₂.cons hcd hs) hss

theorem tails_congr (a b : Str) (h : alikePaths a b) :
    List.Forall₂ alikePaths a.tails b.tails := by
  unfold alikePaths at h
  induction h with
  | nil => exact List.Forall₂.cons List.Forall₂.nil List.Forall₂.nil
  | cons hcd hrest ih =>
    rw [List.tails_cons, List.tails_cons]
    exact List.Forall₂.cons (List.Forall₂.cons hcd hrest) ih

theorem any_congr {α : Type} (R : α → α → Prop) (f : α → Bool) (xs ys : List α)
    (hf : ∀ x y, R x y → f x = f y) (h : List.Forall₂ R xs ys) : xs.any f = ys.any f := by
  induction h with
  | nil => rfl
  | cons hxy _ ih => rw [List.any_cons, List.any_cons, hf _ _ hxy, ih]

theorem all_congr {α : Type} (R : α → α → Prop) (f : α → Bool) (xs ys : List α)
    (hf : ∀ x y, R x y → f x = f y) (h : List.Forall₂ R xs ys) : xs.all f = ys.all f := by
  induction h with
  | nil => rfl
  | cons hxy _ ih => rw [List.all_cons, List.all_cons, hf _ _ hxy, ih]

theorem portionBody_congr (pat a b : Str) (hpat : ∀ p ∈ pat, p.toNat < 128)
    (h : alikePaths a b) : portionBody pat a = portionBody pat b := by
  induction pat generalizing a b with
  | nil =>
    simp only [portionBody]
    exact isEmpty_congr a b h
  | cons p ps ih =>
    have hps : ∀ q ∈ ps, q.toNat < 128 := fun q hq => hpat q (List.mem_cons_of_mem _ hq)
    by_cases hp : p = '*'
    · simp only [portionBody, hp, if_true]
      exact any_congr alikePaths _ _ _ (fun x y hxy => ih x y hps hxy) (tails_congr a b h)
    · unfold alikePaths at h
      cases h with
      | nil => simp only [portionBody, hp, if_false]
      | cons hcd hrest =>
        simp only [portionBody, hp, if_false]
        rw [eqIgnoreCase_congr p _ _ (hpat p (by simp)) hcd, ih _ _ hps hrest]

theorem portionMatch_congr (pat a b : Str) (hpat : ∀ p ∈ pat, p.toNat < 128)
    (h : alikePaths a b) : portionMatch pat a = portionMatch pat b := by
  unfold portionMatch
  have hdot : (a.head? != some '.') = (b.head? != some '.') := by
    have := isDotted_congr a b h
    unfold isDotted at this
    simp only [bne, this]
  rw [portionBody_congr pat a b hpat h, isEmpty_congr a b h, hdot]

theorem swallow_congr (k : List Str → Bool) (fs gs : List Str)
    (hk : ∀ xs ys, List.Forall₂ alikePaths xs ys → k xs = k ys)
    (h : List.Forall₂ alikePaths fs gs) : swallow k fs = swallow k gs := by
  induction h with
  | nil => rfl
  | @cons f g fs gs hfg hrest ih =>
    rw [swallow, swallow, hk _ _ (List.Forall₂.cons hfg hrest), isDotted_congr f g hfg, ih]

theorem matchOne_congr (pat fs gs : List Str) (hpat : ∀ s ∈ pat, ∀ p ∈ s, p.toNat < 128)
    (h : List.Forall₂ alikePaths fs gs) : matchOne pat fs = matchOne pat gs := by
  induction pat generalizing fs gs with
  | nil =>
    cases h with
    | nil => rfl
    | cons hfg hrest =>
      simp only [matchOne]
      rw [isEmpty_congr _ _ hfg]
      cases hrest <;> rfl
  | cons p ps ih =>
    have hps : ∀ s ∈ ps, ∀ q ∈ s, q.toNat < 128 :=
      fun s hs => hpat s (List.mem_cons_of_mem _ hs)
    cases h with
    | nil => rfl
    | @cons f g fs gs hfg hrest =>
      by_cases hp : p = "**".toList
      · simp only [matchOne, hp, if_true]
        rw [all_congr alikePaths _ _ _
          (fun x y hxy => by rw [isDotted_congr x y hxy]) (List.Forall₂.cons hfg hrest),
          swallow_congr (matchOne ps) _ _ (fun xs ys hxy => ih xs ys hps hxy)
            (List.Forall₂.cons hfg hrest)]
      · simp only [matchOne, hp, if_false]
        rw [portionMatch_congr p f g (hpat p (by simp)) hfg, ih fs gs hps hrest]

/-- The match against a glob of ASCII characters gives the same result on two alike paths. -/
theorem minimatch_congr (a b glob : Str) (hg : ∀ s ∈ slashSplit glob, ∀ p ∈ s, p.toNat < 128)
    (h : alikePaths a b) : minimatch a glob = minimatch b glob := by
  unfold minimatch
  exact matchOne_congr _ _ _ hg (slashSplit_congr a b h)

theorem any_minimatch_congr (globs : List Str) (a b : Str) (hg : asciiGlobs globs)
    (h : alikePaths a b) :
    globs.any (fun g => minimatch a g) = globs.any (fun g => minimatch b g) := by
  induction globs with
  | nil => rfl
  | cons g gs ih =>
    rw [List.any_cons, List.any_cons, minimatch_congr a b g (hg g (by simp)) h,
      ih (fun g2 hg2 => hg g2 (List.mem_cons_of_mem _ hg2))]

/-- C13: classification does not see the case of ASCII letters, nor which characters outside
ASCII a path holds: two files whose relative paths have the same length and, position by
position, the same character, the two cases of one ASCII letter, or two characters outside
ASCII, get the same tier; paths that differ only in the case of ASCII letters are among them. -/
theorem getFileCategory_case_insensitive (relative : Str → Str) (file₁ file₂ : VFile)
    (p₁ p₂ : Str) (h₁ : file₁.path = some p₁) (h₂ : file₂.path = some p₂)
    (hne₁ : p₁ ≠ []) (hne₂ : p₂ ≠ [])
    (h : List.Forall₂ alikeUnderNocase (relative p₁) (relative p₂)) :
    getFileCategory relative file₁ = getFileCategory relative file₂ ∧
    (∀ c d, alikeUnderNocase c d ↔
      (c = d ∨
        ((65 ≤ c.toNat ∧ c.toNat ≤ 90 ∧ d.toNat = c.toNat + 32) ∨
          (65 ≤ d.toNat ∧ d.toNat ≤ 90 ∧ c.toNat = d.toNat + 32)) ∨
        (128 ≤ c.toNat ∧ 128 ≤ d.toNat))) ∧
    (∀ a b, differOnlyInCase a b → List.Forall₂ alikeUnderNocase a b) := by
  refine ⟨?_, alikeUnderNocase_iff, alikePaths_of_differOnlyInCase⟩
  have e₁ : p₁.isEmpty = false := by cases p₁ <;> simp_all
  have e₂ : p₂.isEmpty = false := by cases p₂ <;> simp_all
  unfold getFileCategory
  rw [h₁, h₂]
  simp only [e₁, e₂, Bool.false_eq_true, if_false,
    any_minimatch_congr STRICT_GLOBS _ _ (by decide) h,
    any_minimatch_congr MODERATE_GLOBS _ _ (by decide) h,
    any_minimatch_congr LIGHT_GLOBS _ _ (by decide) h]

/-- Witness for C13: `claude.md` and `CLAUDE.md` are both strict, and so is
`Skills/x/skill.md`, as `skills/x/SKILL.md` is; `Rules/É.md` and `rules/é.md` are both
strict, `docs/résumé.md` and `DOCS/RÉSUMÉ.MD` both light. -/
theorem getFileCategory_case_insensitive_witness :
    (getFileCategory id ⟨some "claude.md".toList, []⟩ =
      getFileCategory id ⟨some "CLAUDE.md".toList, []⟩ ∧
      getFileCategory id ⟨some "CLAUDE.md".toList, []⟩ = "strict") ∧
    (getFileCategory id ⟨some "Skills/x/skill.md".toList, []⟩ =
      getFileCategory id ⟨some "skills/x/SKILL.md".toList, []⟩ ∧
      getFileCategory id ⟨some "skills/x/SKILL.md".toList, []⟩ = "strict") ∧
    (getFileCategory id ⟨some "Rules/É.md".toList, []⟩ =
      getFileCategory id ⟨some "rules/é.md".toList, []⟩ ∧
      getFileCategory id ⟨some "rules/é.md".toList, []⟩ = "strict") ∧
    (getFileCategory id ⟨some "docs/résumé.md".toList, []⟩ =
      getFileCategory id ⟨some "DOCS/RÉSUMÉ.MD".toList, []⟩ ∧
      getFileCategory id ⟨some "DOCS/RÉSUMÉ.MD".toList, []⟩ = "light") :=
  ⟨⟨(getFileCategory_case_insensitive id ⟨some "claude.md".toList, []⟩
      ⟨some "CLAUDE.md".toList, []⟩ "claude.md".toList "CLAUDE.md".toList rfl rfl
      (by decide) (by decide) (by decide)).1, by decide⟩,
    ⟨(getFileCategory_case_insensitive id ⟨some "Skills/x/skill.md".toList, []⟩
      ⟨some "skills/x/SKILL.md".toList, []⟩ "Skills/x/skill.md".toList
      "skills/x/SKILL.md".toList rfl rfl (by decide) (by decide) (by decide)).1, by decide⟩,
    ⟨(getFileCategory_case_insensitive id ⟨some "Rules/É.md".toList, []⟩
      ⟨some "rules/é.md".toList, []⟩ "Rules/É.md".toList
      "rules/é.md".toList rfl rfl (by decide) (by decide) (by decide)).1, by decide⟩,
    ⟨(getFileCategory_case_insensitive id ⟨some "docs/résumé.md".toList, []⟩
      ⟨some "DOCS/RÉSUMÉ.MD".toList, []⟩ "docs/résumé.md".toList
      "DOCS/RÉSUMÉ.MD".toList rfl rfl (by decide) (by decide) (by decide)).1, by decide⟩⟩

/-- Counterexample to C13 as stated: the Kelvin sign U+212A is an upper-case letter whose
lower case is `k`, so `sKills/x/skill.md` written with it and `skills/x/skill.md` differ only
in letter case (they have the same lower case); the first is light, the second strict. The
two characters are not alike in the sense of `alikeUnderNocase`. -/
theorem getFileCategory_kelvin_sign :
    kelvinPath = 's' :: Char.ofNat 8490 :: "ills/x/skill.md".toList ∧
    "skills/x/skill.md".toList = 's' :: 'k' :: "ills/x/skill.md".toList ∧
    toLowerCase kelvinPath = toLowerCase "skills/x/skill.md".toList ∧
    getFileCategory id ⟨some kelvinPath, []⟩ = "light" ∧
    getFileCategory id ⟨some "skills/x/skill.md".toList, []⟩ = "strict" ∧
    ¬ alikeUnderNocase (Char.ofNat 8490) 'k' := by
  decide

/-! ## Rules over the nodes of the tree -/

mutual
theorem visitParents_eq_filter (ty : String) (ancestors : List Node) :
    ∀ tree : Node, visitParents ty ancestors tree =
      (nodesWithAncestors ancestors tree).filter (fun na => na.1.type == ty)
  | .mk t v a cs => by
    rw [visitParents, nodesWithAncestors, List.filter_cons,
      visitParentsList_eq_filter ty (ancestors ++ [Node.mk t v a cs]) cs]
    by_cases h : t = ty
    · simp [h, Node.type]
    · simp [h, Node.type]
theorem visitParentsList_eq_filter (ty : String) (ancestors : List Node) :
    ∀ trees : List Node, visitParentsList ty ancestors trees =
      (nodesWithAncestorsList ancestors trees).filter (fun na => na.1.type == ty)
  | [] => by simp [visitParentsList, nodesWithAncestorsList]
  | n :: ns => by
    rw [visitParentsList, nodesWithAncestorsList, List.filter_append,
      visitParents_eq_filter ty ancestors n, visitParentsList_eq_filter ty ancestors ns]
end

mutual
theorem visit_eq_map_visitParents (ty : String) (ancestors : List Node) :
    ∀ tree : Node, visit ty tree = (visitParents ty ancestors tree).map Prod.fst
  | .mk t v a cs => by
    rw [visit, visitParents, List.map_append,
      ← visitList_eq_map_visitParentsList ty (ancestors ++ [Node.mk t v a cs]) cs]
    by_cases h : t = ty
    · simp [h]
    · simp [h]
theorem visitList_eq_map_visitParentsList (ty : String) (ancestors : List Node) :
    ∀ trees : List Node, visitList ty trees = (visitParentsList ty ancestors trees).map Prod.fst
  | [] => by simp [visitList, visitParentsList]
  | n :: ns => by
    rw [visitList, visitParentsList, List.map_append,
      ← visit_eq_map_visitParents ty ancestors n,
      ← visitList_eq_map_visitParentsList ty ancestors ns]
end

/-- `visit` calls its visitor on exactly the nodes of the wanted type, wherever they are in
the tree, in document order. -/
theorem visit_eq_filter (ty : String) (tree : Node) :
    visit ty tree = (allNodes tree).filter (fun n => n.type == ty) := by
  unfold allNodes
  rw [visit_eq_map_visitParents ty [] tree, visitParents_eq_filter, List.filter_map]
  rfl

/-- C14: on a strict file `noModalRule` emits, in document order, exactly one message for each
text node that has no `code` or `inlineCode` ancestor and whose value contains `may`, `might`
or `could` as a whole word in any case, however often; no other node gets a message. -/
theorem noModalRule_reports (relative : Str → Str) (tree : Node) (file : VFile)
    (hs : isStrictFile relative file = true) :
    noModalRule relative tree file =
      ((nodesWithAncestors [] tree).filter (fun na =>
        na.1.type == "text" && !hasCodeAncestor na.2 &&
          regexTest MODAL_WORDS (na.1.value.getD []))).map (fun na => modalMessage na.1) ∧
    (∀ value : Str, regexTest MODAL_WORDS value = true ↔ containsWord MODAL_WORDS value) ∧
    (∀ ancestors : List Node, hasCodeAncestor ancestors = true ↔
      ∃ a ∈ ancestors, a.type = "code" ∨ a.type = "inlineCode") := by
  refine ⟨?_, fun value => regexTest_iff _ _ modal_lettersOnly, ?_⟩
  · unfold noModalRule
    simp only [hs, Bool.not_true, Bool.false_eq_true, if_false]
    rw [visitParents_eq_filter]
    generalize nodesWithAncestors [] tree = l
    induction l with
    | nil => rfl
    | cons na rest ih =>
      rw [List.filter_cons, List.filter_cons]
      by_cases ht : (na.1.type == "text") = true
      · rw [if_pos ht, List.filterMap_cons]
        by_cases hc : hasCodeAncestor na.2 = true
        · simp only [hc, ht, if_true, Bool.not_true, Bool.and_false, Bool.false_and,
            Bool.false_eq_true, if_false]
          exact ih
        · have hc2 : hasCodeAncestor na.2 = false := by simpa using hc
          by_cases hm : regexTest MODAL_WORDS (na.1.value.getD []) = true
          · simp only [hc2, ht, hm, Bool.false_eq_true, if_false, if_true, Bool.not_false,
              Bool.and_self, List.map_cons, modalMessage]
            rw [ih]
            rfl
          · have hm2 : regexTest MODAL_WORDS (na.1.value.getD []) = false := by simpa using hm
            simp only [hc2, ht, hm2, Bool.false_eq_true, if_false, Bool.and_false]
            exact ih
      · have ht2 : (na.1.type == "text") = false := by simpa using ht
        rw [if_neg ht]
        simp only [ht2, Bool.false_and, Bool.false_eq_true, if_false]
        exact ih
  · intro ancestors
    unfold hasCodeAncestor
    simp only [List.any_eq_true, Bool.or_eq_true, beq_iff_eq]

/-- Witness for C14: in a strict document the text with two modal verbs gets one message, the
text without one and the text below an inline code node get none. -/
theorem noModalRule_reports_witness :
    isStrictFile id (strictFile []) = true ∧
    matchCount MODAL_WORDS "It may work, or it might not.".toList = 2 ∧
    noModalRule id modalSample (strictFile []) =
      [modalMessage (textNode "It may work, or it might not.")] :=
  ⟨by decide, by decide,
    (noModalRule_reports id modalSample (strictFile []) (by decide)).1.trans (by rfl)⟩

/-- C15: on a strict file `noStrongRule` emits one message attached to each node of type
`strong` of the tree, nested ones included, in document order; so the number of its messages
is the number of strong nodes. -/
theorem noStrongRule_reports (relative : Str → Str) (tree : Node) (file : VFile)
    (hs : isStrictFile relative file = true) :
    noStrongRule relative tree file =
      ((allNodes tree).filter (fun n => n.type == "strong")).map strongMessage ∧
    (noStrongRule relative tree file).length =
      ((allNodes tree).filter (fun n => n.type == "strong")).length := by
  have h : noStrongRule relative tree file =
      ((allNodes tree).filter (fun n => n.type == "strong")).map strongMessage := by
    unfold noStrongRule
    simp only [hs, Bool.not_true, Bool.false_eq_true, if_false]
    rw [visit_eq_filter]
    rfl
  exact ⟨h, by rw [h, List.length_map]⟩

/-- Witness for C15: a strong node nested in a strong node gives two messages, the outer node
first. -/
theorem noStrongRule_reports_witness :
    isStrictFile id (strictFile []) = true ∧
    (noStrongRule id strongSample (strictFile [])).length = 2 ∧
    noStrongRule id strongSample (strictFile []) =
      [strongMessage (.mk "strong" none none
          [textNode "outer ", .mk "strong" none none [textNode "inner"]]),
        strongMessage (.mk "strong" none none [textNode "inner"])] :=
  ⟨by decide,
    (noStrongRule_reports id strongSample (strictFile []) (by decide)).2.trans (by rfl),
    (noStrongRule_reports id strongSample (strictFile []) (by decide)).1.trans (by rfl)⟩

/-! ## The two checks of the heading rule -/

theorem headingOrderRule_filter_order (relative : Str → Str) (tree : Node) (file : VFile)
    (hs : isStrictFile relative file = true) :
    (headingOrderRule relative tree file).filter isOrderMessage =
      orderCheck (-1) (collectSeen EXPECTED_HEADINGS tree) := by
  rw [headingOrderRule_strict relative tree file hs, List.filter_append]
  have h1 : (orderCheck (-1) (collectSeen EXPECTED_HEADINGS tree)).filter isOrderMessage =
      orderCheck (-1) (collectSeen EXPECTED_HEADINGS tree) :=
    List.filter_eq_self.mpr (orderCheck_all_order _ _)
  have h2 : (if absentHeadings EXPECTED_HEADINGS tree = [] then []
      else [missingMessage (absentHeadings EXPECTED_HEADINGS tree)]).filter isOrderMessage
        = [] := by
    split_ifs
    · rfl
    · simp [missingMessage_not_order]
  rw [h1, h2, List.append_nil]

theorem headingOrderRule_filter_missing (relative : Str → Str) (tree : Node) (file : VFile)
    (hs : isStrictFile relative file = true) :
    (headingOrderRule relative tree file).filter isMissingMessage =
      if absentHeadings EXPECTED_HEADINGS tree = [] then []
      else [missingMessage (absentHeadings EXPECTED_HEADINGS tree)] := by
  rw [headingOrderRule_strict relative tree file hs, List.filter_append]
  have h1 : (orderCheck (-1) (collectSeen EXPECTED_HEADINGS tree)).filter isMissingMessage
      = [] := by
    rw [List.filter_eq_nil_iff]
    intro m hm
    obtain ⟨_, s, _, _, _, _, _, hmeq⟩ := orderCheck_first_descent _ _ m hm
    rw [hmeq, orderMessage_not_missing]
    decide
  rw [h1, List.nil_append]
  split_ifs
  · rfl
  · simp [missingMessage_isMissing]

/-- The absent terms are those whose vocabulary index was not observed. -/
theorem absentHeadings_eq_filter_index (vocab : List Str) (tree : Node) :
    absentHeadings vocab tree =
      vocab.filter (fun t => decide (indexOf vocab t ∉
        (canonicalHeadings vocab tree).map (canonicalIndex vocab))) := by
  unfold absentHeadings
  apply List.filter_congr
  intro t ht
  have hne : indexOf vocab t ≠ -1 := by
    rw [Ne, indexOf_eq_neg_one_iff]; exact not_not.mpr ht
  have hiff : t ∈ headingTexts tree ↔
      indexOf vocab t ∈ (canonicalHeadings vocab tree).map (canonicalIndex vocab) := by
    constructor
    · intro h
      unfold headingTexts at h
      obtain ⟨n, hn, hnt⟩ := List.mem_map.mp h
      refine List.mem_map.mpr ⟨n, ?_, by rw [canonicalIndex, hnt]⟩
      unfold canonicalHeadings
      rw [List.mem_filter]
      exact ⟨hn, by simpa [hnt] using ht⟩
    · intro h
      obtain ⟨n, hn, hidx⟩ := List.mem_map.mp h
      have hn2 := List.mem_filter.mp hn
      have : t = headingText n := indexOf_inj vocab t _ hne hidx.symm
      unfold headingTexts
      exact List.mem_map.mpr ⟨n, hn2.1, this.symm⟩
  by_cases h : t ∈ headingTexts tree
  · have h2 := hiff.mp h
    simp [h, h2]
  · have h2 : ¬ indexOf vocab t ∈ (canonicalHeadings vocab tree).map (canonicalIndex vocab) :=
      fun h3 => h (hiff.mpr h3)
    simp [h, h2]

/-- C17: on a strict file `headingOrderRule` emits at most two messages, at most one of each
kind, the ordering message first. Whether the ordering message is emitted is decided by the
sequence of observed canonical indices alone, and the missing-headings message by the set of
observed indices alone. -/
theorem headingOrderRule_two_checks (relative : Str → Str) (tree₁ tree₂ : Node)
    (file₁ file₂ : VFile) (hs₁ : isStrictFile relative file₁ = true)
    (hs₂ : isStrictFile relative file₂ = true) :
    (headingOrderRule relative tree₁ file₁).length ≤ 2 ∧
    ((headingOrderRule relative tree₁ file₁).filter isOrderMessage).length ≤ 1 ∧
    ((headingOrderRule relative tree₁ file₁).filter isMissingMessage).length ≤ 1 ∧
    headingOrderRule relative tree₁ file₁ =
      (headingOrderRule relative tree₁ file₁).filter isOrderMessage ++
        (headingOrderRule relative tree₁ file₁).filter isMissingMessage ∧
    (observedIndices tree₁ = observedIndices tree₂ →
      ((∃ m ∈ headingOrderRule relative tree₁ file₁, isOrderMessage m = true) ↔
        (∃ m ∈ headingOrderRule relative tree₂ file₂, isOrderMessage m = true))) ∧
    ((∀ i, i ∈ observedIndices tree₁ ↔ i ∈ observedIndices tree₂) →
      (headingOrderRule relative tree₁ file₁).filter isMissingMessage =
        (headingOrderRule relative tree₂ file₂).filter isMissingMessage) := by
  have ho₁ := headingOrderRule_filter_order relative tree₁ file₁ hs₁
  have hm₁ := headingOrderRule_filter_missing relative tree₁ file₁ hs₁
  have ho₂ := headingOrderRule_filter_order relative tree₂ file₂ hs₂
  have hm₂ := headingOrderRule_filter_missing relative tree₂ file₂ hs₂
  have hlo : ((headingOrderRule relative tree₁ file₁).filter isOrderMessage).length ≤ 1 := by
    rw [ho₁]; exact orderCheck_length_le _ _
  have hlm : ((headingOrderRule relative tree₁ file₁).filter isMissingMessage).length ≤ 1 := by
    rw [hm₁]; split_ifs <;> simp
  have hsplit : headingOrderRule relative tree₁ file₁ =
      (headingOrderRule relative tree₁ file₁).filter isOrderMessage ++
        (headingOrderRule relative tree₁ file₁).filter isMissingMessage := by
    rw [ho₁, hm₁]
    exact headingOrderRule_strict relative tree₁ file₁ hs₁
  have hex : ∀ (tree : Node) (file : VFile), isStrictFile relative file = true →
      ((∃ m ∈ headingOrderRule relative tree file, isOrderMessage m = true) ↔
        ¬ List.Chain (· ≤ ·) (-1 : Int) (observedIndices tree)) := by
    intro tree file hs
    have hf := headingOrderRule_filter_order relative tree file hs
    have hobs : observedIndices tree = (collectSeen EXPECTED_HEADINGS tree).map (·.idx) := by
      unfold observedIndices
      rw [collectSeen_map_idx]
    rw [hobs, ← orderCheck_eq_nil_iff, ← hf, List.filter_eq_nil_iff]
    push_neg
    rfl
  refine ⟨?_, hlo, hlm, hsplit, ?_, ?_⟩
  · rw [hsplit, List.length_append]
    omega
  · intro hidx
    rw [hex tree₁ file₁ hs₁, hex tree₂ file₂ hs₂, hidx]
  · intro hset
    have habs : absentHeadings EXPECTED_HEADINGS tree₁ = absentHeadings EXPECTED_HEADINGS tree₂ := by
      rw [absentHeadings_eq_filter_index, absentHeadings_eq_filter_index]
      apply List.filter_congr
      intro t _
      have := hset (indexOf EXPECTED_HEADINGS t)
      unfold observedIndices at this
      by_cases h : indexOf EXPECTED_HEADINGS t ∈
          (canonicalHeadings EXPECTED_HEADINGS tree₁).map (canonicalIndex EXPECTED_HEADINGS)
      · simp [h, this.mp h]
      · have h2 : ¬ indexOf EXPECTED_HEADINGS t ∈
            (canonicalHeadings EXPECTED_HEADINGS tree₂).map
              (canonicalIndex EXPECTED_HEADINGS) := fun h3 => h (this.mpr h3)
        simp [h, h2]
    rw [hm₁, hm₂, habs]

/-- Witness for C17: the four outcomes occur. With the ten headings and the first two
exchanged only the ordering message is emitted; with no heading only the missing-headings
message; with Scope, Language-Rules, Absolute-Prohibitions both, the ordering message first;
and a document with the same index sequence 0, 4, 1 also gets the ordering message. -/
theorem headingOrderRule_two_checks_witness :
    isStrictFile id (strictFile []) = true ∧
    headingOrderRule id swappedSample (strictFile []) = [orderMessage (headingNode "Scope")] ∧
    headingOrderRule id (rootNode []) (strictFile []) = [missingMessage EXPECTED_HEADINGS] ∧
    (headingOrderRule id (rootNode [headingNode "Scope", headingNode "Language-Rules",
      headingNode "Absolute-Prohibitions"]) (strictFile [])).map isOrderMessage =
        [true, false] ∧
    (headingOrderRule id (rootNode [headingNode "Scope", headingNode "Language-Rules",
      headingNode "Absolute-Prohibitions"]) (strictFile [])).length ≤ 2 ∧
    ((∃ m ∈ headingOrderRule id (rootNode [headingNode "Scope", headingNode "Language-Rules",
        headingNode "Absolute-Prohibitions"]) (strictFile []), isOrderMessage m = true) ↔
      (∃ m ∈ headingOrderRule id (rootNode [headingNode " scope", headingNode "Overview",
        headingNode "LANGUAGE-RULES", headingNode "absolute-prohibitions "]) (strictFile []),
        isOrderMessage m = true)) :=
  ⟨by decide, by rfl, by rfl, by rfl,
    (headingOrderRule_two_checks id
      (rootNode [headingNode "Scope", headingNode "Language-Rules",
        headingNode "Absolute-Prohibitions"])
      (rootNode [headingNode " scope", headingNode "Overview",
        headingNode "LANGUAGE-RULES", headingNode "absolute-prohibitions "])
      (strictFile []) (strictFile []) (by decide) (by decide)).1,
    (headingOrderRule_two_checks id
      (rootNode [headingNode "Scope", headingNode "Language-Rules",
        headingNode "Absolute-Prohibitions"])
      (rootNode [headingNode " scope", headingNode "Overview",
        headingNode "LANGUAGE-RULES", headingNode "absolute-prohibitions "])
      (strictFile []) (strictFile []) (by decide) (by decide)).2.2.2.2.1 (by decide)⟩

/-! ## The narrative-start test -/

theorem narrative_lettersOnly : lettersOnly NARRATIVE_WORDS := by decide

theorem narrative_lowercaseOnly : lowercaseOnly NARRATIVE_WORDS := by decide

theorem not_space_of_letter (c : Char) (h : isAsciiLetter c = true) : isSpace c = false := by
  have hr := letter_range c h
  unfold isSpace
  simp only [Bool.or_eq_false_iff, Bool.and_eq_false_iff, beq_eq_false_iff_ne, ne_eq,
    decide_eq_false_iff_not]
  omega

/-- The lower case of a character that matches a lower-case letter is that letter. -/
theorem lowerChar_of_eqIgnoreCase (p c : Char) (hp : 97 ≤ p.toNat ∧ p.toNat ≤ 122)
    (h : eqIgnoreCase p c = true) : lowerChar c = [p] := by
  unfold eqIgnoreCase at h
  simp only [Bool.or_eq_true, Bool.and_eq_true, beq_iff_eq] at h
  unfold lowerChar
  rcases h with h | ⟨⟨_, hc⟩, h⟩
  · rw [← h]
    have h1 : ¬ (65 ≤ p.toNat ∧ p.toNat ≤ 90) := by omega
    have h2 : ¬ p.toNat = 8490 := by omega
    have h3 : ¬ p.toNat = 304 := by omega
    simp only [h1, h2, h3, if_false]
  · have hcr := letter_range c hc
    have h1 : 65 ≤ c.toNat ∧ c.toNat ≤ 90 := by omega
    have h2 : c.toNat + 32 = p.toNat := by omega
    simp only [h1, and_self, if_true, h2, Char.ofNat_toNat]

theorem toLowerCase_of_matches (w m : Str) (hw : ∀ p ∈ w, 97 ≤ p.toNat ∧ p.toNat ≤ 122)
    (h : matchesIgnoringCase w m) : toLowerCase m = w := by
  unfold matchesIgnoringCase at h
  unfold toLowerCase
  induction h with
  | nil => rfl
  | @cons p c ps cs hpc _ ih =>
    rw [List.flatMap_cons, lowerChar_of_eqIgnoreCase p c (hw p (by simp)) hpc,
      ih (fun q hq => hw q (List.mem_cons_of_mem _ hq))]
    rfl

theorem matched_ascii_letters (w m : Str) (hm : matchesIgnoringCase w m)
    (hw : ∀ p ∈ w, isAsciiLetter p = true) : ∀ c ∈ m, isAsciiLetter c = true := by
  unfold matchesIgnoringCase at hm
  induction hm with
  | nil => simp
  | cons hpc _ ih =>
    intro c hc
    rcases List.mem_cons.mp hc with h | h
    · rw [h]
      exact letter_of_eqIgnoreCase _ _ (hw _ (by simp)) hpc
    · exact ih (fun p hp => hw p (List.mem_cons_of_mem _ hp)) c h

theorem takeWhile_word (m : Str) (c : Char) (rest : Str)
    (hm : ∀ x ∈ m, isSpace x = false) (hc : isSpace c = true) :
    (m ++ c :: rest).takeWhile (fun x => !isSpace x) = m := by
  induction m with
  | nil => simp [List.takeWhile, hc]
  | cons x xs ih =>
    have hx := hm x (by simp)
    have ih2 := ih (fun y hy => hm y (List.mem_cons_of_mem _ hy))
    rw [List.cons_append, List.takeWhile_cons, hx, Bool.not_false, if_pos rfl, ih2]

/-- A text that starts with a narrative word followed by whitespace has that word as its
extracted first word. -/
theorem firstWord_of_narrativeStart (text : Str) (h : narrativeStartTest text = true) :
    firstWord text ∈ NARRATIVE_WORDS := by
  obtain ⟨m, c, rest, hs, ⟨w, hwmem, hm⟩, hc⟩ := (narrativeStartTest_iff text).mp h
  have hletters := matched_ascii_letters w m hm (narrative_lettersOnly w hwmem).2
  have hne : m ≠ [] := matched_ne_nil w m hm (narrative_lettersOnly w hwmem).1
  have hstrip : stripListMarker text = text := by
    cases m with
    | nil => exact absurd rfl hne
    | cons d ds =>
      have hd := letter_range d (hletters d (by simp))
      have hmark : ¬ ((d = '-' ∨ d = '*' ∨ d = '+')) := by
        rintro (h1 | h1 | h1) <;> (rw [h1] at hd; revert hd; decide)
      rw [hs]
      cases ds with
      | nil => simp [stripListMarker, hmark]
      | cons e es => simp [stripListMarker, hmark]
  have htoken : firstToken text = m := by
    unfold firstToken
    rw [hs]
    exact takeWhile_word m c rest (fun x hx => not_space_of_letter x (hletters x hx)) hc
  have hkeep : keepLettersAndHyphens m = m := by
    unfold keepLettersAndHyphens
    rw [List.filter_eq_self]
    intro x hx
    simp [hletters x hx]
  unfold firstWord
  rw [hstrip, htoken, hkeep, toLowerCase_of_matches w m (narrative_lowercaseOnly w hwmem) hm]
  exact hwmem

/-- C19: in `narrativeRule` the narrative-start test is redundant: when the text starts with a
narrative word followed by whitespace the extracted first word is that word, which is not a
directive; so the flagging condition is the same without the test, for every paragraph. -/
theorem narrativeStart_redundant :
    (∀ text, narrativeStartTest text = true →
      DIRECTIVE_START.contains (firstWord text) = false) ∧
    (∀ text, startsWithWordThenSpace NARRATIVE_WORDS text →
      firstWord text ∉ DIRECTIVE_START) ∧
    (∀ text,
      (!DIRECTIVE_START.contains (firstWord text) || regexTest SUBJECTIVE_WORDS text ||
        regexTest MODAL_WORDS text || narrativeStartTest text) =
      (!DIRECTIVE_START.contains (firstWord text) || regexTest SUBJECTIVE_WORDS text ||
        regexTest MODAL_WORDS text)) ∧
    (∀ node, narrativeVisitor node = narrativeVisitorWithoutStart node) := by
  have hdisj : ∀ w ∈ NARRATIVE_WORDS, DIRECTIVE_START.contains w = false := by decide
  have h1 : ∀ text, narrativeStartTest text = true →
      DIRECTIVE_START.contains (firstWord text) = false :=
    fun text h => hdisj _ (firstWord_of_narrativeStart text h)
  have h3 : ∀ text,
      (!DIRECTIVE_START.contains (firstWord text) || regexTest SUBJECTIVE_WORDS text ||
        regexTest MODAL_WORDS text || narrativeStartTest text) =
      (!DIRECTIVE_START.contains (firstWord text) || regexTest SUBJECTIVE_WORDS text ||
        regexTest MODAL_WORDS text) := by
    intro text
    cases hn : narrativeStartTest text
    · simp
    · rw [h1 text hn]
      rfl
  refine ⟨h1, ?_, h3, ?_⟩
  · intro text h hmem
    have := h1 text ((narrativeStartTest_iff text).mpr h)
    have h2 : DIRECTIVE_START.contains (firstWord text) = true := by simpa using hmem
    rw [h2] at this
    exact absurd this (by decide)
  · intro node
    unfold narrativeVisitor narrativeVisitorWithoutStart
    simp only [h3]

/-- Witness for C19: "The tool may use caching." starts with a narrative word, and its first
word, `the`, is not a directive. -/
theorem narrativeStart_redundant_witness :
    narrativeStartTest "The tool may use caching.".toList = true ∧
    firstWord "The tool may use caching.".toList = "the".toList ∧
    DIRECTIVE_START.contains (firstWord "The tool may use caching.".toList) = false :=
  ⟨by decide, by decide,
    narrativeStart_redundant.1 "The tool may use caching.".toList (by decide)⟩

/-! ## The fence state -/

theorem fenceStateAfter_parity (lines : List Str) (state : Bool) :
    fenceStateAfter state lines =
      if (lines.filter isFenceLine).length % 2 = 1 then !state else state := by
  unfold fenceStateAfter
  induction lines generalizing state with
  | nil => simp
  | cons line rest ih =>
    rw [List.foldl_cons, ih, List.filter_cons]
    by_cases hf : isFenceLine line = true
    · simp only [hf, if_true, List.length_cons]
      rcases Nat.mod_two_eq_zero_or_one (rest.filter isFenceLine).length with h | h
      · have h2 : ((rest.filter isFenceLine).length + 1) % 2 = 1 := by omega
        simp [h, h2]
      · have h2 : ¬ ((rest.filter isFenceLine).length + 1) % 2 = 1 := by omega
        simp [h, h2]
    · simp only [hf, if_false, Bool.false_eq_true]

/-- The loop reaches the lines after a prefix in the state the prefix leaves. -/
theorem lineLengthLoop_append (pre rest : List Str) (state : Bool) (i : Nat) :
    lineLengthLoop state i (pre ++ rest) =
      lineLengthLoop state i pre ++
        lineLengthLoop (fenceStateAfter state pre) (i + pre.length) rest := by
  induction pre generalizing state i with
  | nil => simp [lineLengthLoop, fenceStateAfter]
  | cons line more ih =>
    have hlen : i + (line :: more).length = i + 1 + more.length := by
      simp only [List.length_cons]; omega
    have hstate : ∀ s, fenceStateAfter s (line :: more) =
        fenceStateAfter (if isFenceLine line then !s else s) more := by
      intro s; rfl
    rw [List.cons_append, lineLengthLoop, lineLengthLoop, hlen, hstate]
    by_cases hf : isFenceLine line = true
    · simp only [hf, if_true]
      exact ih _ _
    · simp only [hf, if_false, Bool.false_eq_true]
      by_cases hin : state = true
      · simp only [hin, if_true]
        exact ih _ _
      · simp only [hin, if_false, Bool.false_eq_true]
        by_cases ht : isTableLine line = true
        · simp only [ht, if_true]
          have := ih state (i + 1)
          simpa [hin] using this
        · simp only [ht, if_false, Bool.false_eq_true]
          by_cases hl : jsLength line > 100
          · simp only [hl, if_true, List.cons_append, List.cons.injEq, true_and]
            have := ih state (i + 1)
            simpa [hin] using this
          · simp only [hl, if_false]
            have := ih state (i + 1)
            simpa [hin] using this

theorem fencesBefore_eq (pre rest : List Str) :
    fencesBefore (pre ++ rest) pre.length = (pre.filter isFenceLine).length := by
  unfold fencesBefore
  rw [List.take_left' rfl]

theorem insideOpenFence_take (lines : List Str) (i : Nat) :
    fenceStateAfter false (lines.take i) = insideOpenFence lines i := by
  rw [fenceStateAfter_parity]
  unfold insideOpenFence fencesBefore
  by_cases h : ((lines.take i).filter isFenceLine).length % 2 = 1
  · simp [h]
  · simp [h]

theorem fencesBefore_succ_index (lines : List Str) (j : Nat) :
    fencesBefore lines (j + 1) = fencesBefore lines j +
      (match lines[j]? with
        | some line => if isFenceLine line then 1 else 0
        | none => 0) := by
  unfold fencesBefore
  rw [List.take_succ, List.filter_append, List.length_append]
  cases h : lines[j]? with
  | none => simp
  | some line =>
    by_cases hf : isFenceLine line = true
    · simp [hf]
    · simp [hf]

/-- With no fence delimiter from line `i` on, the number of delimiters before a later line is
the number before line `i`. -/
theorem fencesBefore_of_no_fence (lines : List Str) (i : Nat)
    (hno : ∀ j line, i ≤ j → lines[j]? = some line → isFenceLine line = false) :
    ∀ j, i ≤ j → fencesBefore lines j = fencesBefore lines i := by
  intro j hij
  induction j with
  | zero =>
    have : i = 0 := by omega
    rw [this]
  | succ k ih =>
    by_cases hk : i ≤ k
    · rw [fencesBefore_succ_index, ih hk]
      cases h : lines[k]? with
      | none => rfl
      | some line => simp [hno k line hk h]
    · have : i = k + 1 := by omega
      rw [this]

theorem lineLengthRule_none_at (relative : Str → Str) (tree : Node) (file : VFile)
    (hs : isStrictFile relative file = true) (i : Nat)
    (hr : reportableLine (splitLines file.contents) i = false) :
    (lineLengthRule relative tree file).filter (pointsAtLine (i + 1)) = [] := by
  rw [lineLengthRule_strict relative tree file hs, List.filter_eq_nil_iff]
  intro m hm
  obtain ⟨j, hj, rfl⟩ := List.mem_map.mp hm
  have hrj := (List.mem_filter.mp hj).2
  intro hp
  have hji : j = i := by
    simpa [pointsAtLine, lineLengthMessage] using hp
  rw [hji, hr] at hrj
  exact absurd hrj (by decide)

theorem lineLengthRule_some_at (relative : Str → Str) (tree : Node) (file : VFile)
    (hs : isStrictFile relative file = true) (i : Nat)
    (hr : reportableLine (splitLines file.contents) i = true) :
    (lineLengthRule relative tree file).filter (pointsAtLine (i + 1)) ≠ [] := by
  rw [lineLengthRule_strict relative tree file hs, Ne, List.filter_eq_nil_iff]
  push_neg
  have hi : i < (splitLines file.contents).length := by
    unfold reportableLine at hr
    by_contra hnot
    have : (splitLines file.contents)[i]? = none := List.getElem?_eq_none (by omega)
    rw [this] at hr
    simp at hr
  refine ⟨lineLengthMessage i, List.mem_map.mpr ⟨i, ?_, rfl⟩, ?_⟩
  · exact List.mem_filter.mpr ⟨List.mem_range.mpr hi, hr⟩
  · simp [pointsAtLine, lineLengthMessage]

/-- C20: in `lineLengthRule` the value of `inFence` on reaching a line is the parity of the
number of fence delimiter lines before it, whichever delimiter they use. So a delimiter line
is never reported, a line is skipped exactly when that number is odd (a long line that is
neither a delimiter nor a table row is reported iff it is even), a fence opened by three
backticks is closed by a line of three tildes, and after a fence that is not closed no later
line is reported. -/
theorem fence_state_is_parity (relative : Str → Str) (tree : Node) (file : VFile)
    (hs : isStrictFile relative file = true) :
    (∀ i, fenceStateAfter false ((splitLines file.contents).take i) =
      insideOpenFence (splitLines file.contents) i) ∧
    (∀ pre rest, splitLines file.contents = pre ++ rest →
      lineLengthRule relative tree file =
        lineLengthLoop false 0 pre ++
          lineLengthLoop (insideOpenFence (splitLines file.contents) pre.length)
            pre.length rest) ∧
    (∀ i, insideOpenFence (splitLines file.contents) i = true →
      (lineLengthRule relative tree file).filter (pointsAtLine (i + 1)) = []) ∧
    (∀ i line, (splitLines file.contents)[i]? = some line → isFenceLine line = true →
      (lineLengthRule relative tree file).filter (pointsAtLine (i + 1)) = []) ∧
    (∀ pre opening mid closing post,
      splitLines file.contents = pre ++ opening :: (mid ++ closing :: post) →
      "```".toList.isPrefixOf (trim opening) = true →
      "~~~".toList.isPrefixOf (trim closing) = true →
      (∀ line ∈ mid, isFenceLine line = false) →
      insideOpenFence (splitLines file.contents) pre.length = false →
      (∀ k, k < mid.length →
        insideOpenFence (splitLines file.contents) (pre.length + 1 + k) = true) ∧
      insideOpenFence (splitLines file.contents) (pre.length + 1 + mid.length + 1) = false) ∧
    (∀ i, insideOpenFence (splitLines file.contents) i = true →
      (∀ j line, i ≤ j → (splitLines file.contents)[j]? = some line →
        isFenceLine line = false) →
      ∀ j, i ≤ j → (lineLengthRule relative tree file).filter (pointsAtLine (j + 1)) = []) ∧
    (∀ i line, (splitLines file.contents)[i]? = some line → isFenceLine line = false →
      isTableLine line = false → 100 < jsLength line →
      ((lineLengthRule relative tree file).filter (pointsAtLine (i + 1)) = [] ↔
        insideOpenFence (splitLines file.contents) i = true)) := by
  have hskip : ∀ i, insideOpenFence (splitLines file.contents) i = true →
      (lineLengthRule relative tree file).filter (pointsAtLine (i + 1)) = [] := by
    intro i hin
    apply lineLengthRule_none_at relative tree file hs
    unfold reportableLine
    cases (splitLines file.contents)[i]? with
    | none => rfl
    | some line => simp [hin]
  refine ⟨insideOpenFence_take _, ?_, hskip, ?_, ?_, ?_, ?_⟩
  · intro pre rest hsplit
    unfold lineLengthRule
    simp only [hs, Bool.not_true, Bool.false_eq_true, if_false]
    have h1 := insideOpenFence_take (splitLines file.contents) pre.length
    rw [← h1]
    have h2 : (splitLines file.contents).take pre.length = pre := by
      rw [hsplit, List.take_left' rfl]
    rw [h2, hsplit, lineLengthLoop_append, Nat.zero_add]
  · intro i line hline hf
    apply lineLengthRule_none_at relative tree file hs
    unfold reportableLine
    rw [hline]
    simp [hf]
  · intro pre opening mid closing post hsplit hopen hclose hmid hbase
    have hfo : isFenceLine opening = true := by
      unfold isFenceLine; rw [hopen]; rfl
    have hfc : isFenceLine closing = true := by
      unfold isFenceLine; rw [hclose]; simp
    have hmidnil : ∀ k, (mid.take k).filter isFenceLine = [] := by
      intro k
      rw [List.filter_eq_nil_iff]
      intro line hl
      rw [hmid line (List.mem_of_mem_take hl)]
      decide
    have hb : fencesBefore (splitLines file.contents) pre.length =
        (pre.filter isFenceLine).length := by
      rw [hsplit]; exact fencesBefore_eq _ _
    have hbase2 : (pre.filter isFenceLine).length % 2 = 0 := by
      unfold insideOpenFence at hbase
      rw [hb] at hbase
      rcases Nat.mod_two_eq_zero_or_one (pre.filter isFenceLine).length with h | h
      · exact h
      · rw [h] at hbase; exact absurd hbase (by decide)
    constructor
    · intro k hk
      have htake : (splitLines file.contents).take (pre.length + 1 + k) =
          pre ++ opening :: mid.take k := by
        have e : splitLines file.contents =
            (pre ++ opening :: mid.take k) ++ (mid.drop k ++ closing :: post) := by
          rw [hsplit]
          simp only [List.append_assoc, List.cons_append, List.take_append_drop]
          rw [← List.append_assoc (mid.take k), List.take_append_drop]
        rw [e]
        apply List.take_left'
        simp only [List.length_append, List.length_cons, List.length_take]
        omega
      unfold insideOpenFence fencesBefore
      rw [htake, List.filter_append, List.filter_cons, hfo, if_pos rfl, hmidnil,
        List.length_append, List.length_cons, List.length_nil]
      have : ((pre.filter isFenceLine).length + (0 + 1)) % 2 = 1 := by omega
      rw [this]
      rfl
    · have htake : (splitLines file.contents).take (pre.length + 1 + mid.length + 1) =
          pre ++ opening :: (mid ++ [closing]) := by
        have e : splitLines file.contents = (pre ++ opening :: (mid ++ [closing])) ++ post := by
          rw [hsplit]
          simp
        rw [e]
        apply List.take_left'
        simp only [List.length_append, List.length_cons, List.length_nil]
        omega
      have hmidall : mid.filter isFenceLine = [] := by
        have := hmidnil mid.length
        rwa [List.take_length] at this
      unfold insideOpenFence fencesBefore
      rw [htake, List.filter_append, List.filter_cons, hfo, if_pos rfl, List.filter_append,
        hmidall, List.filter_cons, hfc, if_pos rfl]
      simp only [List.nil_append, List.filter_nil, List.length_append, List.length_cons,
        List.length_nil]
      have : ((pre.filter isFenceLine).length + (0 + 1 + 1)) % 2 = 0 := by omega
      rw [this]
      rfl
  · intro i hin hno j hij
    apply hskip
    unfold insideOpenFence at hin ⊢
    rw [fencesBefore_of_no_fence _ i hno j hij]
    exact hin
  · intro i line hline hf ht hl
    constructor
    · intro hnone
      cases hin : insideOpenFence (splitLines file.contents) i
      · have hr : reportableLine (splitLines file.contents) i = true := by
          unfold reportableLine
          rw [hline]
          simp [hf, ht, hl, hin]
        exact absurd hnone (lineLengthRule_some_at relative tree file hs i hr)
      · rfl
    · exact hskip i

/-- Witness for C20: a fence opened by three backticks and closed by three tildes hides the
long line inside it and lets the long line after it be reported (line 4), the long delimiter
line itself is not reported; after a fence that is never closed nothing is reported. -/
theorem fence_state_is_parity_witness :
    isStrictFile id (strictFile mixedFenceSample) = true ∧
    (jsLength ("```".toList ++ longLine) = 104 ∧
      (splitLines mixedFenceSample)[0]? = some ("```".toList ++ longLine) ∧
      (lineLengthRule id (rootNode []) (strictFile mixedFenceSample)).filter
        (pointsAtLine 1) = []) ∧
    lineLengthRule id (rootNode []) (strictFile mixedFenceSample) = [lineLengthMessage 3] ∧
    (insideOpenFence (splitLines unclosedFenceSample) 2 = true ∧
      lineLengthRule id (rootNode []) (strictFile unclosedFenceSample) = []) :=
  ⟨by decide,
    ⟨by decide, by decide,
      (fence_state_is_parity id (rootNode []) (strictFile mixedFenceSample) (by decide)).2.2.2.1
        0 ("```".toList ++ longLine) (by decide) (by decide)⟩,
    by rfl,
    ⟨by decide, by rfl⟩⟩

/-! ## Running the preset twice -/

theorem searchFrom_isSome (words : List Str) (prev : Option Char) (s : Str) :
    (searchFrom words prev s).isSome = testFrom words prev s := by
  induction s generalizing prev with
  | nil =>
    rw [searchFrom, testFrom]
    cases wordMatchHere words prev [] <;> rfl
  | cons c cs ih =>
    rw [searchFrom, testFrom]
    cases h : wordMatchHere words prev (c :: cs) with
    | some rest => rfl
    | none =>
      simp only [Option.isSome_none, Bool.false_or, ← ih (some c)]
      cases searchFrom words (some c) cs <;> rfl

theorem wordSearch_zero (words : List Str) (text : Str) :
    (wordSearch words 0 text).isSome = regexTest words text := by
  unfold wordSearch regexTest
  rw [if_pos (Nat.zero_le _), ← searchFrom_isSome]
  simp only [List.take_zero, List.drop_zero, lastOr]
  cases searchFrom words none text <;> rfl

theorem narrativeSearch_zero (text : Str) :
    (narrativeSearch 0 text).isSome = narrativeStartTest text := by
  unfold narrativeSearch narrativeStartTest
  rw [if_pos rfl]
  induction NARRATIVE_WORDS with
  | nil => rfl
  | cons w ws ih =>
    rw [List.findSome?_cons, List.any_cons]
    cases hstrip : stripPrefixCI w text with
    | none => simpa using ih
    | some r =>
      cases r with
      | nil => simpa using ih
      | cons c cs =>
        cases hc : isSpace c
        · simpa [hc] using ih
        · simp [hc]

/-- Without the `g` flag `test` returns whether the pattern matches somewhere and leaves the
object as it is. -/
theorem regExpTest_of_not_global (search : Nat → Str → Option Nat) (re : RegExpObject)
    (text : Str) (h : re.global = false) :
    regExpTest search re text = ((search 0 text).isSome, re) := by
  unfold regExpTest
  rw [h]
  rfl

theorem noModalStep_fold (l : List (Node × List Node)) (acc : Run)
    (h : acc.2.MODAL_RE.global = false) :
    l.foldl noModalStep acc =
      (acc.1 ++ l.filterMap (fun na =>
        if hasCodeAncestor na.2 then none
        else if regexTest MODAL_WORDS (na.1.value.getD []) then
          some ⟨"remark-claude:no-modal-verbs",
            "Modal verbs (may/might/could) are prohibited in body content".toList, .node na.1⟩
        else none), acc.2) := by
  induction l generalizing acc with
  | nil => simp
  | cons na rest ih =>
    rw [List.foldl_cons, List.filterMap_cons]
    have hstep : noModalStep acc na =
        (if hasCodeAncestor na.2 then acc.1
          else if regexTest MODAL_WORDS (na.1.value.getD []) then
            acc.1 ++ [⟨"remark-claude:no-modal-verbs",
              "Modal verbs (may/might/could) are prohibited in body content".toList,
              .node na.1⟩]
          else acc.1, acc.2) := by
      obtain ⟨msgs, ⟨modal, subjective, narrative, emoji⟩⟩ := acc
      simp only at h
      unfold noModalStep
      simp only [regExpTest_of_not_global _ _ _ h, wordSearch_zero]
      by_cases hc : hasCodeAncestor na.2 = true
      · simp [hc]
      · simp [hc]
    rw [hstep, ih _ (by exact h)]
    by_cases hc : hasCodeAncestor na.2 = true
    · simp [hc]
    · by_cases hm : regexTest MODAL_WORDS (na.1.value.getD []) = true
      · simp [hc, hm]
      · simp [hc, hm]

theorem narrativeStep_eq (acc : Run) (node : Node) (h : testedWithoutGlobal acc.2) :
    narrativeStep acc node = (acc.1 ++ narrativeVisitor node, acc.2) := by
  obtain ⟨msgs, ⟨modal, subjective, narrative, emoji⟩⟩ := acc
  obtain ⟨hm, hsj, hn⟩ := h
  simp only at hm hsj hn
  unfold narrativeStep narrativeVisitor
  simp only [regExpTest_of_not_global _ _ _ hm, regExpTest_of_not_global _ _ _ hsj,
    regExpTest_of_not_global _ _ _ hn, wordSearch_zero, narrativeSearch_zero]
  by_cases he : (trim (toString node)).isEmpty = true
  · simp [he]
  · simp only [he, Bool.false_eq_true, if_false]
    split_ifs <;> simp

theorem narrativeStep_fold (l : List Node) (acc : Run) (h : testedWithoutGlobal acc.2) :
    l.foldl narrativeStep acc = (acc.1 ++ l.flatMap narrativeVisitor, acc.2) := by
  induction l generalizing acc with
  | nil => simp
  | cons node rest ih =>
    rw [List.foldl_cons, narrativeStep_eq acc node h, ih _ (by exact h), List.flatMap_cons,
      List.append_assoc]

theorem noEmojiStep_fold (hasEmoji : Str → Bool) (l : List (Node × List Node)) (acc : Run) :
    (l.foldl (noEmojiStep hasEmoji) acc).1 =
      acc.1 ++ l.filterMap (fun na =>
        if hasCodeAncestor na.2 then none
        else if hasEmoji (na.1.value.getD []) then
          some ⟨"remark-claude:no-emoji", "Emojis are prohibited in LLM-facing files".toList,
            .node na.1⟩
        else none) ∧
    (l.foldl (noEmojiStep hasEmoji) acc).2.MODAL_RE = acc.2.MODAL_RE ∧
    (l.foldl (noEmojiStep hasEmoji) acc).2.SUBJECTIVE_RE = acc.2.SUBJECTIVE_RE ∧
    (l.foldl (noEmojiStep hasEmoji) acc).2.NARRATIVE_START_RE = acc.2.NARRATIVE_START_RE ∧
    (l.foldl (noEmojiStep hasEmoji) acc).2.emojiRe.global = acc.2.emojiRe.global := by
  induction l generalizing acc with
  | nil => simp
  | cons na rest ih =>
    rw [List.foldl_cons, List.filterMap_cons]
    obtain ⟨h1, h2, h3, h4, h5⟩ := ih (noEmojiStep hasEmoji acc na)
    rw [h1, h2, h3, h4, h5]
    unfold noEmojiStep stringMatch
    by_cases hc : hasCodeAncestor na.2 = true
    · simp [hc]
    · by_cases he : hasEmoji (na.1.value.getD []) = true
      · by_cases hg : acc.2.emojiRe.global = true
        · simp [hc, he, hg]
        · simp [hc, he, hg]
      · by_cases hg : acc.2.emojiRe.global = true
        · simp [hc, he, hg]
        · simp [hc, he, hg]

theorem settled_settled (re : RegExpObject) : settled (settled re) = settled re := by
  unfold settled
  by_cases h : re.global = true
  · simp [h]
  · simp [h]

theorem noEmojiStep_fold_state (hasEmoji : Str → Bool) (l : List (Node × List Node))
    (acc : Run) :
    (l.foldl (noEmojiStep hasEmoji) acc).2 =
      withEmojiRe acc.2
        (if l.any (fun na => !hasCodeAncestor na.2) then settled acc.2.emojiRe
          else acc.2.emojiRe) := by
  induction l generalizing acc with
  | nil => simp [withEmojiRe]
  | cons na rest ih =>
    rw [List.foldl_cons, ih, List.any_cons]
    obtain ⟨msgs, ⟨modal, subjective, narrative, emoji⟩⟩ := acc
    unfold noEmojiStep stringMatch withEmojiRe
    by_cases hc : hasCodeAncestor na.2 = true
    · simp only [hc, if_true, Bool.not_true, Bool.false_or]
    · have hs : (if emoji.global = true then { emoji with lastIndex := 0 } else emoji) =
          settled emoji := rfl
      simp only [hc, Bool.false_eq_true, if_false, Bool.not_false, Bool.true_or, if_true, hs,
        settled_settled]
      split_ifs <;> rfl

theorem noEmojiRun_eq (hasEmoji : Str → Bool) (relative : Str → Str) (tree : Node)
    (file : VFile) (res : Regexes) :
    noEmojiRun hasEmoji relative tree file res =
      (noEmojiRule hasEmoji relative tree file, regexesAfter relative tree file res) := by
  unfold noEmojiRun noEmojiRule regexesAfter emojiMatchCalled
  by_cases hs : isStrictFile relative file = true
  · simp only [hs, Bool.not_true, Bool.false_eq_true, if_false, Bool.true_and]
    apply Prod.ext
    · rw [(noEmojiStep_fold hasEmoji _ _).1]
      rfl
    · rw [noEmojiStep_fold_state]
      rfl
  · have hs2 : isStrictFile relative file = false := by simpa using hs
    simp [hs2]

theorem noModalRun_eq (relative : Str → Str) (tree : Node) (file : VFile) (res : Regexes)
    (h : res.MODAL_RE.global = false) :
    noModalRun relative tree file res = (noModalRule relative tree file, res) := by
  unfold noModalRun noModalRule
  by_cases hs : isStrictFile relative file = true
  · simp only [hs, Bool.not_true, Bool.false_eq_true, if_false]
    rw [noModalStep_fold _ _ (by exact h)]
    rfl
  · have hs2 : isStrictFile relative file = false := by simpa using hs
    simp [hs2]

theorem narrativeRun_eq (relative : Str → Str) (tree : Node) (file : VFile) (res : Regexes)
    (h : testedWithoutGlobal res) :
    narrativeRun relative tree file res = (narrativeRule relative tree file, res) := by
  unfold narrativeRun narrativeRule
  by_cases hs : isStrictFile relative file = true
  · simp only [hs, Bool.not_true, Bool.false_eq_true, if_false]
    rw [narrativeStep_fold _ _ (by exact h)]
    rfl
  · have hs2 : isStrictFile relative file = false := by simpa using hs
    simp [hs2]

/-- One run emits the messages of the rules, whatever `lastIndex` the objects start with, and
changes nothing but the `lastIndex` of `emojiRe`, which it leaves at 0. -/
theorem presetRun_eq (hasEmoji : Str → Bool) (relative : Str → Str) (tree : Node)
    (file : VFile) (res : Regexes) (h : testedWithoutGlobal res) :
    presetRun hasEmoji relative tree file res =
      (preset hasEmoji relative tree file, regexesAfter relative tree file res) := by
  have h2 : testedWithoutGlobal (regexesAfter relative tree file res) := h
  unfold presetRun
  simp only [noEmojiRun_eq, noModalRun_eq _ _ _ _ h2.1, narrativeRun_eq _ _ _ _ h2]
  rfl

theorem regexesAfter_twice (relative : Str → Str) (tree : Node) (file : VFile)
    (res : Regexes) :
    regexesAfter relative tree file (regexesAfter relative tree file res) =
      regexesAfter relative tree file res := by
  unfold regexesAfter
  by_cases h : emojiMatchCalled relative tree file = true
  · simp [h, settled_settled]
  · simp [h]

/-- C16: running the ordered rule list a second time on the unchanged document gives the same
sequence of messages as the first run: the three expressions used with `test` have no `g`
flag, so `test` neither reads nor writes their `lastIndex`, and `match` resets the
`lastIndex` of the global `emojiRe`; the second run also leaves the objects as it found
them. -/
theorem preset_idempotent (hasEmoji : Str → Bool) (relative : Str → Str) (tree : Node)
    (file : VFile) (res : Regexes) (h : testedWithoutGlobal res) :
    (presetRun hasEmoji relative tree file res).1 = preset hasEmoji relative tree file ∧
    testedWithoutGlobal (presetRun hasEmoji relative tree file res).2 ∧
    (presetRun hasEmoji relative tree file (presetRun hasEmoji relative tree file res).2).1 =
      (presetRun hasEmoji relative tree file res).1 ∧
    (presetRun hasEmoji relative tree file (presetRun hasEmoji relative tree file res).2).2 =
      (presetRun hasEmoji relative tree file res).2 := by
  have h1 := presetRun_eq hasEmoji relative tree file res h
  have hflags : testedWithoutGlobal (presetRun hasEmoji relative tree file res).2 := by
    rw [h1]; exact h
  have h2 := presetRun_eq hasEmoji relative tree file _ hflags
  refine ⟨by rw [h1], hflags, by rw [h2, h1], ?_⟩
  rw [h2, h1]
  exact regexesAfter_twice relative tree file res

/-- With the `g` flag `test` would keep state: the same call answers true, then false. -/
theorem regExpTest_global_keeps_state :
    regExpTest (wordSearch MODAL_WORDS) ⟨true, 0⟩ "may".toList = (true, ⟨true, 3⟩) ∧
    regExpTest (wordSearch MODAL_WORDS) ⟨true, 3⟩ "may".toList = (false, ⟨true, 0⟩) := by
  decide

/-- Witness for C16: a strict document with an emoji, modal verbs, bold text and a narrative
paragraph gets the same five messages from a second run, which starts from the objects the
first run left. -/
theorem preset_idempotent_witness :
    testedWithoutGlobal initialRegexes ∧
    ((presetRun (fun v => v.any isPictograph) id busySample (strictFile [])
      initialRegexes).1).length = 5 ∧
    (presetRun (fun v => v.any isPictograph) id busySample (strictFile [])
      (presetRun (fun v => v.any isPictograph) id busySample (strictFile [])
        initialRegexes).2).1 =
      (presetRun (fun v => v.any isPictograph) id busySample (strictFile [])
        initialRegexes).1 :=
  ⟨by decide, by decide,
    (preset_idempotent (fun v => v.any isPictograph) id busySample (strictFile [])
      initialRegexes (by decide)).2.2.1⟩

end RemarkClaude
